import Mathlib

/-!
# Verification of the population-protocol batch simulator

Shallow embedding of the core components of the `population-simulator`
repository (urns, collision-distribution sampler, epoch-length controller,
fair coin, alias urn, batched epoch engine) together with proofs and
refutations of the specification claims.

Randomness is modelled by an explicit stream `rand : Nat → Nat` together with
a running position: every draw made by the C++ code consumes one stream value
and interprets it (e.g. a uniform draw on `[0, n)` becomes `rand pos % n`).
External samplers (the `sampling::hypergeometric_distribution` library, which
is not part of this repository) are modelled by their documented support.
Undefined behaviour (drawing from an empty urn, running past the end of a
color walk, indexing a stage table out of range) is modelled by `Option`:
a function returns `none` exactly when the C++ code would hit such a state.
-/

namespace PPS

/-- Support-faithful model of one draw from the external
`sampling::hypergeometric_distribution` with `good` success balls, `bad`
failure balls and `draws` trials: the result always lies in the support
`[draws - bad, min good draws]` of the hypergeometric distribution
(the library is an external collaborator; only its support contract is
modelled, the stream value `r` selects the variate). -/
def hypergeometric_draw (good bad draws r : Nat) : Nat :=
  let lo := draws - bad
  let hi := min good draws
  lo + r % (hi + 1 - lo)

theorem hypergeometric_draw_le_good (good bad draws r : Nat)
    (h : draws ≤ good + bad) : hypergeometric_draw good bad draws r ≤ good := by
  unfold hypergeometric_draw
  have hlo : draws - bad ≤ min good draws := by omega
  have hr : r % (min good draws + 1 - (draws - bad)) < min good draws + 1 - (draws - bad) :=
    Nat.mod_lt _ (by omega)
  have : draws - bad + r % (min good draws + 1 - (draws - bad)) ≤ min good draws := by omega
  exact le_trans this (min_le_left _ _)

theorem hypergeometric_draw_le_draws (good bad draws r : Nat)
    (h : draws ≤ good + bad) : hypergeometric_draw good bad draws r ≤ draws := by
  unfold hypergeometric_draw
  have hlo : draws - bad ≤ min good draws := by omega
  have hr : r % (min good draws + 1 - (draws - bad)) < min good draws + 1 - (draws - bad) :=
    Nat.mod_lt _ (by omega)
  have : draws - bad + r % (min good draws + 1 - (draws - bad)) ≤ min good draws := by omega
  exact le_trans this (min_le_right _ _)

theorem hypergeometric_draw_ge (good bad draws r : Nat) :
    draws - bad ≤ hypergeometric_draw good bad draws r := by
  unfold hypergeometric_draw
  exact Nat.le_add_right _ _

/-- The color walk shared by `WeightedUrn::sample_without_replacement` and
`TreeUrn::sample_without_replacement` (the two member functions are verbatim
the same loop over the per-color counts `balls_with_color_`), instantiated
with the removing callback of `remove_random_balls`.

Arguments: the per-color counts still to be walked, the absolute index of
the head color, the number of balls left to sample (`left_to_sample`) and
the stream position.  `unconsidered_balls` equals the total minus all colors
considered so far, i.e. the sum of the remaining counts.  Returns the
emitted `(color, count)` sink calls (only non-zero counts are emitted:
`CallOnEmpty = false`, the instantiation used by the engine), the counts
after removal, and the new stream position.  Returns `none` when the loop
would walk past the last color with `left_to_sample` still positive
(`assert(it_from != cend())` fails; undefined behaviour in release). -/
def wor_walk (rand : Nat → Nat) :
    List Nat → Nat → Nat → Nat → Option (List (Nat × Nat) × List Nat × Nat)
  | counts, _, 0, pos => some ([], counts, pos)
  | [], _, _ + 1, _ => none
  | c :: rest, col, left + 1, pos =>
      let unconsidered := rest.sum
      let num_selected : Nat :=
        if c = 0 then 0
        else if unconsidered = 0 then min (left + 1) c
        else hypergeometric_draw c unconsidered (left + 1) (rand pos)
      let pos1 := if c = 0 then pos else if unconsidered = 0 then pos else pos + 1
      -- a draw violating the library's support contract would underflow
      -- `remove_balls` / `left_to_sample` (assertion failure / unsigned wrap:
      -- undefined behaviour)
      if c < num_selected ∨ left + 1 < num_selected then none
      else
        match wor_walk rand rest (col + 1) (left + 1 - num_selected) pos1 with
        | none => none
        | some (out, rest1, pos2) =>
            some ((if num_selected ≠ 0 then [(col, num_selected)] else []) ++ out,
                  (c - num_selected) :: rest1, pos2)

/-- `WeightedUrn::remove_random_balls<false>` / `TreeUrn::remove_random_balls<false>`:
the early return for an empty urn or zero samples, then the color walk. -/
def remove_random_balls (rand : Nat → Nat) (counts : List Nat) (k pos : Nat) :
    Option (List (Nat × Nat) × List Nat × Nat) :=
  if counts.sum = 0 ∨ k = 0 then some ([], counts, pos)
  else wor_walk rand counts 0 k pos

/-- `WeightedUrn::sample_without_replacement<false>` (also `TreeUrn`'s copy):
same walk, urn left unchanged; only the sink emissions are returned. -/
def sample_without_replacement (rand : Nat → Nat) (counts : List Nat) (k pos : Nat) :
    Option (List (Nat × Nat)) :=
  (remove_random_balls rand counts k pos).map (fun r => r.1)

theorem wor_walk_spec (rand : Nat → Nat) (counts : List Nat) :
    ∀ (left col pos : Nat), left ≤ counts.sum →
    ∃ out rest1 pos2,
      wor_walk rand counts col left pos = some (out, rest1, pos2) ∧
      (out.map Prod.snd).sum = left ∧
      rest1.length = counts.length ∧
      rest1.sum + left = counts.sum ∧
      ∀ p ∈ out, ∃ j, j < counts.length ∧ p.1 = col + j ∧ 0 < p.2 ∧ p.2 ≤ counts.getD j 0 := by
  induction counts with
  | nil =>
    intro left col pos h
    cases left with
    | zero => exact ⟨[], [], pos, rfl, rfl, rfl, by simp, by simp⟩
    | succ l => simp at h
  | cons c rest ih =>
    intro left col pos h
    cases left with
    | zero => exact ⟨[], c :: rest, pos, rfl, rfl, rfl, by simp, by simp⟩
    | succ l =>
      have hsum : l + 1 ≤ c + rest.sum := by simpa using h
      -- the selected count in the head iteration, and the stream position after it
      set ns : Nat :=
        if c = 0 then 0
        else if rest.sum = 0 then min (l + 1) c
        else hypergeometric_draw c rest.sum (l + 1) (rand pos) with hns
      set pos1 : Nat := if c = 0 then pos else if rest.sum = 0 then pos else pos + 1 with hpos1
      have hns_le_c : ns ≤ c := by
        rw [hns]
        split
        · omega
        · split
          · omega
          · exact hypergeometric_draw_le_good _ _ _ _ hsum
      have hns_le_left : ns ≤ l + 1 := by
        rw [hns]
        split
        · omega
        · split
          · omega
          · exact hypergeometric_draw_le_draws _ _ _ _ hsum
      have hleft1 : l + 1 - ns ≤ rest.sum := by
        rw [hns]
        split
        · omega
        · split
          · omega
          · have := hypergeometric_draw_ge c rest.sum (l + 1) (rand pos)
            omega
      obtain ⟨out, rest1, pos2, heq, hosum, hlen, hrsum, hmem⟩ :=
        ih (l + 1 - ns) (col + 1) pos1 hleft1
      refine ⟨(if ns ≠ 0 then [(col, ns)] else []) ++ out, (c - ns) :: rest1, pos2, ?_, ?_, ?_, ?_, ?_⟩
      · show wor_walk rand (c :: rest) col (l + 1) pos = _
        rw [wor_walk, ← hns, ← hpos1]
        rw [if_neg (by omega : ¬(c < ns ∨ l + 1 < ns))]
        rw [heq]
      · by_cases hz : ns = 0 <;> (simp [hz, hosum]; try omega)
      · simpa using hlen
      · have : rest1.sum + (l + 1 - ns) = rest.sum := hrsum
        simp only [List.sum_cons]
        omega
      · intro p hp
        rcases List.mem_append.mp hp with hp1 | hp2
        · have hz : ns ≠ 0 := by
            intro hz
            simp [hz] at hp1
          simp only [hz, if_pos, ne_eq, not_false_iff, List.mem_singleton, if_true] at hp1
          subst hp1
          exact ⟨0, by simp, by simp, Nat.pos_of_ne_zero hz, by simpa using hns_le_c⟩
        · obtain ⟨j, hj, hcol, hpos, hle⟩ := hmem p hp2
          exact ⟨j + 1, by simpa using hj, by omega, hpos, by simpa using hle⟩

/-- Whenever the walk completes (no undefined behaviour was hit), its
emissions sum to `left`, exactly the emitted balls were removed, and every
emitted color is in range — without assuming `left ≤ counts.sum`. -/
theorem wor_walk_conserves (rand : Nat → Nat) :
    ∀ (counts : List Nat) (left col pos : Nat) (out : List (Nat × Nat))
      (rest1 : List Nat) (pos2 : Nat),
      wor_walk rand counts col left pos = some (out, rest1, pos2) →
      (out.map Prod.snd).sum = left ∧ rest1.length = counts.length ∧
      rest1.sum + left = counts.sum ∧
      ∀ p ∈ out, p.1 - col < counts.length := by
  intro counts
  induction counts with
  | nil =>
    intro left col pos out rest1 pos2 h
    cases left with
    | zero =>
      simp only [wor_walk, Option.some.injEq, Prod.mk.injEq] at h
      obtain ⟨h1, h2, h3⟩ := h
      subst h1
      subst h2
      simp
    | succ l => simp [wor_walk] at h
  | cons c rest ih =>
    intro left col pos out rest1 pos2 h
    cases left with
    | zero =>
      simp only [wor_walk, Option.some.injEq, Prod.mk.injEq] at h
      obtain ⟨h1, h2, h3⟩ := h
      subst h1
      subst h2
      simp
    | succ l =>
      rw [wor_walk] at h
      set ns : Nat :=
        if c = 0 then 0
        else if rest.sum = 0 then min (l + 1) c
        else hypergeometric_draw c rest.sum (l + 1) (rand pos) with hns
      set pos1 : Nat := if c = 0 then pos else if rest.sum = 0 then pos else pos + 1 with hpos1
      by_cases hguard : c < ns ∨ l + 1 < ns
      · rw [if_pos hguard] at h
        exact absurd h (by simp)
      · rw [if_neg hguard] at h
        push_neg at hguard
        obtain ⟨hc, hl⟩ := hguard
        cases hrec : wor_walk rand rest (col + 1) (l + 1 - ns) pos1 with
        | none =>
          rw [hrec] at h
          exact absurd h (by simp)
        | some r =>
          obtain ⟨o, r1, p2⟩ := r
          rw [hrec] at h
          simp only [Option.some.injEq, Prod.mk.injEq] at h
          obtain ⟨h1, h2, h3⟩ := h
          subst h1
          subst h2
          obtain ⟨ih1, ih2, ih3, ih4⟩ := ih (l + 1 - ns) (col + 1) pos1 o r1 p2 hrec
          refine ⟨?_, by simpa using ih2, ?_, ?_⟩
          · by_cases hz : ns = 0 <;> (simp [hz, ih1]; try omega)
          · simp only [List.sum_cons]
            omega
          · intro p hp
            rcases List.mem_append.mp hp with hp1 | hp2
            · have hz : ns ≠ 0 := by
                intro hz
                simp [hz] at hp1
              simp only [hz, ne_eq, not_false_iff, List.mem_singleton, if_true] at hp1
              subst hp1
              simp
            · have := ih4 p hp2
              simp only [List.length_cons]
              omega

/-- C2: for every urn with per-color counts `counts` holding `N = counts.sum`
balls and every `k ≤ N`, `sample_without_replacement(k)` and
`remove_random_balls(k)` (the same walk, shared verbatim by the `WeightedUrn`
and `TreeUrn` backends) invoke their sink with `(color, count)` pairs whose
counts sum to exactly `k`, each emitted count positive and not exceeding that
color's current population; the removing variant additionally removes exactly
the emitted counts.  This covers the degenerate branch taken when the running
count of unconsidered balls reaches zero (the `min` branch of the walk). -/
theorem claim_C2 (rand : Nat → Nat) (counts : List Nat) (k pos : Nat)
    (hk : k ≤ counts.sum) :
    ∃ out rest1 pos2,
      remove_random_balls rand counts k pos = some (out, rest1, pos2) ∧
      sample_without_replacement rand counts k pos = some out ∧
      (out.map Prod.snd).sum = k ∧
      (∀ p ∈ out, p.1 < counts.length ∧ 0 < p.2 ∧ p.2 ≤ counts.getD p.1 0) ∧
      rest1.sum + k = counts.sum := by
  by_cases h0 : counts.sum = 0 ∨ k = 0
  · have hk0 : k = 0 := by
      rcases h0 with h0 | h0
      · omega
      · exact h0
    refine ⟨[], counts, pos, ?_, ?_, by simp [hk0], by simp, by omega⟩
    · simp [remove_random_balls, h0]
    · simp [sample_without_replacement, remove_random_balls, h0]
  · obtain ⟨out, rest1, pos2, heq, hosum, _, hrsum, hmem⟩ :=
      wor_walk_spec rand counts k 0 pos hk
    refine ⟨out, rest1, pos2, ?_, ?_, hosum, ?_, hrsum⟩
    · simpa [remove_random_balls, h0] using heq
    · simp [sample_without_replacement, remove_random_balls, h0, heq]
    · intro p hp
      obtain ⟨j, hj, hcol, hpos, hle⟩ := hmem p hp
      refine ⟨by omega, hpos, ?_⟩
      have : p.1 = j := by omega
      rw [this]
      exact hle

/-- Witness for C2 at a concrete urn: counts `[2, 0, 3]`, `k = 4` (the walk
must take the degenerate last-color branch to collect the fourth ball). -/
theorem claim_C2_witness :
    4 ≤ ([2, 0, 3] : List Nat).sum ∧
    ∃ out rest1 pos2,
      remove_random_balls (fun _ => 1) [2, 0, 3] 4 0 = some (out, rest1, pos2) ∧
      sample_without_replacement (fun _ => 1) [2, 0, 3] 4 0 = some out ∧
      (out.map Prod.snd).sum = 4 ∧
      (∀ p ∈ out, p.1 < ([2, 0, 3] : List Nat).length ∧ 0 < p.2 ∧
        p.2 ≤ ([2, 0, 3] : List Nat).getD p.1 0) ∧
      rest1.sum + 4 = ([2, 0, 3] : List Nat).sum :=
  ⟨by decide, claim_C2 (fun _ => 1) [2, 0, 3] 4 0 (by decide)⟩

/-! ## WeightedUrn merge (`operator+=` / `add_urn`) -/

/-- `pps::WeightedUrn`: the per-color counts `balls_with_color_` and the
separately maintained total `number_of_balls_`. -/
structure WeightedUrn where
  balls_with_color : List Nat
  number_of_balls : Nat

/-- The class invariant of `WeightedUrn` (established by every constructor
and preserved by every member function). -/
def WeightedUrn.Inv (u : WeightedUrn) : Prop :=
  u.number_of_balls = u.balls_with_color.sum

/-- `WeightedUrn::operator+=` (also exposed as `add_urn`):
`apply_elementwise(..., std::plus)` on the counts, totals added. -/
def WeightedUrn.add_urn (u o : WeightedUrn) : WeightedUrn :=
  { balls_with_color := List.zipWith (· + ·) u.balls_with_color o.balls_with_color,
    number_of_balls := u.number_of_balls + o.number_of_balls }

/-! ## TreeUrn: partial-sum tree and its merge -/

/-- `tlx::round_up_to_power_of_two`: the smallest power of two that is at
least `n` (for `n ≥ 1`). -/
def roundUpPow2 (n : Nat) : Nat := 2 ^ Nat.clog 2 n

/-- `urns::TreeUrn`: `storage` is the 1-indexed view `tree_1indexed_` of the
node array (0 outside the allocated range); an internal node `1 ≤ j <
first_leaf_` stores the ball count of its LEFT subtree, and color `c`'s leaf
is node `first_leaf_ + c` (the `balls_with_color_` pointer). -/
structure TreeUrn where
  number_of_colors : Nat
  storage : Nat → Int
  number_of_balls : Int

def TreeUrn.first_leaf (t : TreeUrn) : Nat := roundUpPow2 t.number_of_colors

def TreeUrn.number_of_balls_with_color (t : TreeUrn) (c : Nat) : Int :=
  t.storage (t.first_leaf + c)

/-- Sum of the leaf values in the subtree rooted at node `j`, computed with
explicit recursion depth `fuel` (any `fuel > log2` of the tree height is
exact; `first_leaf` suffices). -/
def treeSubtreeSum (firstLeaf numColors : Nat) (storage : Nat → Int) :
    Nat → Nat → Int
  | 0, _ => 0
  | fuel + 1, j =>
      if j < firstLeaf then
        treeSubtreeSum firstLeaf numColors storage fuel (2 * j) +
          treeSubtreeSum firstLeaf numColors storage fuel (2 * j + 1)
      else if j < firstLeaf + numColors then storage j else 0

/-- Structural invariant of the partial-sum tree: every internal node stores
the total of the leaves of its left subtree. -/
def TreeUrn.Consistent (t : TreeUrn) : Prop :=
  ∀ j : Nat, 1 ≤ j → j < t.first_leaf →
    t.storage j =
      treeSubtreeSum t.first_leaf t.number_of_colors t.storage t.first_leaf (2 * j)

/-- `TreeUrn::add_urn(const TreeUrn&)`: node-wise addition of the whole
storage array (internal nodes included), totals added. -/
def TreeUrn.add_urn (t o : TreeUrn) : TreeUrn :=
  { number_of_colors := t.number_of_colors,
    storage := fun j => t.storage j + o.storage j,
    number_of_balls := t.number_of_balls + o.number_of_balls }

theorem sum_zipWith_add :
    ∀ (xs ys : List Nat), xs.length = ys.length →
      (List.zipWith (· + ·) xs ys).sum = xs.sum + ys.sum := by
  intro xs
  induction xs with
  | nil =>
    intro ys h
    cases ys with
    | nil => simp
    | cons y ys => simp at h
  | cons x xs ih =>
    intro ys h
    cases ys with
    | nil => simp at h
    | cons y ys =>
      have := ih ys (by simpa using h)
      simp only [List.zipWith_cons_cons, List.sum_cons, this]
      omega

theorem treeSubtreeSum_add (firstLeaf numColors : Nat) (s1 s2 : Nat → Int) :
    ∀ fuel j,
      treeSubtreeSum firstLeaf numColors (fun i => s1 i + s2 i) fuel j =
        treeSubtreeSum firstLeaf numColors s1 fuel j +
          treeSubtreeSum firstLeaf numColors s2 fuel j := by
  intro fuel
  induction fuel with
  | zero => intro j; simp [treeSubtreeSum]
  | succ fuel ih =>
    intro j
    by_cases hj : j < firstLeaf
    · simp only [treeSubtreeSum, hj, if_pos, ih]
      ring
    · by_cases hj2 : j < firstLeaf + numColors <;>
        simp [treeSubtreeSum, hj, hj2]

/-- C8: merging two urns over the same color set adds per-color counts
element-wise and adds the totals, for both backends; for `TreeUrn`, whose
`add_urn` adds internal tree nodes directly, the internal nodes stay
consistent with the leaf counts.  (For `WeightedUrn` the element-wise sum is
stated per color and through the `N = Σ c[i]` class invariant.) -/
theorem claim_C8 (a b : WeightedUrn) (t o : TreeUrn)
    (hlen : a.balls_with_color.length = b.balls_with_color.length)
    (ha : a.Inv) (hb : b.Inv)
    (hcol : t.number_of_colors = o.number_of_colors)
    (hfl : t.first_leaf = o.first_leaf)
    (_ht : t.Consistent) (_ho : o.Consistent) :
    (∀ i, i < a.balls_with_color.length →
      (a.add_urn b).balls_with_color.getD i 0 =
        a.balls_with_color.getD i 0 + b.balls_with_color.getD i 0) ∧
    (a.add_urn b).number_of_balls = a.number_of_balls + b.number_of_balls ∧
    (a.add_urn b).Inv ∧
    (∀ c, (t.add_urn o).number_of_balls_with_color c =
      t.number_of_balls_with_color c + o.number_of_balls_with_color c) ∧
    (t.add_urn o).number_of_balls = t.number_of_balls + o.number_of_balls ∧
    (t.add_urn o).Consistent := by
  refine ⟨?_, rfl, ?_, ?_, rfl, ?_⟩
  · intro i hi
    have hi2 : i < b.balls_with_color.length := hlen ▸ hi
    simp [WeightedUrn.add_urn, List.getD_eq_getElem?_getD,
      List.getElem?_zipWith, List.getElem?_eq_getElem, hi, hi2]
  · have hz := sum_zipWith_add a.balls_with_color b.balls_with_color hlen
    have ha2 : a.number_of_balls = a.balls_with_color.sum := ha
    have hb2 : b.number_of_balls = b.balls_with_color.sum := hb
    show (a.add_urn b).number_of_balls =
      (List.zipWith (· + ·) a.balls_with_color b.balls_with_color).sum
    rw [hz]
    show a.number_of_balls + b.number_of_balls = _
    omega
  · intro c
    simp [TreeUrn.add_urn, TreeUrn.number_of_balls_with_color, TreeUrn.first_leaf,
      roundUpPow2, hcol]
  · intro j hj1 hj2
    have hflA : (t.add_urn o).first_leaf = t.first_leaf := rfl
    have hcolA : (t.add_urn o).number_of_colors = t.number_of_colors := rfl
    have hjt : j < t.first_leaf := by
      simpa [hflA] using hj2
    have hjo : j < o.first_leaf := hfl ▸ hjt
    have h1 := _ht j hj1 hjt
    have h2 := _ho j hj1 hjo
    show t.storage j + o.storage j = _
    have hadd := treeSubtreeSum_add t.first_leaf t.number_of_colors t.storage o.storage
      t.first_leaf (2 * j)
    calc t.storage j + o.storage j
        = treeSubtreeSum t.first_leaf t.number_of_colors t.storage t.first_leaf (2 * j) +
            treeSubtreeSum o.first_leaf o.number_of_colors o.storage o.first_leaf (2 * j) := by
          rw [← h1, ← h2]
      _ = treeSubtreeSum t.first_leaf t.number_of_colors
            (fun i => t.storage i + o.storage i) t.first_leaf (2 * j) := by
          rw [hadd, hfl, hcol]
      _ = _ := by
          simp [TreeUrn.add_urn, TreeUrn.first_leaf, roundUpPow2]

/-- Concrete storage of a 2-color tree urn holding 5 and 7 balls. -/
def treeStorageA : Nat → Int := fun j =>
  if j = 1 then 5 else if j = 2 then 5 else if j = 3 then 7 else 0

/-- Concrete storage of a 2-color tree urn holding 2 and 1 balls. -/
def treeStorageB : Nat → Int := fun j =>
  if j = 1 then 2 else if j = 2 then 2 else if j = 3 then 1 else 0

theorem treeUrnA_first_leaf : (⟨2, treeStorageA, 12⟩ : TreeUrn).first_leaf = 2 := by
  simp [TreeUrn.first_leaf, roundUpPow2, Nat.clog]

theorem treeUrnB_first_leaf : (⟨2, treeStorageB, 3⟩ : TreeUrn).first_leaf = 2 := by
  simp [TreeUrn.first_leaf, roundUpPow2, Nat.clog]

theorem treeUrnA_consistent : (⟨2, treeStorageA, 12⟩ : TreeUrn).Consistent := by
  intro j h1 h2
  rw [treeUrnA_first_leaf] at h2 ⊢
  interval_cases j
  decide

theorem treeUrnB_consistent : (⟨2, treeStorageB, 3⟩ : TreeUrn).Consistent := by
  intro j h1 h2
  rw [treeUrnB_first_leaf] at h2 ⊢
  interval_cases j
  decide

/-- Witness for C8 at concrete urns: weighted urns `[1,2]` and `[4,5]`,
tree urns with counts `(5,7)` and `(2,1)`. -/
theorem claim_C8_witness :
    (∀ i, i < ((⟨[1, 2], 3⟩ : WeightedUrn)).balls_with_color.length →
      ((⟨[1, 2], 3⟩ : WeightedUrn).add_urn ⟨[4, 5], 9⟩).balls_with_color.getD i 0 =
        (⟨[1, 2], 3⟩ : WeightedUrn).balls_with_color.getD i 0 +
          (⟨[4, 5], 9⟩ : WeightedUrn).balls_with_color.getD i 0) ∧
    ((⟨[1, 2], 3⟩ : WeightedUrn).add_urn ⟨[4, 5], 9⟩).number_of_balls = 3 + 9 ∧
    ((⟨[1, 2], 3⟩ : WeightedUrn).add_urn ⟨[4, 5], 9⟩).Inv ∧
    (∀ c, ((⟨2, treeStorageA, 12⟩ : TreeUrn).add_urn
        ⟨2, treeStorageB, 3⟩).number_of_balls_with_color c =
      (⟨2, treeStorageA, 12⟩ : TreeUrn).number_of_balls_with_color c +
        (⟨2, treeStorageB, 3⟩ : TreeUrn).number_of_balls_with_color c) ∧
    ((⟨2, treeStorageA, 12⟩ : TreeUrn).add_urn ⟨2, treeStorageB, 3⟩).number_of_balls = 12 + 3 ∧
    ((⟨2, treeStorageA, 12⟩ : TreeUrn).add_urn ⟨2, treeStorageB, 3⟩).Consistent :=
  claim_C8 ⟨[1, 2], 3⟩ ⟨[4, 5], 9⟩ ⟨2, treeStorageA, 12⟩ ⟨2, treeStorageB, 3⟩
    (by decide) rfl rfl rfl rfl
    treeUrnA_consistent treeUrnB_consistent

/-! ## FairCoin -/

/-- State of `pps::FairCoin`: the 64-bit buffer `buf_` (a natural `< 2^64`
after any refill) and the counter `valid_`. -/
structure FairCoinState where
  buf : Nat
  valid : Nat
deriving DecidableEq

/-- Initial state: `valid_{0}`; `buf_` is uninitialised in the source and
therefore arbitrary here. -/
def FairCoin.init (buf0 : Nat) : FairCoinState := ⟨buf0, 0⟩

/-- One call of `FairCoin::operator()`.  When `valid_` is zero the coin
refills `buf_` with a fresh 64-bit uniform variate (one stream value) and
sets `valid_ = 64`; otherwise `valid_` is decremented.  The result is bit 0
of the buffer, which is then shifted right once.  Returns
`(result, state, stream position)`. -/
def FairCoin.step (rand : Nat → Nat) (s : FairCoinState) (pos : Nat) :
    Bool × FairCoinState × Nat :=
  if s.valid = 0 then
    let buf := rand pos % 2 ^ 64
    (buf % 2 = 1, ⟨buf / 2, 64⟩, pos + 1)
  else
    (s.buf % 2 = 1, ⟨s.buf / 2, s.valid - 1⟩, pos)

/-- `n` successive calls of `FairCoin::operator()`; returns the list of
results (in call order), the final state and the stream position. -/
def FairCoin.run (rand : Nat → Nat) : Nat → FairCoinState → Nat →
    List Bool × FairCoinState × Nat
  | 0, s, pos => ([], s, pos)
  | n + 1, s, pos =>
      let (b, s1, pos1) := FairCoin.step rand s pos
      let (bs, s2, pos2) := FairCoin.run rand n s1 pos1
      (b :: bs, s2, pos2)

theorem FairCoin.run_append (rand : Nat → Nat) (m n : Nat) :
    ∀ (s : FairCoinState) (pos : Nat),
      FairCoin.run rand (m + n) s pos =
        (let r1 := FairCoin.run rand m s pos
         let r2 := FairCoin.run rand n r1.2.1 r1.2.2
         (r1.1 ++ r2.1, r2.2)) := by
  induction m with
  | zero => intro s pos; simp [FairCoin.run]
  | succ m ih =>
    intro s pos
    have : m + 1 + n = (m + n) + 1 := by omega
    rw [this]
    simp only [FairCoin.run, ih]
    simp

/-- As long as `valid_ > 0` the coin does not refill: `n ≤ v` calls from
state `⟨b, v⟩` return the low `n` bits of `b` and shift the buffer. -/
theorem FairCoin.run_no_refill (rand : Nat → Nat) :
    ∀ (n b v pos : Nat), n ≤ v →
      FairCoin.run rand n ⟨b, v⟩ pos =
        ((List.range n).map (fun i => decide (b / 2 ^ i % 2 = 1)),
          ⟨b / 2 ^ n, v - n⟩, pos) := by
  intro n
  induction n with
  | zero => intro b v pos _; simp [FairCoin.run]
  | succ n ih =>
    intro b v pos hv
    have hvne : v ≠ 0 := by omega
    simp only [FairCoin.run, FairCoin.step, if_neg hvne]
    rw [ih (b / 2) (v - 1) pos (by omega)]
    have hl : (List.range (n + 1)).map (fun i => decide (b / 2 ^ i % 2 = 1)) =
        decide (b % 2 = 1) :: (List.range n).map (fun i => decide (b / 2 / 2 ^ i % 2 = 1)) := by
      rw [List.range_succ_eq_map]
      simp only [List.map_cons, List.map_map]
      refine congrArg₂ _ (by simp) ?_
      apply List.map_congr_left
      intro i _
      have hdiv : b / 2 / 2 ^ i = b / 2 ^ (i + 1) := by
        rw [Nat.div_div_eq_div_mul, pow_succ, Nat.mul_comm]
      simp [Function.comp, hdiv]
    rw [hl]
    have hs : b / 2 / 2 ^ n = b / 2 ^ (n + 1) := by
      rw [Nat.div_div_eq_div_mul, pow_succ, Nat.mul_comm]
    rw [hs]
    have hv : v - 1 - n = v - (n + 1) := by omega
    rw [hv]

/-- One refill cycle of 65 calls, starting from an exhausted buffer
(`valid_ = 0`): exactly one 64-bit variate is consumed, the final state is
exhausted again (buffer fully shifted out), and the 65th (last) result is
`false` because the buffer has been right-shifted 64 times since the
refill. -/
theorem FairCoin.cycle (rand : Nat → Nat) (buf0 pos : Nat) :
    ∃ out : List Bool,
      FairCoin.run rand 65 ⟨buf0, 0⟩ pos = (out, ⟨0, 0⟩, pos + 1) ∧
      out.length = 65 ∧ out.getD 64 true = false := by
  have hb : rand pos % 2 ^ 64 < 2 ^ 64 := Nat.mod_lt _ (by positivity)
  have h65 : (65 : Nat) = 1 + 64 := rfl
  rw [h65, FairCoin.run_append]
  have h1 : FairCoin.run rand 1 ⟨buf0, 0⟩ pos =
      ([decide (rand pos % 2 ^ 64 % 2 = 1)], ⟨rand pos % 2 ^ 64 / 2, 64⟩, pos + 1) := by
    simp [FairCoin.run, FairCoin.step]
  rw [h1]
  dsimp only
  rw [FairCoin.run_no_refill rand 64 (rand pos % 2 ^ 64 / 2) 64 (pos + 1) le_rfl]
  dsimp only
  have hzero : rand pos % 2 ^ 64 / 2 / 2 ^ 64 = 0 := by
    apply Nat.div_eq_of_lt
    omega
  refine ⟨[decide (rand pos % 2 ^ 64 % 2 = 1)] ++
      (List.range 64).map (fun i => decide (rand pos % 2 ^ 64 / 2 / 2 ^ i % 2 = 1)), ?_, ?_, ?_⟩
  · rw [hzero]
  · simp
  · -- element 64 of the cycle output is bit 64 of the refill variate: zero
    have hlast : rand pos % 2 ^ 64 / 2 / 2 ^ 63 = 0 := by
      apply Nat.div_eq_of_lt
      have h2 : (2 : Nat) ^ 64 = 2 ^ 63 * 2 := by norm_num [pow_succ]
      omega
    rw [List.getD_eq_getElem?_getD, List.getElem?_append_right (by simp)]
    simp
    norm_num at hlast
    omega

/-- C9: in every sequence of calls to `FairCoin::operator()` starting from
the freshly constructed coin (`valid_ = 0`), each refill cycle consists of
65 calls per 64-bit variate drawn from the generator (the refilling call
plus 64 further calls — after `65·n` calls exactly `n` variates have been
consumed and the buffer is exhausted again), and the last call of each
cycle returns `false` regardless of the generator's output, because the
64-bit buffer has been right-shifted 64 times. -/
theorem claim_C9 (rand : Nat → Nat) (buf0 pos : Nat) :
    ∀ n : Nat, ∃ (out : List Bool) (sfin : FairCoinState),
      FairCoin.run rand (65 * n) (FairCoin.init buf0) pos = (out, sfin, pos + n) ∧
      out.length = 65 * n ∧ sfin.valid = 0 ∧
      ∀ j, j < n → out.getD (65 * j + 64) true = false := by
  intro n
  induction n generalizing buf0 pos with
  | zero =>
    exact ⟨[], FairCoin.init buf0, by simp [FairCoin.run], rfl, rfl, by omega⟩
  | succ n ih =>
    obtain ⟨out1, hcyc, hlen1, hget1⟩ := FairCoin.cycle rand buf0 pos
    obtain ⟨out2, sfin, hrun2, hlen2, hvalid2, hget2⟩ := ih 0 (pos + 1)
    have hsplit : 65 * (n + 1) = 65 + 65 * n := by ring
    refine ⟨out1 ++ out2, sfin, ?_, ?_, hvalid2, ?_⟩
    · rw [hsplit, FairCoin.run_append]
      show (let r1 := FairCoin.run rand 65 (FairCoin.init buf0) pos
            let r2 := FairCoin.run rand (65 * n) r1.2.1 r1.2.2
            (r1.1 ++ r2.1, r2.2)) = _
      rw [show FairCoin.init buf0 = (⟨buf0, 0⟩ : FairCoinState) from rfl, hcyc]
      show (out1 ++ (FairCoin.run rand (65 * n) ⟨0, 0⟩ (pos + 1)).1,
            (FairCoin.run rand (65 * n) ⟨0, 0⟩ (pos + 1)).2) = _
      rw [show (⟨0, 0⟩ : FairCoinState) = FairCoin.init 0 from rfl, hrun2]
      show (out1 ++ out2, sfin, pos + 1 + n) = _
      rw [show pos + 1 + n = pos + (n + 1) by omega]
    · simp [hlen1, hlen2]
      ring
    · intro j hj
      cases j with
      | zero =>
        rw [List.getD_eq_getElem?_getD, List.getElem?_append_left (by omega)]
        simpa [List.getD_eq_getElem?_getD] using hget1
      | succ j =>
        have hge : out1.length ≤ 65 * (j + 1) + 64 := by omega
        rw [List.getD_eq_getElem?_getD, List.getElem?_append_right hge]
        have : 65 * (j + 1) + 64 - out1.length = 65 * j + 64 := by omega
        rw [this]
        have := hget2 j (by omega)
        simpa [List.getD_eq_getElem?_getD] using this

/-- Witness for C9: two full cycles (130 calls) on the constant stream `5`. -/
theorem claim_C9_witness :
    ∃ (out : List Bool) (sfin : FairCoinState),
      FairCoin.run (fun _ => 5) (65 * 2) (FairCoin.init 0) 0 = (out, sfin, 0 + 2) ∧
      out.length = 65 * 2 ∧ sfin.valid = 0 ∧
      ∀ j, j < 2 → out.getD (65 * j + 64) true = false :=
  claim_C9 (fun _ => 5) 0 0 2

/-! ## CollisionDisitribution (sic): tabulated bracketed root finding

`double` values are modelled by `ℚ` (exact field arithmetic; every flow of
`compute`, `bisection` and `reg_falsi` that the bracket claim depends on is
guarded by explicit comparisons, so bracket membership is insensitive to
rounding).  The target function built from `lgamma` is an arbitrary function
parameter `f : ℚ → ℚ`. -/

/-- Truncation of a rational toward zero, the semantics of the C++
`static_cast<long long>(double)`. -/
def ratTrunc (q : ℚ) : ℤ := if 0 ≤ q then ⌊q⌋ else ⌈q⌉

theorem ratTrunc_mono {q r : ℚ} (h : q ≤ r) : ratTrunc q ≤ ratTrunc r := by
  unfold ratTrunc
  split
  · rw [if_pos (by linarith)]
    exact Int.floor_le_floor h
  · split
    · -- q < 0 ≤ r: ⌈q⌉ ≤ 0 ≤ ⌊r⌋
      have h1 : ⌈q⌉ ≤ 0 := Int.ceil_le.mpr (by push_cast; linarith)
      have h2 : (0 : ℤ) ≤ ⌊r⌋ := Int.le_floor.mpr (by push_cast; linarith)
      omega
    · exact Int.ceil_le_ceil h

theorem le_ratTrunc_of_le {m : ℤ} {q : ℚ} (h : (m : ℚ) ≤ q) : m ≤ ratTrunc q := by
  unfold ratTrunc
  split
  · exact Int.le_floor.mpr h
  · exact Int.cast_le.mp (le_trans h (Int.le_ceil q))

theorem ratTrunc_le_of_le {m : ℤ} {q : ℚ} (h : q ≤ (m : ℚ)) : ratTrunc q ≤ m := by
  unfold ratTrunc
  split
  · exact Int.floor_le_floor (α := ℚ) h |>.trans (by simp)
  · exact Int.ceil_le.mpr h

/-- `CollisionDisitribution::midpoint`. -/
def cdMidpoint (left right : ℤ) : ℤ := left + (right - left) / 2

/-- `CollisionDisitribution::bisection`, written with an explicit iteration
budget; the budget `(right - left).toNat` passed by `bisection` below can
never be exhausted because the interval shrinks by at least one slot per
iteration, so the recursion is exactly the C++ `while (left + 1 < right)`
loop. -/
def bisectionAux (f : ℤ → ℚ) : Nat → ℤ → ℤ → ℤ
  | 0, left, _ => left
  | fuel + 1, left, right =>
      if left + 1 < right then
        let mid := cdMidpoint left right
        if f mid > 0 then bisectionAux f fuel left mid
        else bisectionAux f fuel mid right
      else left

def bisection (f : ℤ → ℚ) (left right : ℤ) : ℤ :=
  bisectionAux f (right - left).toNat left right

theorem bisectionAux_mem (f : ℤ → ℚ) :
    ∀ (fuel : Nat) (left right : ℤ), left ≤ right →
      left ≤ bisectionAux f fuel left right ∧ bisectionAux f fuel left right ≤ right := by
  intro fuel
  induction fuel with
  | zero => intro left right h; exact ⟨le_rfl, h⟩
  | succ fuel ih =>
    intro left right h
    rw [bisectionAux]
    by_cases hlr : left + 1 < right
    · rw [if_pos hlr]
      have hmid1 : left + 1 ≤ cdMidpoint left right := by
        unfold cdMidpoint
        omega
      have hmid2 : cdMidpoint left right ≤ right - 1 := by
        unfold cdMidpoint
        omega
      by_cases hf : f (cdMidpoint left right) > 0
      · rw [if_pos hf]
        obtain ⟨h1, h2⟩ := ih left (cdMidpoint left right) (by omega)
        exact ⟨h1, by omega⟩
      · rw [if_neg hf]
        obtain ⟨h1, h2⟩ := ih (cdMidpoint left right) right (by omega)
        exact ⟨by omega, h2⟩
    · rw [if_neg hlr]
      exact ⟨le_rfl, h⟩

theorem bisection_mem (f : ℤ → ℚ) (left right : ℤ) (h : left ≤ right) :
    left ≤ bisection f left right ∧ bisection f left right ≤ right :=
  bisectionAux_mem f (right - left).toNat left right h

/-- The 15-iteration regula-falsi loop of `CollisionDisitribution::reg_falsi`.
State: continuous bracket `x0 < x1` with values `f0, f1`.  On convergence
(`x0 + 1.0 >= x1`) the truncated `x0` is returned; when the interpolated
point leaves the bracket the loop breaks; after a break or 15 iterations the
search finishes with an integer bisection on
`[(value_type)x0, min(x1int, (value_type)x1 + 1)]`. -/
def regFalsiLoop (f : ℚ → ℚ) (x1int : ℤ) : Nat → ℚ → ℚ → ℚ → ℚ → ℤ
  | 0, x0, _f0, x1, _f1 =>
      bisection (fun k => f (k : ℚ)) (ratTrunc x0) (min x1int (ratTrunc x1 + 1))
  | i + 1, x0, f0, x1, f1 =>
      if x0 + 1 ≥ x1 then ratTrunc x0
      else
        let new_x := (x0 * f1 - x1 * f0) / (f1 - f0)
        let new_f := f new_x
        if ¬(x0 < new_x ∧ new_x < x1) then
          bisection (fun k => f (k : ℚ)) (ratTrunc x0) (min x1int (ratTrunc x1 + 1))
        else if new_f < 0 then regFalsiLoop f x1int i new_x new_f x1 f1
        else regFalsiLoop f x1int i x0 f0 new_x new_f

/-- `CollisionDisitribution::reg_falsi`: degenerate bracket short-circuit,
one bisection step to obtain the two initial function values, the
`f0 == 0.0` short-circuit, then the 15-iteration loop. -/
def reg_falsi (f : ℚ → ℚ) (x0int x1int : ℤ) : ℤ :=
  if x0int + 1 ≥ x1int then x0int
  else
    let mid := cdMidpoint x0int x1int
    let val := f (mid : ℚ)
    let s : ℚ × ℚ × ℚ × ℚ :=
      if val < 0 then ((mid : ℚ), val, (x1int : ℚ), f (x1int : ℚ))
      else ((x0int : ℚ), f (x0int : ℚ), (mid : ℚ), val)
    if s.2.1 = 0 then x0int
    else regFalsiLoop f x1int 15 s.1 s.2.1 s.2.2.1 s.2.2.2

theorem regFalsiLoop_mem (f : ℚ → ℚ) (x0int x1int : ℤ) :
    ∀ (fuel : Nat) (x0 f0 x1 f1 : ℚ),
      (x0int : ℚ) ≤ x0 → x0 < x1 → x1 ≤ (x1int : ℚ) →
      x0int ≤ regFalsiLoop f x1int fuel x0 f0 x1 f1 ∧
        regFalsiLoop f x1int fuel x0 f0 x1 f1 ≤ x1int := by
  have hfinish : ∀ (x0 x1 : ℚ), (x0int : ℚ) ≤ x0 → x0 < x1 → x1 ≤ (x1int : ℚ) →
      x0int ≤ bisection (fun k => f (k : ℚ)) (ratTrunc x0) (min x1int (ratTrunc x1 + 1)) ∧
        bisection (fun k => f (k : ℚ)) (ratTrunc x0) (min x1int (ratTrunc x1 + 1)) ≤ x1int := by
    intro x0 x1 h0 h01 h1
    have hl : x0int ≤ ratTrunc x0 := le_ratTrunc_of_le h0
    have hr1 : ratTrunc x0 ≤ x1int := ratTrunc_le_of_le (by linarith)
    have hr2 : ratTrunc x0 ≤ ratTrunc x1 + 1 :=
      le_trans (ratTrunc_mono (le_of_lt h01)) (by omega)
    obtain ⟨hm1, hm2⟩ := bisection_mem (fun k => f (k : ℚ)) (ratTrunc x0)
      (min x1int (ratTrunc x1 + 1)) (le_min hr1 hr2)
    exact ⟨le_trans hl hm1, le_trans hm2 (min_le_left _ _)⟩
  intro fuel
  induction fuel with
  | zero =>
    intro x0 f0 x1 f1 h0 h01 h1
    exact hfinish x0 x1 h0 h01 h1
  | succ fuel ih =>
    intro x0 f0 x1 f1 h0 h01 h1
    rw [regFalsiLoop]
    by_cases hconv : x0 + 1 ≥ x1
    · rw [if_pos hconv]
      exact ⟨le_ratTrunc_of_le h0, ratTrunc_le_of_le (by linarith)⟩
    · rw [if_neg hconv]
      set new_x := (x0 * f1 - x1 * f0) / (f1 - f0) with hnx
      by_cases hbrk : ¬(x0 < new_x ∧ new_x < x1)
      · simp only [if_pos hbrk]
        exact hfinish x0 x1 h0 h01 h1
      · simp only [if_neg hbrk]
        push_neg at hbrk
        obtain ⟨hb1, hb2⟩ := hbrk
        by_cases hnf : f new_x < 0
        · rw [if_pos hnf]
          exact ih new_x (f new_x) x1 f1 (by linarith) hb2 h1
        · rw [if_neg hnf]
          exact ih x0 f0 new_x (f new_x) h0 hb1 (by linarith)

theorem reg_falsi_mem (f : ℚ → ℚ) (x0int x1int : ℤ) (h : x0int ≤ x1int) :
    x0int ≤ reg_falsi f x0int x1int ∧ reg_falsi f x0int x1int ≤ x1int := by
  rw [reg_falsi]
  by_cases hdeg : x0int + 1 ≥ x1int
  · rw [if_pos hdeg]
    exact ⟨le_rfl, h⟩
  · rw [if_neg hdeg]
    have hmid1 : x0int + 1 ≤ cdMidpoint x0int x1int := by
      unfold cdMidpoint
      omega
    have hmid2 : cdMidpoint x0int x1int ≤ x1int - 1 := by
      unfold cdMidpoint
      omega
    by_cases hval : f ((cdMidpoint x0int x1int : ℤ) : ℚ) < 0
    · simp only [if_pos hval]
      by_cases hz : f ((cdMidpoint x0int x1int : ℤ) : ℚ) = 0
      · simp only [if_pos hz]
        exact ⟨le_rfl, h⟩
      · simp only [if_neg hz]
        refine regFalsiLoop_mem f x0int x1int 15 _ _ _ _ ?_ ?_ ?_
        · exact_mod_cast by omega
        · exact_mod_cast by omega
        · exact le_rfl
    · simp only [if_neg hval]
      by_cases hz : f ((x0int : ℤ) : ℚ) = 0
      · simp only [if_pos hz]
        exact ⟨le_rfl, h⟩
      · simp only [if_neg hz]
        refine regFalsiLoop_mem f x0int x1int 15 _ _ _ _ le_rfl ?_ ?_
        · exact_mod_cast by omega
        · exact_mod_cast by omega

/-- The two precomputed bracket tables of `CollisionDisitribution`
(`stages_` and `small_stages_`), indexed by stage and estimate slot. -/
structure CollisionTables where
  stages : Nat → Nat → ℤ × ℤ
  small_stages : Nat → Nat → ℤ × ℤ

/-- The bracket `CollisionDisitribution::compute` selects for the uniform
variate: the fine table `small_stages_` at slot `⌊U·64²⌋` when `U·64 < 1`
(which also forces the bisection path), otherwise `stages_` at `⌊U·64⌋`. -/
def computeLimits (tbl : CollisionTables) (current_stage : Nat) (uniform : ℚ) :
    (ℤ × ℤ) × Bool :=
  if uniform * 64 < 1 then
    (tbl.small_stages current_stage (ratTrunc (uniform * (64 * 64))).toNat, true)
  else
    (tbl.stages current_stage (ratTrunc (uniform * 64)).toNat, false)

/-- `CollisionDisitribution::compute`: select the bracket, then search it by
integer bisection (small `n_green` or fine bracket) or by regula falsi with
bisection finish. -/
def CollisionDisitribution.compute (tbl : CollisionTables) (current_stage : Nat)
    (n_green : ℤ) (f : ℚ → ℚ) (uniform : ℚ) : ℤ :=
  let lf := computeLimits tbl current_stage uniform
  if n_green < 1000000 ∨ lf.2 then bisection (fun k => f (k : ℚ)) lf.1.1 lf.1.2
  else reg_falsi f lf.1.1 lf.1.2

/-- C4: for every table of precomputed brackets whose entries satisfy the
constructor's invariant `k_lo ≤ k_hi`, every stage, every `n_green`, every
target function and every uniform variate `U ∈ (0,1)`,
`CollisionDisitribution::compute` returns a value inside the bracket
selected by the stage and by `⌊U·64⌋` (resp. `⌊U·64²⌋` when `U < 1/64`) —
on the integer-bisection path and on the regula-falsi path alike. -/
theorem claim_C4 (tbl : CollisionTables) (current_stage : Nat) (n_green : ℤ)
    (f : ℚ → ℚ) (uniform : ℚ)
    (_hu0 : 0 < uniform) (_hu1 : uniform < 1)
    (htbl : ∀ s i, (tbl.stages s i).1 ≤ (tbl.stages s i).2)
    (hstbl : ∀ s i, (tbl.small_stages s i).1 ≤ (tbl.small_stages s i).2) :
    (computeLimits tbl current_stage uniform).1.1 ≤
      CollisionDisitribution.compute tbl current_stage n_green f uniform ∧
    CollisionDisitribution.compute tbl current_stage n_green f uniform ≤
      (computeLimits tbl current_stage uniform).1.2 := by
  have hle : (computeLimits tbl current_stage uniform).1.1 ≤
      (computeLimits tbl current_stage uniform).1.2 := by
    unfold computeLimits
    split
    · exact hstbl _ _
    · exact htbl _ _
  unfold CollisionDisitribution.compute
  dsimp only
  split
  · exact bisection_mem _ _ _ hle
  · exact reg_falsi_mem _ _ _ hle

/-- Witness for C4: the constant bracket table `(0, 5)`, target
`f x = 3 - x`, `n_green = 2·10⁶` and `U = 1/2`, which takes the
regula-falsi path. -/
theorem claim_C4_witness :
    (computeLimits ⟨fun _ _ => (0, 5), fun _ _ => (0, 5)⟩ 3 (1 / 2)).1.1 ≤
      CollisionDisitribution.compute ⟨fun _ _ => (0, 5), fun _ _ => (0, 5)⟩ 3 2000000
        (fun x => 3 - x) (1 / 2) ∧
    CollisionDisitribution.compute ⟨fun _ _ => (0, 5), fun _ _ => (0, 5)⟩ 3 2000000
        (fun x => 3 - x) (1 / 2) ≤
      (computeLimits ⟨fun _ _ => (0, 5), fun _ _ => (0, 5)⟩ 3 (1 / 2)).1.2 :=
  claim_C4 ⟨fun _ _ => (0, 5), fun _ _ => (0, 5)⟩ 3 2000000 (fun x => 3 - x) (1 / 2)
    (by norm_num) (by norm_num)
    (by
      intro s i
      show (0 : ℤ) ≤ 5
      decide)
    (by
      intro s i
      show (0 : ℤ) ≤ 5
      decide)

/-! ## Single-ball urn operations -/

/-- Decrement the count at index `i`. -/
def decAt : List Nat → Nat → List Nat
  | [], _ => []
  | c :: rest, 0 => (c - 1) :: rest
  | c :: rest, i + 1 => c :: decAt rest i

/-- Add `n` balls at index `i` (`add_balls(col, n)`; `col` must be in range,
in-range use is established where needed). -/
def addAt : List Nat → Nat → Nat → List Nat
  | [], _, _ => []
  | c :: rest, 0, n => (c + n) :: rest
  | c :: rest, i + 1, n => c :: addAt rest i n

/-- The stable color-ordered walk mapping a uniform ball index to its color
(`WeightedUrn::get_random_ball`; `TreeUrn` yields the same stable order via
its left-to-right tree descent). -/
def colorOfIndex : List Nat → Nat → Nat
  | [], _ => 0
  | c :: rest, idx => if idx < c then 0 else 1 + colorOfIndex rest (idx - c)

/-- `remove_random_ball`: pick a uniform ball index, walk to its color,
decrement.  Drawing from an empty urn is undefined behaviour (`none`). -/
def remove_random_ball (counts : List Nat) (r : Nat) : Option (Nat × List Nat) :=
  if counts.sum = 0 then none
  else
    let col := colorOfIndex counts (r % counts.sum)
    some (col, decAt counts col)

theorem decAt_length : ∀ (counts : List Nat) (i : Nat), (decAt counts i).length = counts.length := by
  intro counts
  induction counts with
  | nil => intro i; rfl
  | cons c rest ih =>
    intro i
    cases i with
    | zero => rfl
    | succ i => simpa [decAt] using ih i

theorem addAt_length : ∀ (counts : List Nat) (i n : Nat),
    (addAt counts i n).length = counts.length := by
  intro counts
  induction counts with
  | nil => intro i n; rfl
  | cons c rest ih =>
    intro i n
    cases i with
    | zero => rfl
    | succ i => simpa [addAt] using ih i n

theorem addAt_sum : ∀ (counts : List Nat) (i n : Nat), i < counts.length →
    (addAt counts i n).sum = counts.sum + n := by
  intro counts
  induction counts with
  | nil => intro i n h; simp at h
  | cons c rest ih =>
    intro i n h
    cases i with
    | zero => simp [addAt]; omega
    | succ i =>
      have := ih i n (by simpa using h)
      simp [addAt, this]
      omega

theorem colorOfIndex_lt : ∀ (counts : List Nat) (idx : Nat), idx < counts.sum →
    colorOfIndex counts idx < counts.length ∧
      0 < counts.getD (colorOfIndex counts idx) 0 := by
  intro counts
  induction counts with
  | nil => intro idx h; simp at h
  | cons c rest ih =>
    intro idx h
    by_cases hc : idx < c
    · simp [colorOfIndex, hc]
      omega
    · have hrest : idx - c < rest.sum := by
        simp only [List.sum_cons] at h
        omega
      obtain ⟨h1, h2⟩ := ih (idx - c) hrest
      simp only [colorOfIndex, if_neg hc]
      constructor
      · simp only [List.length_cons]
        omega
      · rw [show 1 + colorOfIndex rest (idx - c) = colorOfIndex rest (idx - c) + 1 by omega]
        simpa using h2

theorem decAt_sum : ∀ (counts : List Nat) (i : Nat), 0 < counts.getD i 0 →
    (decAt counts i).sum + 1 = counts.sum := by
  intro counts
  induction counts with
  | nil => intro i h; simp at h
  | cons c rest ih =>
    intro i h
    cases i with
    | zero =>
      simp only [List.getD_cons_zero] at h
      simp [decAt]
      omega
    | succ i =>
      have := ih i (by simpa using h)
      simp [decAt]
      omega

theorem remove_random_ball_spec (counts : List Nat) (r : Nat) (col : Nat) (rest : List Nat)
    (h : remove_random_ball counts r = some (col, rest)) :
    col < counts.length ∧ rest.length = counts.length ∧ rest.sum + 1 = counts.sum := by
  unfold remove_random_ball at h
  by_cases h0 : counts.sum = 0
  · simp [h0] at h
  · rw [if_neg h0] at h
    have hidx : r % counts.sum < counts.sum := Nat.mod_lt _ (by omega)
    obtain ⟨h1, h2⟩ := colorOfIndex_lt counts (r % counts.sum) hidx
    simp only [Option.some.injEq, Prod.mk.injEq] at h
    obtain ⟨hcol, hrest⟩ := h
    subst hcol
    subst hrest
    exact ⟨h1, decAt_length _ _, decAt_sum _ _ h2⟩

/-! ## AsyncBatchSimulator: state and sampling phase

The engine is modelled for deterministic two-way protocols (the general
`process_delayed_agents` bulk path): the protocol is a transition function
`delta : Nat → Nat → Nat × Nat` (`Protocols::transition`), and the
constructor-precomputed no-op table is a function `skips : Nat → List Nat`
(ascending partner lists) with the `use_skip_heuristic_` flag. -/

/-- `AsyncBatchSimulator::with_probability_(good, total)`:
`uniform_int{1,total} ≤ good`, i.e. the Bernoulli draw `good/total` over
integer counts.  One stream value; `total ≥ 1` at every call site. -/
def with_probability (good total r : Nat) : Bool := r % total < good

/-- The mutable engine state (urns, delayed counter, counters, fair coin,
stream position). -/
structure EngineState where
  agents : List Nat
  updated : List Nat
  num_delayed : Nat
  num_interactions : Nat
  num_runs : Nat
  num_epochs : Nat
  coin : FairCoinState
  pos : Nat
deriving DecidableEq

/-- `sample_untouched_agent`: remove one uniform ball from `agents_`. -/
def sample_untouched_agent (rand : Nat → Nat) (st : EngineState) :
    Option (Nat × EngineState) :=
  match remove_random_ball st.agents (rand st.pos) with
  | none => none
  | some (col, agents1) => some (col, { st with agents := agents1, pos := st.pos + 1 })

/-- `sample_updated_agent`: remove one uniform ball from `updated_agents_`. -/
def sample_updated_agent (rand : Nat → Nat) (st : EngineState) :
    Option (Nat × EngineState) :=
  match remove_random_ball st.updated (rand st.pos) with
  | none => none
  | some (col, updated1) => some (col, { st with updated := updated1, pos := st.pos + 1 })

/-- `sample_delayed_agent`: draw two untouched agents (they have "already
interacted"), execute the transition, decrement the delayed counter by two,
store one of the two results (fair coin) in `updated_agents_` and return the
other. -/
def sample_delayed_agent (delta : Nat → Nat → Nat × Nat) (rand : Nat → Nat)
    (st : EngineState) : Option (Nat × EngineState) :=
  match sample_untouched_agent rand st with
  | none => none
  | some (first, st1) =>
    match sample_untouched_agent rand st1 with
    | none => none
    | some (second, st2) =>
        let st3 := { st2 with num_delayed := st2.num_delayed - 2 }
        -- perform_interaction
        let res := delta first second
        let st4 := { st3 with num_interactions := st3.num_interactions + 1 }
        let fc := FairCoin.step rand st4.coin st4.pos
        let st5 := { st4 with coin := fc.2.1, pos := fc.2.2 }
        -- if the coin shows true, first and second are swapped
        let store := if fc.1 then res.1 else res.2
        let ret := if fc.1 then res.2 else res.1
        some (ret, { st5 with updated := addAt st5.updated store 1 })

/-- The `sample_agent` lambda of `sample_run_lengths_and_plant_collisions`:
a colliding endpoint comes from the delayed pool with probability
`num_delayed_agents_ / num_colliding_agents` (the captured, stale `g`),
otherwise from `updated`; a non-colliding endpoint is an untouched agent. -/
def sample_agent (delta : Nat → Nat → Nat × Nat) (rand : Nat → Nat)
    (num_colliding_agents : Nat) (has_collision : Bool) (st : EngineState) :
    Option (Nat × EngineState) :=
  if has_collision then
    let r := rand st.pos
    let st1 := { st with pos := st.pos + 1 }
    if with_probability st1.num_delayed num_colliding_agents r then
      sample_delayed_agent delta rand st1
    else
      sample_updated_agent rand st1
  else sample_untouched_agent rand st

/-- The round-length rejection loop: draw from the collision distribution
(modelled as one oracle stream value per draw) until `g ≠ 0 ∨ L ≥ 2`. -/
def roundDraw (rand : Nat → Nat) (g : Nat) : Nat → Nat → Option (Nat × Nat)
  | 0, _ => none
  | fuel + 1, pos =>
      let L := rand pos
      if g = 0 ∧ L < 2 then roundDraw rand g fuel (pos + 1)
      else some (L, pos + 1)

/-- `has_collision_on_first` (line 165): the first endpoint of the planted
collision is colliding iff the round length is even. -/
def has_collision_on_first (round_length : Nat) : Bool := round_length % 2 == 0

/-- `has_collision_on_second` (lines 166-167): the second endpoint is
colliding iff the first was not or, if it was, with probability
`g / num_agents` (short-circuit: the Bernoulli draw happens only when the
first endpoint collides). -/
def has_collision_on_second (first : Bool) (g num_agents r : Nat) : Bool :=
  !first || with_probability g num_agents r

/-- `set_red(g)` as far as the engine depends on it: select the stage
`g / stage_factor` where `stage_factor = max_g / 16` (an integer-valued
`double`).  A zero stage factor (division by zero, `NaN` cast) or a stage
`≥ 16` (out-of-range access into `stages_[16]`) is undefined behaviour. -/
def set_red_stage (max_g g : Nat) : Option Nat :=
  let stage_factor := max_g / 16
  if stage_factor = 0 then none
  else
    let stage := g / stage_factor
    if stage < 16 then some stage else none

/-- One iteration of the sampling-phase loop body (lines 142-177), assuming
the loop guard held.  `num_agents` is the phase-entry total. -/
def sampling_iteration (delta : Nat → Nat → Nat × Nat) (rand : Nat → Nat)
    (max_g num_agents : Nat) (fuel : Nat) (st : EngineState) : Option EngineState :=
  let g0 := st.num_delayed + st.updated.sum
  match set_red_stage max_g g0 with
  | none => none
  | some _ =>
    match roundDraw rand g0 fuel st.pos with
    | none => none
    | some (round_length, pos1) =>
        let st1 := { st with num_delayed := st.num_delayed + 2 * (round_length / 2),
                             pos := pos1 }
        let num_colliding_agents := st1.num_delayed + st1.updated.sum
        let first_collides := has_collision_on_first round_length
        -- the Bernoulli draw of has_collision_on_second happens (and consumes
        -- a stream value) only when the first endpoint collides
        let second_collides :=
          if first_collides then
            has_collision_on_second first_collides num_colliding_agents num_agents
              (rand st1.pos)
          else true
        let st2 := if first_collides then { st1 with pos := st1.pos + 1 } else st1
        match sample_agent delta rand num_colliding_agents first_collides st2 with
        | none => none
        | some (first, st3) =>
          match sample_agent delta rand num_colliding_agents second_collides st3 with
          | none => none
          | some (second, st4) =>
              -- perform_interaction, deposit both results, count the run
              let res := delta first second
              some { st4 with
                       num_interactions := st4.num_interactions + 1,
                       updated := addAt (addAt st4.updated res.1 1) res.2 1,
                       num_runs := st4.num_runs + 1 }

/-- The sampling-phase loop: while `num_delayed_agents_ + |updated| <
target`, run one iteration.  `fuel` bounds the number of iterations (an
iteration can leave `d + u` unchanged, so the C++ loop has no a-priori
bound; conservation holds for every completing run). -/
def sampling_loop (delta : Nat → Nat → Nat × Nat) (rand : Nat → Nat)
    (max_g target num_agents : Nat) : Nat → EngineState → Option EngineState
  | 0, st =>
      if st.num_delayed + st.updated.sum < target then none else some st
  | fuel + 1, st =>
      if st.num_delayed + st.updated.sum < target then
        match sampling_iteration delta rand max_g num_agents (fuel + 1) st with
        | none => none
        | some st1 => sampling_loop delta rand max_g target num_agents fuel st1
      else some st

/-- `sample_run_lengths_and_plant_collisions`: `num_agents` is computed once
at phase entry (line 138). -/
def sample_run_lengths_and_plant_collisions (delta : Nat → Nat → Nat × Nat)
    (rand : Nat → Nat) (max_g target fuel : Nat) (st : EngineState) :
    Option EngineState :=
  sampling_loop delta rand max_g target (st.agents.sum + st.updated.sum) fuel st

/-! ## AsyncBatchSimulator: bulk phase (deterministic two-way path) -/

/-- The `num_selected` computation of the bulk walk (lines 229-239): nothing
to select from an empty color; the degenerate deterministic branch when
`unconsidered_balls` (after subtracting this color) has reached zero;
otherwise a hypergeometric draw. -/
def bulk_ns (c unc left r : Nat) : Nat :=
  if c = 0 then 0
  else if unc - c = 0 then min left c
  else hypergeometric_draw c (unc - c) left r

/-- Stream advance of one bulk-walk step: the hypergeometric draw consumes a
value exactly when it happens. -/
def bulk_pos (c unc pos : Nat) : Nat :=
  if c = 0 then pos else if unc - c = 0 then pos else pos + 1

/-- `perform_interactions(first, second, num, updated)`, the
`is_deterministic` branch (lines 344-348), for a deterministic two-way
protocol: one transition evaluation, `num` copies of both results, `num`
interactions counted; no-op when nothing was selected (the call site is
guarded by `if (num_selected)`).  The `else` branch for randomised
protocols (lines 350-364, sink callback plus `die_verbose_unless` count
check) is `bulk_deposit_rp` below. -/
def bulk_deposit (delta : Nat → Nat → Nat × Nat) (first_state col ns : Nat)
    (upd : List Nat) (ni : Nat) : List Nat × Nat :=
  if ns ≠ 0 then
    (addAt (addAt upd (delta first_state col).1 ns) (delta first_state col).2 ns, ni + ns)
  else (upd, ni)

/-- The inner color walk of one bulk group (`process_delayed_agents`, lines
217-247): walk second-partner colors in index order, skipping no-op partners,
hypergeometrically allocating `num_selected` second partners per color,
removing them from `agents` and depositing both transition results in
`updated`.  Arguments: remaining `agents` suffix, absolute head color,
running `unconsidered_balls`, `left_to_sample`, stream position, `updated`,
`num_interactions_`.  Running past the last color with balls still to
sample, or a support-violating hypergeometric draw, is undefined behaviour. -/
def bulk_walk (delta : Nat → Nat → Nat × Nat) (rand : Nat → Nat) (first_state : Nat)
    (skipsRow : List Nat) (use_skip : Bool) :
    List Nat → Nat → Nat → Nat → Nat → List Nat → Nat →
    Option (List Nat × List Nat × Nat × Nat)
  | suffix, _, _, 0, pos, upd, ni => some (suffix, upd, pos, ni)
  | [], _, _, _ + 1, _, _, _ => none
  | c :: rest, col, unc, left + 1, pos, upd, ni =>
      if use_skip ∧ col ∈ skipsRow then
        match bulk_walk delta rand first_state skipsRow use_skip rest (col + 1) unc
            (left + 1) pos upd ni with
        | none => none
        | some (rest1, upd1, pos1, ni1) => some (c :: rest1, upd1, pos1, ni1)
      else
        if c < bulk_ns c unc (left + 1) (rand pos) ∨
            left + 1 < bulk_ns c unc (left + 1) (rand pos) then none
        else
          match bulk_walk delta rand first_state skipsRow use_skip rest (col + 1) (unc - c)
              (left + 1 - bulk_ns c unc (left + 1) (rand pos)) (bulk_pos c unc pos)
              (bulk_deposit delta first_state col (bulk_ns c unc (left + 1) (rand pos)) upd ni).1
              (bulk_deposit delta first_state col (bulk_ns c unc (left + 1) (rand pos)) upd ni).2 with
          | none => none
          | some (rest1, upd2, pos2, ni2) =>
              some ((c - bulk_ns c unc (left + 1) (rand pos)) :: rest1, upd2, pos2, ni2)

/-- One bulk group `(first_state, k)` (lines 194-248): optionally
hypergeometrically split off the no-op partners (deposited unchanged as
`first_state`), then the color walk over the remaining states. -/
def bulk_group (delta : Nat → Nat → Nat × Nat) (rand : Nat → Nat)
    (skips : Nat → List Nat) (use_skip : Bool) (first_state k : Nat)
    (st : EngineState) : Option EngineState :=
  let skipsRow := skips first_state
  let number_of_skipable_balls : Nat :=
    if use_skip then (skipsRow.map (fun x => st.agents.getD x 0)).sum else 0
  if number_of_skipable_balls ≠ 0 then
    let unconsidered := st.agents.sum - number_of_skipable_balls
    let skipped := hypergeometric_draw number_of_skipable_balls unconsidered k (rand st.pos)
    if k < skipped then none
    else
      let st1 := { st with pos := st.pos + 1,
                           updated := addAt st.updated first_state skipped }
      match bulk_walk delta rand first_state skipsRow use_skip st1.agents 0 unconsidered
          (k - skipped) st1.pos st1.updated st1.num_interactions with
      | none => none
      | some (ag, upd, pos2, ni) =>
          some { st1 with agents := ag, updated := upd, pos := pos2,
                          num_interactions := ni }
  else
    match bulk_walk delta rand first_state skipsRow use_skip st.agents 0 st.agents.sum
        k st.pos st.updated st.num_interactions with
    | none => none
    | some (ag, upd, pos2, ni) =>
        some { st with agents := ag, updated := upd, pos := pos2,
                       num_interactions := ni }

/-- The loop over the extracted first-partner groups. -/
def process_groups (delta : Nat → Nat → Nat × Nat) (rand : Nat → Nat)
    (skips : Nat → List Nat) (use_skip : Bool) :
    List (Nat × Nat) → EngineState → Option EngineState
  | [], st => some st
  | (s1, k) :: tasks, st =>
      match bulk_group delta rand skips use_skip s1 k st with
      | none => none
      | some st1 => process_groups delta rand skips use_skip tasks st1

/-- `process_delayed_agents`, the generic path taken by deterministic
two-way protocols: extract `num_delayed_agents_ / 2` first partners without
replacement from `agents`, then resolve each group.  The dispatch at lines
182-183 sends deterministic one-way protocols to
`process_delayed_agents_partitioned` instead (modelled below as
`PPS.process_delayed_agents_partitioned`); randomised protocols also run
this generic path but with empty skip rows and the sink branch of
`perform_interactions` (modelled below as `process_delayed_agents_rp`). -/
def process_delayed_agents (delta : Nat → Nat → Nat × Nat) (rand : Nat → Nat)
    (skips : Nat → List Nat) (use_skip : Bool) (st : EngineState) :
    Option EngineState :=
  match remove_random_balls rand st.agents (st.num_delayed / 2) st.pos with
  | none => none
  | some (first_agents, agents1, pos1) =>
      process_groups delta rand skips use_skip first_agents
        { st with agents := agents1, pos := pos1 }

/-- One epoch of `AsyncBatchSimulator::run` (lines 80-89): sampling phase,
bulk phase, merge `updated` into `agents`, clear `updated`, reset the
delayed counter, count the epoch. -/
def run_epoch (delta : Nat → Nat → Nat × Nat) (rand : Nat → Nat)
    (skips : Nat → List Nat) (use_skip : Bool) (max_g target fuel : Nat)
    (st : EngineState) : Option EngineState :=
  match sample_run_lengths_and_plant_collisions delta rand max_g target fuel st with
  | none => none
  | some st1 =>
    match process_delayed_agents delta rand skips use_skip st1 with
    | none => none
    | some st2 =>
        some { st2 with
                 agents := List.zipWith (· + ·) st2.agents st2.updated,
                 updated := st2.updated.map (fun _ => 0),
                 num_delayed := 0,
                 num_epochs := st2.num_epochs + 1 }

/-! ## Conservation of balls through one epoch -/

/-- A protocol over alphabet `[0, S)`: the transition keeps states in
range. -/
def DeltaInRange (S : Nat) (delta : Nat → Nat → Nat × Nat) : Prop :=
  ∀ a b, (delta a b).1 < S ∧ (delta a b).2 < S

/-- Range-preservation on the reachable inputs only (the engine applies the
transition exclusively to colors drawn from its urns, which are `< S`).
This weaker hypothesis also covers the one-way transition shape
`(a, b) ↦ (f a b, b)`, whose second component is in range only for `b < S`. -/
def DeltaInRangeOn (S : Nat) (delta : Nat → Nat → Nat × Nat) : Prop :=
  ∀ a b, a < S → b < S → (delta a b).1 < S ∧ (delta a b).2 < S

theorem DeltaInRange.on {S : Nat} {delta : Nat → Nat → Nat × Nat}
    (h : DeltaInRange S delta) : DeltaInRangeOn S delta :=
  fun a b _ _ => h a b

theorem sample_untouched_spec (rand : Nat → Nat) (st : EngineState) (col : Nat)
    (st' : EngineState) (h : sample_untouched_agent rand st = some (col, st')) :
    col < st.agents.length ∧ st'.agents.length = st.agents.length ∧
    st'.agents.sum + 1 = st.agents.sum ∧ st'.updated = st.updated ∧
    st'.num_delayed = st.num_delayed := by
  unfold sample_untouched_agent at h
  cases hrb : remove_random_ball st.agents (rand st.pos) with
  | none =>
    rw [hrb] at h
    exact absurd h (by simp)
  | some p =>
    obtain ⟨c, ag⟩ := p
    rw [hrb] at h
    simp only [Option.some.injEq, Prod.mk.injEq] at h
    obtain ⟨hc, hst⟩ := h
    subst hc
    subst hst
    obtain ⟨h1, h2, h3⟩ := remove_random_ball_spec _ _ _ _ hrb
    exact ⟨h1, h2, h3, rfl, rfl⟩

theorem sample_updated_spec (rand : Nat → Nat) (st : EngineState) (col : Nat)
    (st' : EngineState) (h : sample_updated_agent rand st = some (col, st')) :
    col < st.updated.length ∧ st'.updated.length = st.updated.length ∧
    st'.updated.sum + 1 = st.updated.sum ∧ st'.agents = st.agents ∧
    st'.num_delayed = st.num_delayed := by
  unfold sample_updated_agent at h
  cases hrb : remove_random_ball st.updated (rand st.pos) with
  | none =>
    rw [hrb] at h
    exact absurd h (by simp)
  | some p =>
    obtain ⟨c, upd⟩ := p
    rw [hrb] at h
    simp only [Option.some.injEq, Prod.mk.injEq] at h
    obtain ⟨hc, hst⟩ := h
    subst hc
    subst hst
    obtain ⟨h1, h2, h3⟩ := remove_random_ball_spec _ _ _ _ hrb
    exact ⟨h1, h2, h3, rfl, rfl⟩

theorem sample_delayed_spec (delta : Nat → Nat → Nat × Nat) (rand : Nat → Nat)
    (S : Nat) (Hdelta : DeltaInRangeOn S delta) (st : EngineState) (ret : Nat)
    (st' : EngineState) (hal : st.agents.length = S) (hul : st.updated.length = S)
    (h : sample_delayed_agent delta rand st = some (ret, st')) :
    ret < S ∧ st'.agents.length = st.agents.length ∧ st'.updated.length = S ∧
    st'.agents.sum + 2 = st.agents.sum ∧ st'.updated.sum = st.updated.sum + 1 := by
  unfold sample_delayed_agent at h
  cases hu1 : sample_untouched_agent rand st with
  | none =>
    rw [hu1] at h
    exact absurd h (by simp)
  | some p1 =>
    obtain ⟨first, st1⟩ := p1
    rw [hu1] at h
    dsimp only at h
    cases hu2 : sample_untouched_agent rand st1 with
    | none =>
      rw [hu2] at h
      exact absurd h (by simp)
    | some p2 =>
      obtain ⟨second, st2⟩ := p2
      rw [hu2] at h
      dsimp only at h
      obtain ⟨hb1, ha1, hs1, hup1, _⟩ := sample_untouched_spec rand st first st1 hu1
      obtain ⟨hb2, ha2, hs2, hup2, _⟩ := sample_untouched_spec rand st1 second st2 hu2
      have hfS : first < S := by omega
      have hsS : second < S := by omega
      simp only [Option.some.injEq, Prod.mk.injEq] at h
      obtain ⟨hret, hst⟩ := h
      subst hret
      subst hst
      dsimp only
      have hupd2 : st2.updated = st.updated := by rw [hup2, hup1]
      refine ⟨?_, ?_, ?_, ?_, ?_⟩
      · by_cases hf : (FairCoin.step rand st2.coin st2.pos).1
        · simpa [hf] using (Hdelta first second hfS hsS).2
        · simpa [hf] using (Hdelta first second hfS hsS).1
      · simpa [ha2] using ha1
      · simp only [addAt_length, hupd2, hul]
      · omega
      · have hrange : (if (FairCoin.step rand st2.coin st2.pos).1
            then (delta first second).1 else (delta first second).2) < st2.updated.length := by
          rw [hupd2, hul]
          by_cases hf : (FairCoin.step rand st2.coin st2.pos).1
          · simpa [hf] using (Hdelta first second hfS hsS).1
          · simpa [hf] using (Hdelta first second hfS hsS).2
        have := addAt_sum st2.updated
          (if (FairCoin.step rand st2.coin st2.pos).1
            then (delta first second).1 else (delta first second).2) 1 hrange
        rw [hupd2] at this ⊢
        exact this

theorem sample_agent_spec (delta : Nat → Nat → Nat × Nat) (rand : Nat → Nat) (S : Nat)
    (Hdelta : DeltaInRangeOn S delta) (g1 : Nat) (hc : Bool) (st : EngineState)
    (ball : Nat) (st' : EngineState)
    (hal : st.agents.length = S) (hul : st.updated.length = S)
    (h : sample_agent delta rand g1 hc st = some (ball, st')) :
    ball < S ∧ st'.agents.length = S ∧ st'.updated.length = S ∧
    st'.agents.sum + st'.updated.sum + 1 = st.agents.sum + st.updated.sum := by
  unfold sample_agent at h
  cases hc with
  | false =>
    simp only [Bool.false_eq_true, if_neg, if_false] at h
    obtain ⟨h1, h2, h3, h4, _⟩ := sample_untouched_spec rand st ball st' h
    rw [h4]
    exact ⟨hal ▸ h1, h2.trans hal, h4 ▸ hul, by omega⟩
  | true =>
    simp only [if_true] at h
    by_cases hp : with_probability
        ({ st with pos := st.pos + 1 } : EngineState).num_delayed g1 (rand st.pos)
    · rw [if_pos hp] at h
      obtain ⟨h1, h2, h3, h4, h5⟩ :=
        sample_delayed_spec delta rand S Hdelta { st with pos := st.pos + 1 } ball st' hal hul h
      refine ⟨h1, ?_, h3, ?_⟩
      · exact h2.trans hal
      · show st'.agents.sum + st'.updated.sum + 1 = st.agents.sum + st.updated.sum
        have h4' : st'.agents.sum + 2 = st.agents.sum := h4
        have h5' : st'.updated.sum = st.updated.sum + 1 := h5
        omega
    · rw [if_neg hp] at h
      obtain ⟨h1, h2, h3, h4, _⟩ := sample_updated_spec rand _ ball st' h
      refine ⟨hul ▸ h1, ?_, ?_, ?_⟩
      · rw [h4]
        exact hal
      · exact h2.trans hul
      · have h3' : st'.updated.sum + 1 = st.updated.sum := h3
        have h4' : st'.agents = st.agents := h4
        rw [h4']
        omega

theorem sampling_iteration_spec (delta : Nat → Nat → Nat × Nat) (rand : Nat → Nat)
    (S : Nat) (Hdelta : DeltaInRangeOn S delta) (max_g num_agents fuel : Nat)
    (st st' : EngineState)
    (hal : st.agents.length = S) (hul : st.updated.length = S)
    (h : sampling_iteration delta rand max_g num_agents fuel st = some st') :
    st'.agents.length = S ∧ st'.updated.length = S ∧
    st'.agents.sum + st'.updated.sum = st.agents.sum + st.updated.sum := by
  unfold sampling_iteration at h
  dsimp only at h
  cases hsr : set_red_stage max_g (st.num_delayed + st.updated.sum) with
  | none =>
    rw [hsr] at h
    exact absurd h (by simp)
  | some stg =>
    rw [hsr] at h
    dsimp only at h
    cases hrd : roundDraw rand (st.num_delayed + st.updated.sum) fuel st.pos with
    | none =>
      rw [hrd] at h
      exact absurd h (by simp)
    | some Lp =>
      obtain ⟨L, pos1⟩ := Lp
      rw [hrd] at h
      dsimp only at h
      -- names for the two intermediate states in the iteration body
      set st1 : EngineState :=
        { st with num_delayed := st.num_delayed + 2 * (L / 2), pos := pos1 } with hst1
      set st2 : EngineState :=
        if has_collision_on_first L then { st1 with pos := st1.pos + 1 } else st1 with hst2
      have hst2a : st2.agents = st.agents := by
        rw [hst2]
        by_cases hfc : has_collision_on_first L <;> simp [hfc, hst1]
      have hst2u : st2.updated = st.updated := by
        rw [hst2]
        by_cases hfc : has_collision_on_first L <;> simp [hfc, hst1]
      cases hs1 : sample_agent delta rand (st1.num_delayed + st1.updated.sum)
          (has_collision_on_first L) st2 with
      | none =>
        rw [hs1] at h
        exact absurd h (by simp)
      | some p1 =>
        obtain ⟨first, st3⟩ := p1
        rw [hs1] at h
        dsimp only at h
        obtain ⟨hb1, ha3, hu3, hsum3⟩ := sample_agent_spec delta rand S Hdelta _ _ st2
          first st3 (hst2a ▸ hal) (hst2u ▸ hul) hs1
        cases hs2 : sample_agent delta rand (st1.num_delayed + st1.updated.sum)
            (if has_collision_on_first L then
              has_collision_on_second (has_collision_on_first L)
                (st1.num_delayed + st1.updated.sum) num_agents (rand st1.pos)
             else true) st3 with
        | none =>
          rw [hs2] at h
          exact absurd h (by simp)
        | some p2 =>
          obtain ⟨second, st4⟩ := p2
          rw [hs2] at h
          dsimp only at h
          obtain ⟨hb2, ha4, hu4, hsum4⟩ := sample_agent_spec delta rand S Hdelta _ _ st3
            second st4 ha3 hu3 hs2
          simp only [Option.some.injEq] at h
          subst h
          dsimp only
          have hr1 : (delta first second).1 < S := (Hdelta first second hb1 hb2).1
          have hr2 : (delta first second).2 < S := (Hdelta first second hb1 hb2).2
          have hlen1 : (addAt st4.updated (delta first second).1 1).length = S := by
            rw [addAt_length, hu4]
          have hsum_a : (addAt st4.updated (delta first second).1 1).sum =
              st4.updated.sum + 1 := addAt_sum _ _ _ (by omega)
          have hsum_b : (addAt (addAt st4.updated (delta first second).1 1)
              (delta first second).2 1).sum = st4.updated.sum + 2 := by
            rw [addAt_sum _ _ _ (by omega), hsum_a]
          refine ⟨ha4, ?_, ?_⟩
          · rw [addAt_length, hlen1]
          · rw [hsum_b]
            have e2 : st2.agents.sum + st2.updated.sum = st.agents.sum + st.updated.sum := by
              rw [hst2a, hst2u]
            omega

theorem sampling_loop_spec (delta : Nat → Nat → Nat × Nat) (rand : Nat → Nat)
    (S : Nat) (Hdelta : DeltaInRangeOn S delta) (max_g target num_agents : Nat) :
    ∀ (fuel : Nat) (st st' : EngineState),
      st.agents.length = S → st.updated.length = S →
      sampling_loop delta rand max_g target num_agents fuel st = some st' →
      st'.agents.length = S ∧ st'.updated.length = S ∧
      st'.agents.sum + st'.updated.sum = st.agents.sum + st.updated.sum := by
  intro fuel
  induction fuel with
  | zero =>
    intro st st' hal hul h
    unfold sampling_loop at h
    split at h
    · exact absurd h (by simp)
    · simp only [Option.some.injEq] at h
      subst h
      exact ⟨hal, hul, rfl⟩
  | succ fuel ih =>
    intro st st' hal hul h
    unfold sampling_loop at h
    split at h
    · cases hit : sampling_iteration delta rand max_g num_agents (fuel + 1) st with
      | none =>
        rw [hit] at h
        exact absurd h (by simp)
      | some st1 =>
        rw [hit] at h
        obtain ⟨h1, h2, h3⟩ :=
          sampling_iteration_spec delta rand S Hdelta max_g num_agents (fuel + 1)
            st st1 hal hul hit
        obtain ⟨h4, h5, h6⟩ := ih st1 st' h1 h2 h
        exact ⟨h4, h5, by omega⟩
    · simp only [Option.some.injEq] at h
      subst h
      exact ⟨hal, hul, rfl⟩

theorem bulk_walk_spec (delta : Nat → Nat → Nat × Nat) (rand : Nat → Nat) (S : Nat)
    (Hdelta : DeltaInRangeOn S delta) (first_state : Nat) (skipsRow : List Nat)
    (use_skip : Bool) (hfs : first_state < S) :
    ∀ (suffix : List Nat) (col unc left pos : Nat) (upd : List Nat) (ni : Nat)
      (suffix' upd' : List Nat) (pos' ni' : Nat),
      bulk_walk delta rand first_state skipsRow use_skip suffix col unc left pos upd ni =
        some (suffix', upd', pos', ni') →
      upd.length = S → col + suffix.length = S →
      suffix'.length = suffix.length ∧ upd'.length = S ∧
      suffix'.sum + left = suffix.sum ∧ upd'.sum = upd.sum + 2 * left := by
  intro suffix
  induction suffix with
  | nil =>
    intro col unc left pos upd ni suffix' upd' pos' ni' h hul _
    cases left with
    | zero =>
      simp only [bulk_walk, Option.some.injEq, Prod.mk.injEq] at h
      obtain ⟨h1, h2, _, _⟩ := h
      subst h1
      subst h2
      simp [hul]
    | succ l => simp [bulk_walk] at h
  | cons c rest ih =>
    intro col unc left pos upd ni suffix' upd' pos' ni' h hul hcol
    cases left with
    | zero =>
      simp only [bulk_walk, Option.some.injEq, Prod.mk.injEq] at h
      obtain ⟨h1, h2, _, _⟩ := h
      subst h1
      subst h2
      simp [hul]
    | succ l =>
      rw [bulk_walk] at h
      by_cases hskip : use_skip = true ∧ col ∈ skipsRow
      · rw [if_pos hskip] at h
        cases hrec : bulk_walk delta rand first_state skipsRow use_skip rest (col + 1)
            unc (l + 1) pos upd ni with
        | none =>
          rw [hrec] at h
          exact absurd h (by simp)
        | some r =>
          obtain ⟨rest1, upd1, pos1, ni1⟩ := r
          rw [hrec] at h
          simp only [Option.some.injEq, Prod.mk.injEq] at h
          obtain ⟨h1, h2, _, _⟩ := h
          subst h1
          subst h2
          obtain ⟨ih1, ih2, ih3, ih4⟩ := ih (col + 1) unc (l + 1) pos upd ni rest1 upd1
            pos1 ni1 hrec hul (by simp only [List.length_cons] at hcol; omega)
          refine ⟨by simpa using ih1, ih2, ?_, ih4⟩
          simp only [List.sum_cons]
          omega
      · rw [if_neg hskip] at h
        set ns : Nat := bulk_ns c unc (l + 1) (rand pos) with hns
        by_cases hguard : c < ns ∨ l + 1 < ns
        · rw [if_pos hguard] at h
          exact absurd h (by simp)
        · rw [if_neg hguard] at h
          push_neg at hguard
          obtain ⟨hc, hl⟩ := hguard
          have hupdlen : (bulk_deposit delta first_state col ns upd ni).1.length = S := by
            unfold bulk_deposit
            by_cases hz : ns = 0 <;> simp [hz, addAt_length, hul]
          have hupdsum : (bulk_deposit delta first_state col ns upd ni).1.sum =
              upd.sum + 2 * ns := by
            unfold bulk_deposit
            by_cases hz : ns = 0
            · simp [hz]
            · have hcolS : col < S := by
                simp only [List.length_cons] at hcol
                omega
              have hr1 : (delta first_state col).1 < S := (Hdelta first_state col hfs hcolS).1
              have hr2 : (delta first_state col).2 < S := (Hdelta first_state col hfs hcolS).2
              have hs1 : (addAt upd (delta first_state col).1 ns).sum = upd.sum + ns :=
                addAt_sum _ _ _ (by omega)
              have hs2 : (addAt (addAt upd (delta first_state col).1 ns)
                  (delta first_state col).2 ns).sum = upd.sum + ns + ns := by
                rw [addAt_sum _ _ _ (by rw [addAt_length]; omega), hs1]
              simp only [hz, ne_eq, not_false_iff, if_true]
              rw [hs2]
              omega
          cases hrec : bulk_walk delta rand first_state skipsRow use_skip rest (col + 1)
              (unc - c) (l + 1 - ns) (bulk_pos c unc pos)
              (bulk_deposit delta first_state col ns upd ni).1
              (bulk_deposit delta first_state col ns upd ni).2 with
          | none =>
            rw [hrec] at h
            exact absurd h (by simp)
          | some r =>
            obtain ⟨rest1, upd2, pos2, ni2⟩ := r
            rw [hrec] at h
            simp only [Option.some.injEq, Prod.mk.injEq] at h
            obtain ⟨h1, h2, _, _⟩ := h
            subst h1
            subst h2
            obtain ⟨ih1, ih2, ih3, ih4⟩ := ih (col + 1) (unc - c) (l + 1 - ns)
              (bulk_pos c unc pos) (bulk_deposit delta first_state col ns upd ni).1
              (bulk_deposit delta first_state col ns upd ni).2 rest1 upd2 pos2 ni2 hrec hupdlen
              (by simp only [List.length_cons] at hcol; omega)
            refine ⟨by simpa using ih1, ih2, ?_, ?_⟩
            · simp only [List.sum_cons]
              omega
            · rw [ih4, hupdsum]
              omega

theorem bulk_group_spec (delta : Nat → Nat → Nat × Nat) (rand : Nat → Nat) (S : Nat)
    (Hdelta : DeltaInRangeOn S delta) (skips : Nat → List Nat) (use_skip : Bool)
    (first_state k : Nat) (st st' : EngineState)
    (hfs : first_state < S)
    (hal : st.agents.length = S) (hul : st.updated.length = S)
    (h : bulk_group delta rand skips use_skip first_state k st = some st') :
    st'.agents.length = S ∧ st'.updated.length = S ∧
    st'.agents.sum + st'.updated.sum = st.agents.sum + st.updated.sum + k := by
  unfold bulk_group at h
  dsimp only at h
  by_cases hsk : (if use_skip = true then
      ((skips first_state).map (fun x => st.agents.getD x 0)).sum else 0) ≠ 0
  · rw [if_pos hsk] at h
    set skipped : Nat := hypergeometric_draw
      (if use_skip = true then ((skips first_state).map (fun x => st.agents.getD x 0)).sum else 0)
      (st.agents.sum -
        (if use_skip = true then ((skips first_state).map (fun x => st.agents.getD x 0)).sum else 0))
      k (rand st.pos) with hskipped
    by_cases hkg : k < skipped
    · rw [if_pos hkg] at h
      exact absurd h (by simp)
    · rw [if_neg hkg] at h
      push_neg at hkg
      cases hw : bulk_walk delta rand first_state (skips first_state) use_skip
          st.agents 0
          (st.agents.sum -
            (if use_skip = true then
              ((skips first_state).map (fun x => st.agents.getD x 0)).sum else 0))
          (k - skipped) (st.pos + 1) (addAt st.updated first_state skipped)
          st.num_interactions with
      | none =>
        rw [hw] at h
        exact absurd h (by simp)
      | some r =>
        obtain ⟨ag, upd, pos2, ni⟩ := r
        rw [hw] at h
        simp only [Option.some.injEq] at h
        subst h
        dsimp only
        have hulen : (addAt st.updated first_state skipped).length = S := by
          rw [addAt_length, hul]
        have husum : (addAt st.updated first_state skipped).sum =
            st.updated.sum + skipped := addAt_sum _ _ _ (by omega)
        obtain ⟨w1, w2, w3, w4⟩ := bulk_walk_spec delta rand S Hdelta first_state
          (skips first_state) use_skip hfs st.agents 0 _ (k - skipped) (st.pos + 1)
          (addAt st.updated first_state skipped) st.num_interactions ag upd pos2 ni
          hw hulen (by omega)
        refine ⟨by rw [w1, hal], w2, ?_⟩
        rw [w4, husum]
        omega
  · rw [if_neg hsk] at h
    cases hw : bulk_walk delta rand first_state (skips first_state) use_skip st.agents 0
        st.agents.sum k st.pos st.updated st.num_interactions with
    | none =>
      rw [hw] at h
      exact absurd h (by simp)
    | some r =>
      obtain ⟨ag, upd, pos2, ni⟩ := r
      rw [hw] at h
      simp only [Option.some.injEq] at h
      subst h
      dsimp only
      obtain ⟨w1, w2, w3, w4⟩ := bulk_walk_spec delta rand S Hdelta first_state
        (skips first_state) use_skip hfs st.agents 0 st.agents.sum k st.pos st.updated
        st.num_interactions ag upd pos2 ni hw hul (by omega)
      refine ⟨by rw [w1, hal], w2, ?_⟩
      rw [w4]
      omega

theorem process_groups_spec (delta : Nat → Nat → Nat × Nat) (rand : Nat → Nat) (S : Nat)
    (Hdelta : DeltaInRangeOn S delta) (skips : Nat → List Nat) (use_skip : Bool) :
    ∀ (tasks : List (Nat × Nat)) (st st' : EngineState),
      (∀ p ∈ tasks, p.1 < S) →
      st.agents.length = S → st.updated.length = S →
      process_groups delta rand skips use_skip tasks st = some st' →
      st'.agents.length = S ∧ st'.updated.length = S ∧
      st'.agents.sum + st'.updated.sum =
        st.agents.sum + st.updated.sum + (tasks.map Prod.snd).sum := by
  intro tasks
  induction tasks with
  | nil =>
    intro st st' _ hal hul h
    simp only [process_groups, Option.some.injEq] at h
    subst h
    simp [hal, hul]
  | cons task tasks ih =>
    intro st st' hrange hal hul h
    obtain ⟨s1, k⟩ := task
    rw [process_groups] at h
    cases hg : bulk_group delta rand skips use_skip s1 k st with
    | none =>
      rw [hg] at h
      exact absurd h (by simp)
    | some st1 =>
      rw [hg] at h
      obtain ⟨g1, g2, g3⟩ := bulk_group_spec delta rand S Hdelta skips use_skip s1 k
        st st1 (by simpa using hrange (s1, k) (by simp)) hal hul hg
      obtain ⟨i1, i2, i3⟩ := ih st1 st' (fun p hp => hrange p (by simp [hp])) g1 g2 h
      refine ⟨i1, i2, ?_⟩
      rw [i3, g3]
      simp only [List.map_cons, List.sum_cons]
      omega

theorem process_delayed_agents_spec (delta : Nat → Nat → Nat × Nat) (rand : Nat → Nat)
    (S : Nat) (Hdelta : DeltaInRangeOn S delta) (skips : Nat → List Nat) (use_skip : Bool)
    (st st' : EngineState)
    (hal : st.agents.length = S) (hul : st.updated.length = S)
    (h : process_delayed_agents delta rand skips use_skip st = some st') :
    st'.agents.length = S ∧ st'.updated.length = S ∧
    st'.agents.sum + st'.updated.sum = st.agents.sum + st.updated.sum := by
  unfold process_delayed_agents at h
  cases hrr : remove_random_balls rand st.agents (st.num_delayed / 2) st.pos with
  | none =>
    rw [hrr] at h
    exact absurd h (by simp)
  | some r =>
    obtain ⟨first_agents, agents1, pos1⟩ := r
    rw [hrr] at h
    dsimp only at h
    unfold remove_random_balls at hrr
    by_cases h0 : st.agents.sum = 0 ∨ st.num_delayed / 2 = 0
    · rw [if_pos h0] at hrr
      simp only [Option.some.injEq, Prod.mk.injEq] at hrr
      obtain ⟨he, ha, _⟩ := hrr
      subst he
      subst ha
      obtain ⟨p1, p2, p3⟩ := process_groups_spec delta rand S Hdelta skips use_skip []
        { st with pos := pos1 } st' (by simp) hal hul h
      simpa using ⟨p1, p2, p3⟩
    · rw [if_neg h0] at hrr
      obtain ⟨w1, w2, w3, w4⟩ := wor_walk_conserves rand st.agents (st.num_delayed / 2)
        0 st.pos first_agents agents1 pos1 hrr
      have hrange : ∀ p ∈ first_agents, p.1 < S := by
        intro p hp
        have := w4 p hp
        omega
      obtain ⟨p1, p2, p3⟩ := process_groups_spec delta rand S Hdelta skips use_skip
        first_agents _ st' hrange (by simpa [w2] using hal) (by simpa using hul) h
      refine ⟨p1, p2, ?_⟩
      rw [p3]
      dsimp only
      rw [w1]
      omega

theorem run_epoch_spec (delta : Nat → Nat → Nat × Nat) (rand : Nat → Nat) (S : Nat)
    (Hdelta : DeltaInRangeOn S delta) (skips : Nat → List Nat) (use_skip : Bool)
    (max_g target fuel : Nat) (st st' : EngineState)
    (hal : st.agents.length = S) (hul : st.updated.length = S)
    (h : run_epoch delta rand skips use_skip max_g target fuel st = some st') :
    st'.agents.length = S ∧ st'.updated.length = S ∧
    st'.agents.sum = st.agents.sum + st.updated.sum ∧
    st'.updated.sum = 0 ∧ st'.num_delayed = 0 := by
  unfold run_epoch at h
  cases hs : sample_run_lengths_and_plant_collisions delta rand max_g target fuel st with
  | none =>
    rw [hs] at h
    exact absurd h (by simp)
  | some st1 =>
    rw [hs] at h
    dsimp only at h
    obtain ⟨s1, s2, s3⟩ := sampling_loop_spec delta rand S Hdelta max_g target
      (st.agents.sum + st.updated.sum) fuel st st1 hal hul hs
    cases hp : process_delayed_agents delta rand skips use_skip st1 with
    | none =>
      rw [hp] at h
      exact absurd h (by simp)
    | some st2 =>
      rw [hp] at h
      obtain ⟨p1, p2, p3⟩ := process_delayed_agents_spec delta rand S Hdelta skips
        use_skip st1 st2 s1 s2 hp
      simp only [Option.some.injEq] at h
      subst h
      dsimp only
      have hz : (List.zipWith (· + ·) st2.agents st2.updated).sum =
          st2.agents.sum + st2.updated.sum :=
        sum_zipWith_add _ _ (by rw [p1, p2])
      refine ⟨?_, ?_, ?_, ?_, rfl⟩
      · rw [List.length_zipWith, p1, p2]
        simp
      · rw [List.length_map, p2]
      · rw [hz]
        omega
      · -- clearing: all counts mapped to zero
        simp

/-! ## EpochLengthController

Clock readings are an oracle stream `clock : Nat → ℤ` of successive
`steady_clock::now()` values in milliseconds (`steady_clock` is monotone).
The `double` arithmetic on times and throughputs is modelled by exact
rational arithmetic in an executable numerator/denominator representation:
a throughput measurement `progress / ((now - start)/1000)` is stored as the
pair `(progress · 1000, now - start)` and measurements are compared by
cross-multiplication. -/

/-- An interactions-per-second measurement, `num / den` with `den > 0` for
monotone clocks. -/
structure Throughput where
  num : Int
  den : Int
deriving DecidableEq

/-- `a < b` on measurements (exact rational comparison; denominators are
positive for monotone clocks). -/
def Throughput.ltb (a b : Throughput) : Bool := a.num * b.den < b.num * a.den

structure ControllerState where
  measure_number_of_epochs : Nat
  min : Nat
  max : Nat
  current_best : Nat
  current_measurement : Nat
  state : Nat
  measured_times : Throughput × Throughput × Throughput
  measure_epochs : Nat
  measure_start_time : Int
  phase_start_time : Int
  measure_num_interactions_start : Nat
  clockPos : Nat
deriving DecidableEq

/-- Read `measured_times_[i]` (a `std::array<double, 3>`). -/
def mtGet (m : Throughput × Throughput × Throughput) (i : Nat) : Throughput :=
  if i = 0 then m.1 else if i = 1 then m.2.1 else m.2.2

/-- Write `measured_times_[i]`. -/
def mtSet (m : Throughput × Throughput × Throughput) (i : Nat) (v : Throughput) :
    Throughput × Throughput × Throughput :=
  if i = 0 then (v, m.2.1, m.2.2) else if i = 1 then (m.1, v, m.2.2) else (m.1, m.2.1, v)

/-- `EpochLengthController::update_value(state)`:
`size_t(current_best_ * (1.0 + (int(state) - 1) * 0.1))` clamped into
`[min_, max_]`; `⌊best · (9 + state) / 10⌋` in exact arithmetic. -/
def ControllerState.update_value (cs : ControllerState) (state : Nat) : Nat :=
  let value := cs.current_best * (9 + state) / 10
  if value < cs.min then cs.min
  else if value > cs.max then cs.max
  else value

/-- Constructor state.  `min_ = ⌊n^0.4⌋+1`, `max_ = min(n, ⌊n^0.8⌋+1)` and
`current_best_ = min(max_, ⌊n^0.6⌋+1)` are computed with `std::pow` on
`double`; the three resulting sizes are taken as parameters here.
`current_measurement_`, `state_` and the measurement fields are
uninitialised until `start`; they are zeroed here. -/
def ControllerState.init (bmin bmax bbest : Nat) : ControllerState :=
  { measure_number_of_epochs := 10, min := bmin, max := bmax, current_best := bbest,
    current_measurement := 0, state := 0, measured_times := (⟨0, 1⟩, ⟨0, 1⟩, ⟨0, 1⟩),
    measure_epochs := 0, measure_start_time := 0, phase_start_time := 0,
    measure_num_interactions_start := 0, clockPos := 0 }

/-- `EpochLengthController::start`. -/
def ControllerState.start (clock : Nat → Int) (cs : ControllerState) : ControllerState :=
  let now := clock cs.clockPos
  let cs1 := { cs with state := 0, phase_start_time := now, measure_start_time := now,
                       clockPos := cs.clockPos + 1 }
  { cs1 with current_measurement := cs1.update_value 0 }

/-- `EpochLengthController::update(num_interactions)`: on a measurement
boundary, record the interactions-per-second of the finished phase, advance
the three-point state machine, and at a cycle end pick the argmax
measurement (ties to the earliest state, as `std::max_element`), recalibrate
the epochs-per-phase toward 60 ms per phase (bias `0.8`, floor `10`:
`⌊M · (4·pt + 60) / (5·pt)⌋` for phase time `pt`) and restart the cycle.
A non-increasing clock at a boundary (division by zero / negative
throughput, or a `size_t` cast of a non-finite `double`) is modelled as
`none`; `steady_clock` is monotone. -/
def ControllerState.update (clock : Nat → Int) (num_interactions : Nat)
    (cs : ControllerState) : Option ControllerState :=
  if cs.measure_epochs ≥ cs.measure_number_of_epochs then
    let now := clock cs.clockPos
    if now ≤ cs.measure_start_time then none
    else
      let progress := (num_interactions - cs.measure_num_interactions_start : Nat)
      let mt := mtSet cs.measured_times cs.state
        (⟨(progress : Int) * 1000, now - cs.measure_start_time⟩ : Throughput)
      let cs1 := { cs with measure_epochs := 0, clockPos := cs.clockPos + 1,
                           measure_start_time := now, measured_times := mt,
                           measure_num_interactions_start := num_interactions }
      if cs1.state + 1 > 2 then
        let i1 := if Throughput.ltb (mtGet mt 0) (mtGet mt 1) then 1 else 0
        let best_idx := if Throughput.ltb (mtGet mt i1) (mtGet mt 2) then 2 else i1
        let cs2 := { cs1 with current_best := cs1.update_value best_idx, state := 0 }
        let phase_time := cs2.measure_start_time - cs2.phase_start_time
        if phase_time ≤ 0 then none
        else
          let newM := (((cs2.measure_number_of_epochs : Int) * (4 * phase_time + 60)).tdiv
            (5 * phase_time)).toNat
          let cs3 := { cs2 with
            measure_number_of_epochs := if newM < 10 then 10 else newM,
            phase_start_time := cs2.measure_start_time }
          some { cs3 with current_measurement := cs3.update_value cs3.state }
      else
        let cs2 := { cs1 with state := cs1.state + 1 }
        some { cs2 with current_measurement := cs2.update_value cs2.state }
  else some { cs with measure_epochs := cs.measure_epochs + 1 }

/-! ## The full engine run -/

structure FullState where
  engine : EngineState
  ctrl : ControllerState
deriving DecidableEq

/-- Engine state after construction: `agents_` filled from the initial urn,
`updated_agents_` empty with the same color count, counters zero, fair coin
with an exhausted (uninitialised) buffer. -/
def engine_init (agents0 : List Nat) : EngineState :=
  { agents := agents0, updated := agents0.map (fun _ => 0), num_delayed := 0,
    num_interactions := 0, num_runs := 0, num_epochs := 0,
    coin := FairCoin.init 0, pos := 0 }

/-- `n` epochs of the `run` loop; after each epoch the controller observes
`num_interactions_`.  The state after each epoch is exactly what the monitor
sees at its invocation. -/
def engine_epochs (delta : Nat → Nat → Nat × Nat) (rand : Nat → Nat) (clock : Nat → Int)
    (skips : Nat → List Nat) (use_skip : Bool) (bmax fuel : Nat) :
    Nat → FullState → Option FullState
  | 0, fs => some fs
  | n + 1, fs =>
      match run_epoch delta rand skips use_skip (2 * bmax) fs.ctrl.current_measurement
          fuel fs.engine with
      | none => none
      | some e1 =>
          match ControllerState.update clock e1.num_interactions fs.ctrl with
          | none => none
          | some c1 =>
              engine_epochs delta rand clock skips use_skip bmax fuel n ⟨e1, c1⟩

/-- `AsyncBatchSimulator::run` up to the `n`-th monitor invocation: the
constructor builds the collision sampler with `max_g = 2 · B_max`, `run`
starts the controller and then executes epochs. -/
def engine_run (delta : Nat → Nat → Nat × Nat) (rand : Nat → Nat) (clock : Nat → Int)
    (skips : Nat → List Nat) (use_skip : Bool) (agents0 : List Nat)
    (bmin bmax bbest fuel n : Nat) : Option FullState :=
  engine_epochs delta rand clock skips use_skip bmax fuel n
    ⟨engine_init agents0,
     ControllerState.start clock (ControllerState.init bmin bmax bbest)⟩

theorem engine_epochs_conservation (delta : Nat → Nat → Nat × Nat) (rand : Nat → Nat)
    (clock : Nat → Int) (S : Nat) (Hdelta : DeltaInRangeOn S delta)
    (skips : Nat → List Nat) (use_skip : Bool) (bmax fuel N : Nat) :
    ∀ (n : Nat) (fs fs' : FullState),
      fs.engine.agents.length = S → fs.engine.updated.length = S →
      fs.engine.agents.sum = N → fs.engine.updated.sum = 0 →
      fs.engine.num_delayed = 0 →
      engine_epochs delta rand clock skips use_skip bmax fuel n fs = some fs' →
      fs'.engine.agents.length = S ∧ fs'.engine.updated.length = S ∧
      fs'.engine.agents.sum = N ∧ fs'.engine.updated.sum = 0 ∧
      fs'.engine.num_delayed = 0 := by
  intro n
  induction n with
  | zero =>
    intro fs fs' h1 h2 h3 h4 h5 h
    simp only [engine_epochs, Option.some.injEq] at h
    subst h
    exact ⟨h1, h2, h3, h4, h5⟩
  | succ n ih =>
    intro fs fs' h1 h2 h3 h4 h5 h
    rw [engine_epochs] at h
    cases he : run_epoch delta rand skips use_skip (2 * bmax)
        fs.ctrl.current_measurement fuel fs.engine with
    | none =>
      rw [he] at h
      exact absurd h (by simp)
    | some e1 =>
      rw [he] at h
      obtain ⟨q1, q2, q3, q4, q5⟩ := run_epoch_spec delta rand S Hdelta skips use_skip
        (2 * bmax) fs.ctrl.current_measurement fuel fs.engine e1 h1 h2 he
      dsimp only at h
      cases hc : ControllerState.update clock e1.num_interactions fs.ctrl with
      | none =>
        rw [hc] at h
        exact absurd h (by simp)
      | some c1 =>
        rw [hc] at h
        exact ih ⟨e1, c1⟩ fs' q1 q2 (show e1.agents.sum = N by omega) q4 q5 h

/-! ## AsyncBatchSimulator: bulk phase (deterministic one-way path)

`process_delayed_agents` dispatches deterministic one-way protocols (lines
182-183) to `process_delayed_agents_partitioned`.  The constructor
precomputes `one_way_partitions_` via
`Protocols::parition_oneway_transactions`: for each first state, the second
states `0..S-1` are grouped by their target `f(first, second)`; the groups
are held in a `std::map` keyed by target, so they come out in ascending
target order, each holding its second states in ascending order.  The
unused `num_agents` local and the unused `skipable_transactions_` reference
binding of `process_delayed_agents_partitioned` are dropped. -/

/-- Insertion into an ascending list; `foldr insertSorted []` sorts, which
together with `dedup` models the `std::map`'s ascending distinct keys. -/
def insertSorted (x : Nat) : List Nat → List Nat
  | [] => [x]
  | y :: ys => if x ≤ y then x :: y :: ys else y :: insertSorted x ys

/-- `Protocols::parition_oneway_transactions`, one row: the distinct targets
of `f first ·` in ascending order, each paired with the ascending list of
second states mapped to it. -/
def oneway_partitions (f : Nat → Nat → Nat) (S first : Nat) : List (List Nat × Nat) :=
  (((List.range S).map (f first)).foldr insertSorted []).dedup.map
    (fun t => ((List.range S).filter (fun s => decide (f first s = t)), t))

/-- The partition loop of `process_delayed_agents_partitioned` (lines
285-302): per partition, count its balls in the (unmodified) agents urn,
draw hypergeometrically how many of the remaining delayed partners fall
into it (`bulk_ns` is the same `num_selected` lambda), and credit the
partition's target in `updated_agents_`.  Breaks as soon as nothing is left
to sample; the loop also ends silently — leftover reported — when the
partitions run out first.  A support-violating hypergeometric draw or an
out-of-range target (`add_balls` out of bounds) is undefined behaviour. -/
def partitioned_walk (rand : Nat → Nat) (agents : List Nat) :
    List (List Nat × Nat) → Nat → Nat → Nat → List Nat →
    Option (List Nat × Nat × Nat)
  | [], _, left, pos, upd => some (upd, pos, left)
  | (grp, tgt) :: ps, unc, left, pos, upd =>
      let balls := (grp.map (fun x => agents.getD x 0)).sum
      let ns := bulk_ns balls unc left (rand pos)
      if balls < ns ∨ left < ns then none
      else
        if upd.length ≤ tgt then none
        else
          if left - ns = 0 then some (addAt upd tgt ns, bulk_pos balls unc pos, 0)
          else
            partitioned_walk rand agents ps (unc - balls) (left - ns)
              (bulk_pos balls unc pos) (addAt upd tgt ns)

/-- One task `(first_state, k)` of the partitioned bulk loop (lines
273-302): nothing to do when the task is empty; a single-partition row
sends all `k` partners to its target directly; otherwise the partition walk
with `unconsidered_balls` starting at the urn total. -/
def partitioned_group (rand : Nat → Nat) (parts : Nat → List (List Nat × Nat))
    (agents : List Nat) (first_state k : Nat) (upd : List Nat) (pos : Nat) :
    Option (List Nat × Nat) :=
  if k = 0 then some (upd, pos)
  else
    match parts first_state with
    | [] => some (upd, pos)
    | [p] => if upd.length ≤ p.2 then none else some (addAt upd p.2 k, pos)
    | ps => match partitioned_walk rand agents ps agents.sum k pos upd with
            | none => none
            | some (upd', pos', _) => some (upd', pos')

/-- The loop over the extracted first-partner tasks. -/
def partitioned_groups (rand : Nat → Nat) (parts : Nat → List (List Nat × Nat))
    (agents : List Nat) : List (Nat × Nat) → List Nat → Nat → Option (List Nat × Nat)
  | [], upd, pos => some (upd, pos)
  | (s1, k) :: tasks, upd, pos =>
      match partitioned_group rand parts agents s1 k upd pos with
      | none => none
      | some (upd1, pos1) => partitioned_groups rand parts agents tasks upd1 pos1

/-- `process_delayed_agents_partitioned` (lines 252-306): extract
`num_delayed_agents_ / 2` first partners without replacement from
`agents_`, resolve each task against the now-fixed urn (one-way partners
keep their state, so nothing further is removed) and count
`num_delayed_agents_ / 2` interactions. -/
def process_delayed_agents_partitioned (rand : Nat → Nat)
    (parts : Nat → List (List Nat × Nat)) (st : EngineState) : Option EngineState :=
  match remove_random_balls rand st.agents (st.num_delayed / 2) st.pos with
  | none => none
  | some (first_agents, agents1, pos1) =>
      match partitioned_groups rand parts agents1 first_agents st.updated pos1 with
      | none => none
      | some (upd', pos2) =>
          some { st with agents := agents1, updated := upd', pos := pos2,
                         num_interactions := st.num_interactions + st.num_delayed / 2 }

/-- One epoch of `run` for a deterministic one-way protocol: its transition
is `(first, second) ↦ (f first second, second)` and its bulk phase is the
partitioned one. -/
def run_epoch_oneway (f : Nat → Nat → Nat) (rand : Nat → Nat)
    (parts : Nat → List (List Nat × Nat)) (max_g target fuel : Nat)
    (st : EngineState) : Option EngineState :=
  match sample_run_lengths_and_plant_collisions (fun a b => (f a b, b)) rand max_g
      target fuel st with
  | none => none
  | some st1 =>
    match process_delayed_agents_partitioned rand parts st1 with
    | none => none
    | some st2 =>
        some { st2 with
                 agents := List.zipWith (· + ·) st2.agents st2.updated,
                 updated := st2.updated.map (fun _ => 0),
                 num_delayed := 0,
                 num_epochs := st2.num_epochs + 1 }

/-- The `run` loop for a deterministic one-way protocol. -/
def engine_epochs_oneway (f : Nat → Nat → Nat) (rand : Nat → Nat) (clock : Nat → Int)
    (parts : Nat → List (List Nat × Nat)) (bmax fuel : Nat) :
    Nat → FullState → Option FullState
  | 0, fs => some fs
  | n + 1, fs =>
      match run_epoch_oneway f rand parts (2 * bmax) fs.ctrl.current_measurement
          fuel fs.engine with
      | none => none
      | some e1 =>
          match ControllerState.update clock e1.num_interactions fs.ctrl with
          | none => none
          | some c1 =>
              engine_epochs_oneway f rand clock parts bmax fuel n ⟨e1, c1⟩

/-- `AsyncBatchSimulator::run` for a deterministic one-way protocol: the
constructor precomputes the partition table over the urn's color count. -/
def engine_run_oneway (f : Nat → Nat → Nat) (rand : Nat → Nat) (clock : Nat → Int)
    (agents0 : List Nat) (bmin bmax bbest fuel n : Nat) : Option FullState :=
  engine_epochs_oneway f rand clock (oneway_partitions f agents0.length) bmax fuel n
    ⟨engine_init agents0,
     ControllerState.start clock (ControllerState.init bmin bmax bbest)⟩

/-! ### Conservation through the partitioned bulk phase -/

/-- Row table well-formedness as `parition_oneway_transactions` guarantees
it: per first state, all targets are in range and the partition groups
cover every second state exactly once. -/
def PartsOk (S : Nat) (parts : Nat → List (List Nat × Nat)) : Prop :=
  ∀ s, s < S → (∀ pr ∈ parts s, pr.2 < S) ∧
    List.Perm ((parts s).flatMap Prod.fst) (List.range S)

theorem mem_le_sum_nat : ∀ (l : List Nat), ∀ x ∈ l, x ≤ l.sum := by
  intro l
  induction l with
  | nil => intro x hx; simp at hx
  | cons a t ih =>
    intro x hx
    rcases List.mem_cons.mp hx with rfl | hx'
    · simp only [List.sum_cons]
      omega
    · have := ih x hx'
      simp only [List.sum_cons]
      omega

theorem mem_insertSorted (x y : Nat) :
    ∀ (l : List Nat), x ∈ insertSorted y l ↔ x = y ∨ x ∈ l := by
  intro l
  induction l with
  | nil => simp [insertSorted]
  | cons a t ih =>
    by_cases h : y ≤ a
    · simp [insertSorted, h]
    · simp only [insertSorted, if_neg h, List.mem_cons, ih]
      tauto

theorem mem_sortKeys (x : Nat) :
    ∀ (l : List Nat), x ∈ l.foldr insertSorted [] ↔ x ∈ l := by
  intro l
  induction l with
  | nil => simp
  | cons a t ih => simp [List.foldr, mem_insertSorted, ih]

theorem bind_congr_on {α β : Type} (l : List α) (F G : α → List β)
    (h : ∀ x ∈ l, F x = G x) : l.flatMap F = l.flatMap G := by
  induction l with
  | nil => rfl
  | cons a t ih =>
    simp only [List.flatMap_cons, h a (by simp)]
    rw [ih (fun x hx => h x (by simp [hx]))]

theorem bind_map_fst {α : Type} (T : List α) (F : α → List Nat) :
    ((T.map (fun t => (F t, t))).flatMap Prod.fst) = T.flatMap F := by
  induction T with
  | nil => rfl
  | cons a t ih => simp only [List.map_cons, List.flatMap_cons, ih]

/-- Grouping a list by its distinct `g`-values (the `std::map` of
`parition_oneway_transactions`) is a permutation of the list. -/
theorem bind_filter_perm (g : Nat → Nat) :
    ∀ (ts : List Nat) (l : List Nat), ts.Nodup → (∀ x ∈ l, g x ∈ ts) →
      List.Perm (ts.flatMap (fun t => l.filter (fun s => decide (g s = t)))) l := by
  intro ts
  induction ts with
  | nil =>
    intro l _ hcov
    cases l with
    | nil => simp
    | cons a t => exact absurd (hcov a (by simp)) (by simp)
  | cons t ts ih =>
    intro l hnd hcov
    have hnd1 := List.nodup_cons.mp hnd
    rw [List.flatMap_cons]
    have hcongr : ts.flatMap (fun t' => l.filter (fun s => decide (g s = t')))
        = ts.flatMap (fun t' => (l.filter (fun s => !decide (g s = t))).filter
            (fun s => decide (g s = t'))) := by
      apply bind_congr_on
      intro t' ht'
      have htne : t' ≠ t := fun hh => hnd1.1 (hh ▸ ht')
      rw [List.filter_filter]
      apply List.filter_congr
      intro s _
      by_cases hg : g s = t'
      · have hnot : ¬ g s = t := fun hh => htne (by rw [← hg, hh])
        simp [hg, hnot, htne]
      · simp [hg]
    rw [hcongr]
    have hperm2 := ih (l.filter (fun s => !decide (g s = t))) hnd1.2
      (by intro x hx
          have hx1 := List.mem_filter.mp hx
          rcases List.mem_cons.mp (hcov x hx1.1) with h1 | h1
          · exfalso
            have := hx1.2
            simp [h1] at this
          · exact h1)
    exact ((List.Perm.refl _).append hperm2).trans (List.filter_append_perm _ l)

theorem oneway_partitions_ok (f : Nat → Nat → Nat) (S : Nat)
    (hf : ∀ a b, a < S → b < S → f a b < S) : PartsOk S (oneway_partitions f S) := by
  intro first hfirst
  constructor
  · intro pr hpr
    unfold oneway_partitions at hpr
    obtain ⟨t, ht, rfl⟩ := List.mem_map.mp hpr
    have ht2 : t ∈ ((List.range S).map (f first)) :=
      (mem_sortKeys t _).mp (List.mem_dedup.mp ht)
    obtain ⟨s, hs, rfl⟩ := List.mem_map.mp ht2
    exact hf first s hfirst (List.mem_range.mp hs)
  · unfold oneway_partitions
    rw [bind_map_fst]
    apply bind_filter_perm
    · exact List.nodup_dedup _
    · intro x hx
      exact List.mem_dedup.mpr ((mem_sortKeys _ _).mpr (List.mem_map.mpr ⟨x, hx, rfl⟩))

/-- Completion and exact allocation of the partition loop: starting with
`left ≤ unconsidered` (and draws in the hypergeometric support, which the
oracle guarantees whenever the support is non-empty), the loop deposits
exactly `left` balls and ends with nothing left over. -/
theorem partitioned_walk_spec (rand : Nat → Nat) (agents : List Nat) (S : Nat) :
    ∀ (ps : List (List Nat × Nat)) (unc left pos : Nat) (upd : List Nat),
      upd.length = S →
      (∀ pr ∈ ps, pr.2 < S) →
      unc = ((ps.flatMap Prod.fst).map (fun x => agents.getD x 0)).sum →
      0 < left → left ≤ unc →
      ∃ upd' pos',
        partitioned_walk rand agents ps unc left pos upd = some (upd', pos', 0) ∧
        upd'.length = S ∧ upd'.sum = upd.sum + left := by
  intro ps
  induction ps with
  | nil =>
    intro unc left pos upd _ _ hunc hl hle
    exfalso
    simp only [List.flatMap_nil, List.map_nil, List.sum_nil] at hunc
    omega
  | cons p ps ih =>
    obtain ⟨grp, tgt⟩ := p
    intro unc left pos upd hul htgt hunc hl hle
    unfold partitioned_walk
    dsimp only
    set balls := (grp.map (fun x => agents.getD x 0)).sum with hballs
    set ns := bulk_ns balls unc left (rand pos) with hns
    have hsplit : unc = balls +
        ((ps.flatMap Prod.fst).map (fun x => agents.getD x 0)).sum := by
      rw [hunc, List.flatMap_cons, List.map_append, List.sum_append]
    have htgtS : tgt < S := htgt (grp, tgt) (List.mem_cons_self _ _)
    have hns_le : ns ≤ balls ∧ ns ≤ left := by
      rw [hns]
      unfold bulk_ns
      by_cases hz : balls = 0
      · simp [hz]
      · rw [if_neg hz]
        by_cases hu : unc - balls = 0
        · rw [if_pos hu]
          exact ⟨min_le_right _ _, min_le_left _ _⟩
        · rw [if_neg hu]
          exact ⟨hypergeometric_draw_le_good _ _ _ _ (by omega),
                 hypergeometric_draw_le_draws _ _ _ _ (by omega)⟩
    rw [if_neg (by omega : ¬(balls < ns ∨ left < ns))]
    rw [if_neg (by omega : ¬(upd.length ≤ tgt))]
    by_cases hfin : left - ns = 0
    · rw [if_pos hfin]
      refine ⟨addAt upd tgt ns, bulk_pos balls unc pos, rfl, ?_, ?_⟩
      · rw [addAt_length]
        exact hul
      · rw [addAt_sum _ _ _ (by omega)]
        omega
    · rw [if_neg hfin]
      have hge : left - (unc - balls) ≤ ns := by
        rw [hns]
        unfold bulk_ns
        by_cases hz : balls = 0
        · simp only [hz, if_pos rfl]
          omega
        · rw [if_neg hz]
          by_cases hu : unc - balls = 0
          · rw [if_pos hu]
            omega
          · rw [if_neg hu]
            exact hypergeometric_draw_ge balls (unc - balls) left _
      obtain ⟨upd', pos', hw, hlen', hsum'⟩ := ih (unc - balls) (left - ns)
        (bulk_pos balls unc pos) (addAt upd tgt ns)
        (by rw [addAt_length]; exact hul)
        (fun pr hpr => htgt pr (List.mem_cons_of_mem _ hpr))
        (by omega) (by omega) (by omega)
      refine ⟨upd', pos', hw, hlen', ?_⟩
      rw [hsum', addAt_sum _ _ _ (by omega)]
      omega

theorem sum_map_range_getD_nat :
    ∀ (l : List Nat), ((List.range l.length).map (fun i => l.getD i 0)).sum = l.sum := by
  intro l
  induction l with
  | nil => rfl
  | cons x xs ih =>
    show ((List.range (xs.length + 1)).map (fun i => (x :: xs).getD i 0)).sum = x + xs.sum
    rw [List.range_succ_eq_map]
    simp only [List.map_cons, List.map_map, List.sum_cons, List.getD_cons_zero]
    have h2 : ((fun i => (x :: xs).getD i 0) ∘ Nat.succ) = fun i => xs.getD i 0 := by
      funext i
      simp [Function.comp, List.getD_cons_succ]
    rw [h2, ih]

theorem partitioned_group_spec (rand : Nat → Nat) (parts : Nat → List (List Nat × Nat))
    (agents : List Nat) (S : Nat) (first_state k : Nat) (upd : List Nat) (pos : Nat)
    (hS : agents.length = S) (hul : upd.length = S)
    (hp1 : ∀ pr ∈ parts first_state, pr.2 < S)
    (hp2 : List.Perm ((parts first_state).flatMap Prod.fst) (List.range S))
    (hk : k ≤ agents.sum) :
    ∃ upd' pos',
      partitioned_group rand parts agents first_state k upd pos = some (upd', pos') ∧
      upd'.length = S ∧ upd'.sum = upd.sum + k := by
  unfold partitioned_group
  by_cases hk0 : k = 0
  · rw [if_pos hk0]
    exact ⟨upd, pos, rfl, hul, by omega⟩
  rw [if_neg hk0]
  have htot : (((parts first_state).flatMap Prod.fst).map (fun x => agents.getD x 0)).sum
      = agents.sum := by
    rw [(hp2.map (fun x => agents.getD x 0)).sum_eq, ← hS]
    exact sum_map_range_getD_nat agents
  cases hps : parts first_state with
  | nil =>
    exfalso
    rw [hps] at hp2
    have hS0 : S = 0 := by simpa using hp2.length_eq.symm
    have hanil : agents = [] := List.length_eq_zero.mp (by omega)
    rw [hanil] at hk
    simp only [List.sum_nil, Nat.le_zero] at hk
    exact hk0 hk
  | cons p ps' =>
    cases ps' with
    | nil =>
      have htp : p.2 < S := hp1 p (hps ▸ List.mem_cons_self _ _)
      dsimp only
      rw [if_neg (by omega : ¬(upd.length ≤ p.2))]
      refine ⟨addAt upd p.2 k, pos, rfl, by rw [addAt_length]; exact hul, ?_⟩
      exact addAt_sum _ _ _ (by omega)
    | cons q ps'' =>
      rw [hps] at htot
      obtain ⟨upd', pos', hw, h1, h2⟩ := partitioned_walk_spec rand agents S
        (p :: q :: ps'') agents.sum k pos upd hul
        (by intro pr hpr; exact hp1 pr (hps ▸ hpr))
        htot.symm (by omega) hk
      dsimp only
      rw [hw]
      exact ⟨upd', pos', rfl, h1, h2⟩

theorem partitioned_groups_spec (rand : Nat → Nat) (parts : Nat → List (List Nat × Nat))
    (agents : List Nat) (S : Nat)
    (hS : agents.length = S) (hparts : PartsOk S parts) :
    ∀ (tasks : List (Nat × Nat)) (upd : List Nat) (pos : Nat),
      upd.length = S →
      (∀ p ∈ tasks, p.1 < S) →
      (tasks.map Prod.snd).sum ≤ agents.sum →
      ∃ upd' pos',
        partitioned_groups rand parts agents tasks upd pos = some (upd', pos') ∧
        upd'.length = S ∧ upd'.sum = upd.sum + (tasks.map Prod.snd).sum := by
  intro tasks
  induction tasks with
  | nil =>
    intro upd pos hul _ _
    exact ⟨upd, pos, rfl, hul, by simp⟩
  | cons t ts ih =>
    obtain ⟨s1, k⟩ := t
    intro upd pos hul hrange hsum
    have hs1 : s1 < S := by simpa using hrange (s1, k) (List.mem_cons_self _ _)
    simp only [List.map_cons, List.sum_cons] at hsum
    obtain ⟨upd1, pos1, hg, h1, h2⟩ := partitioned_group_spec rand parts agents S s1 k
      upd pos hS hul (hparts s1 hs1).1 (hparts s1 hs1).2 (by omega)
    obtain ⟨upd', pos', hgs, h3, h4⟩ := ih upd1 pos1 h1
      (fun p hp => hrange p (List.mem_cons_of_mem _ hp)) (by omega)
    refine ⟨upd', pos', ?_, h3, ?_⟩
    · rw [partitioned_groups, hg]
      exact hgs
    · rw [h4, h2]
      simp only [List.map_cons, List.sum_cons]
      omega

/-- Conservation through `process_delayed_agents_partitioned`: the phase
removes `num_delayed_agents_ / 2` first partners and credits exactly as
many new states to `updated_agents_`, provided the delayed pool fits in the
urn (otherwise the C++ partition loops can run out of balls and silently
drop the excess). -/
theorem process_delayed_agents_partitioned_spec (rand : Nat → Nat)
    (parts : Nat → List (List Nat × Nat)) (S : Nat) (hparts : PartsOk S parts)
    (st : EngineState)
    (hal : st.agents.length = S) (hul : st.updated.length = S)
    (hfit : st.num_delayed ≤ st.agents.sum) :
    ∃ st', process_delayed_agents_partitioned rand parts st = some st' ∧
      st'.agents.length = S ∧ st'.updated.length = S ∧
      st'.agents.sum + st'.updated.sum = st.agents.sum + st.updated.sum := by
  unfold process_delayed_agents_partitioned
  by_cases h0 : st.agents.sum = 0 ∨ st.num_delayed / 2 = 0
  · rw [show remove_random_balls rand st.agents (st.num_delayed / 2) st.pos
        = some ([], st.agents, st.pos) from by
      unfold remove_random_balls
      rw [if_pos h0]]
    exact ⟨_, rfl, hal, hul, rfl⟩
  · have hk : st.num_delayed / 2 ≤ st.agents.sum := by omega
    obtain ⟨out, rest1, pos2, hwor, hosum, holen, horest, homem⟩ :=
      wor_walk_spec rand st.agents (st.num_delayed / 2) 0 st.pos hk
    rw [show remove_random_balls rand st.agents (st.num_delayed / 2) st.pos
        = some (out, rest1, pos2) from by
      unfold remove_random_balls
      rw [if_neg h0]
      exact hwor]
    obtain ⟨upd', pos', hgs, g1, g2⟩ := partitioned_groups_spec rand parts rest1 S
      (by omega) hparts out st.updated pos2 hul
      (by intro p hp
          obtain ⟨j, hj, hpj, _, _⟩ := homem p hp
          omega)
      (by rw [hosum]; omega)
    dsimp only
    rw [hgs]
    refine ⟨_, rfl, by dsimp only; omega, g1, ?_⟩
    dsimp only
    rw [g2, hosum]
    omega

theorem run_epoch_oneway_spec (f : Nat → Nat → Nat) (rand : Nat → Nat)
    (parts : Nat → List (List Nat × Nat)) (S : Nat)
    (hf : ∀ a b, a < S → b < S → f a b < S) (hparts : PartsOk S parts)
    (max_g target fuel : Nat) (st st' : EngineState)
    (hal : st.agents.length = S) (hul : st.updated.length = S)
    (hfit : ∀ st1, sample_run_lengths_and_plant_collisions (fun a b => (f a b, b)) rand
      max_g target fuel st = some st1 → st1.num_delayed ≤ st1.agents.sum)
    (h : run_epoch_oneway f rand parts max_g target fuel st = some st') :
    st'.agents.length = S ∧ st'.updated.length = S ∧
    st'.agents.sum = st.agents.sum + st.updated.sum ∧
    st'.updated.sum = 0 ∧ st'.num_delayed = 0 := by
  unfold run_epoch_oneway at h
  cases hs : sample_run_lengths_and_plant_collisions (fun a b => (f a b, b)) rand max_g
      target fuel st with
  | none =>
    rw [hs] at h
    exact absurd h (by simp)
  | some st1 =>
    rw [hs] at h
    dsimp only at h
    obtain ⟨s1, s2, s3⟩ := sampling_loop_spec (fun a b => (f a b, b)) rand S
      (fun a b ha hb => ⟨hf a b ha hb, hb⟩) max_g target
      (st.agents.sum + st.updated.sum) fuel st st1 hal hul hs
    obtain ⟨st2, hp, p1, p2, p3⟩ := process_delayed_agents_partitioned_spec rand parts S
      hparts st1 s1 s2 (hfit st1 hs)
    rw [hp] at h
    simp only [Option.some.injEq] at h
    subst h
    dsimp only
    have hz : (List.zipWith (· + ·) st2.agents st2.updated).sum =
        st2.agents.sum + st2.updated.sum :=
      sum_zipWith_add _ _ (by rw [p1, p2])
    refine ⟨?_, ?_, ?_, ?_, rfl⟩
    · rw [List.length_zipWith, p1, p2]
      simp
    · rw [List.length_map, p2]
    · rw [hz]
      omega
    · simp

/-- Conservation across the one-way `run` loop.  The fit hypothesis is the
code's implicit contract that each epoch's delayed pool fits in the urn
when the bulk phase starts: without it the C++ partition loops exhaust the
urn and silently drop the excess delayed partners. -/
theorem engine_epochs_oneway_conservation (f : Nat → Nat → Nat) (rand : Nat → Nat)
    (clock : Nat → Int) (parts : Nat → List (List Nat × Nat)) (S : Nat)
    (hf : ∀ a b, a < S → b < S → f a b < S) (hparts : PartsOk S parts)
    (bmax fuel N : Nat) :
    ∀ (n : Nat) (fs fs' : FullState),
      fs.engine.agents.length = S → fs.engine.updated.length = S →
      fs.engine.agents.sum = N → fs.engine.updated.sum = 0 →
      fs.engine.num_delayed = 0 →
      (∀ (k : Nat) (fsk : FullState) (st1 : EngineState), k < n →
        engine_epochs_oneway f rand clock parts bmax fuel k fs = some fsk →
        sample_run_lengths_and_plant_collisions (fun a b => (f a b, b)) rand (2 * bmax)
          fsk.ctrl.current_measurement fuel fsk.engine = some st1 →
        st1.num_delayed ≤ st1.agents.sum) →
      engine_epochs_oneway f rand clock parts bmax fuel n fs = some fs' →
      fs'.engine.agents.length = S ∧ fs'.engine.updated.length = S ∧
      fs'.engine.agents.sum = N ∧ fs'.engine.updated.sum = 0 ∧
      fs'.engine.num_delayed = 0 := by
  intro n
  induction n with
  | zero =>
    intro fs fs' h1 h2 h3 h4 h5 _ h
    simp only [engine_epochs_oneway, Option.some.injEq] at h
    subst h
    exact ⟨h1, h2, h3, h4, h5⟩
  | succ n ih =>
    intro fs fs' h1 h2 h3 h4 h5 hfit h
    rw [engine_epochs_oneway] at h
    cases he : run_epoch_oneway f rand parts (2 * bmax)
        fs.ctrl.current_measurement fuel fs.engine with
    | none =>
      rw [he] at h
      exact absurd h (by simp)
    | some e1 =>
      rw [he] at h
      have hfit0 : ∀ st1, sample_run_lengths_and_plant_collisions
          (fun a b => (f a b, b)) rand (2 * bmax) fs.ctrl.current_measurement fuel
          fs.engine = some st1 → st1.num_delayed ≤ st1.agents.sum := by
        intro st1 hs1
        exact hfit 0 fs st1 (by omega) (by simp [engine_epochs_oneway]) hs1
      obtain ⟨q1, q2, q3, q4, q5⟩ := run_epoch_oneway_spec f rand parts S hf hparts
        (2 * bmax) fs.ctrl.current_measurement fuel fs.engine e1 h1 h2 hfit0 he
      dsimp only at h
      cases hc : ControllerState.update clock e1.num_interactions fs.ctrl with
      | none =>
        rw [hc] at h
        exact absurd h (by simp)
      | some c1 =>
        rw [hc] at h
        refine ih ⟨e1, c1⟩ fs' q1 q2 (show e1.agents.sum = N by omega) q4 q5 ?_ h
        intro k fsk st1 hk hek hs1
        refine hfit (k + 1) fsk st1 (by omega) ?_ hs1
        rw [engine_epochs_oneway, he]
        dsimp only
        rw [hc]
        exact hek

/-- C1-two-way helper: conservation for deterministic two-way protocols,
stated over `engine_run` exactly as the claim's spec sentence reads. -/
theorem conservation_two_way (delta : Nat → Nat → Nat × Nat) (S : Nat)
    (Hdelta : DeltaInRange S delta) (rand : Nat → Nat) (clock : Nat → Int)
    (skips : Nat → List Nat) (use_skip : Bool) (agents0 : List Nat)
    (bmin bmax bbest fuel : Nat)
    (hlen : agents0.length = S) (_hne : 0 < agents0.sum) :
    ∀ (n : Nat) (fs : FullState),
      engine_run delta rand clock skips use_skip agents0 bmin bmax bbest fuel n =
        some fs →
      fs.engine.agents.sum = agents0.sum ∧ fs.engine.updated.sum = 0 ∧
      fs.engine.num_delayed = 0 := by
  intro n fs h
  obtain ⟨_, _, h3, h4, h5⟩ := engine_epochs_conservation delta rand clock S Hdelta.on
    skips use_skip bmax fuel agents0.sum n
    ⟨engine_init agents0,
     ControllerState.start clock (ControllerState.init bmin bmax bbest)⟩ fs
    hlen (by simp [engine_init, hlen]) rfl (by simp [engine_init]) rfl h
  exact ⟨h3, h4, h5⟩

/-- C1-one-way helper: conservation for deterministic one-way protocols,
over `engine_run_oneway`, given the per-epoch fit contract. -/
theorem conservation_one_way (f : Nat → Nat → Nat) (S : Nat)
    (hf : ∀ a b, a < S → b < S → f a b < S) (rand : Nat → Nat) (clock : Nat → Int)
    (agents0 : List Nat) (bmin bmax bbest fuel : Nat)
    (hlen : agents0.length = S) (_hne : 0 < agents0.sum) :
    ∀ (n : Nat) (fs : FullState),
      (∀ (k : Nat) (fsk : FullState) (st1 : EngineState), k < n →
        engine_epochs_oneway f rand clock (oneway_partitions f agents0.length) bmax
          fuel k ⟨engine_init agents0,
            ControllerState.start clock (ControllerState.init bmin bmax bbest)⟩ =
          some fsk →
        sample_run_lengths_and_plant_collisions (fun a b => (f a b, b)) rand (2 * bmax)
          fsk.ctrl.current_measurement fuel fsk.engine = some st1 →
        st1.num_delayed ≤ st1.agents.sum) →
      engine_run_oneway f rand clock agents0 bmin bmax bbest fuel n = some fs →
      fs.engine.agents.sum = agents0.sum ∧ fs.engine.updated.sum = 0 ∧
      fs.engine.num_delayed = 0 := by
  intro n fs hfit h
  obtain ⟨_, _, h3, h4, h5⟩ := engine_epochs_oneway_conservation f rand clock
    (oneway_partitions f agents0.length) S hf
    (by rw [hlen]; exact oneway_partitions_ok f S hf) bmax fuel agents0.sum n
    ⟨engine_init agents0,
     ControllerState.start clock (ControllerState.init bmin bmax bbest)⟩ fs
    hlen (by simp [engine_init, hlen]) rfl (by simp [engine_init]) rfl hfit h
  exact ⟨h3, h4, h5⟩

/-! ## AsyncBatchSimulator: randomised protocols

A non-deterministic protocol assigns its results through a callback; its
internal randomness is implementation-defined and modelled as oracles, one
slot per protocol invocation: `rdelta pos first second` is the result pair
of a single `Protocols::transition` call (for a randomised one-way protocol
its second component is the unchanged `second`), and `sink pos first second
num` is the list of `(state, count)` pairs the batch invocation inside
`perform_interactions` assigns.  The constructor leaves
`use_skip_heuristic_` off and all `skipable_transactions_` rows empty for
non-deterministic protocols (line 71), so the generic bulk path runs
without the skip branch. -/

/-- `perform_interaction` via `Protocols::transition` for a randomised
protocol inside `sample_delayed_agent`: one oracle slot. -/
def sample_delayed_agent_rp (rdelta : Nat → Nat → Nat → Nat × Nat) (rand : Nat → Nat)
    (st : EngineState) : Option (Nat × EngineState) :=
  match sample_untouched_agent rand st with
  | none => none
  | some (first, st1) =>
    match sample_untouched_agent rand st1 with
    | none => none
    | some (second, st2) =>
        let st3 := { st2 with num_delayed := st2.num_delayed - 2 }
        let res := rdelta st3.pos first second
        let st4 := { st3 with num_interactions := st3.num_interactions + 1,
                              pos := st3.pos + 1 }
        let fc := FairCoin.step rand st4.coin st4.pos
        let st5 := { st4 with coin := fc.2.1, pos := fc.2.2 }
        let store := if fc.1 then res.1 else res.2
        let ret := if fc.1 then res.2 else res.1
        some (ret, { st5 with updated := addAt st5.updated store 1 })

/-- The `sample_agent` lambda for a randomised protocol. -/
def sample_agent_rp (rdelta : Nat → Nat → Nat → Nat × Nat) (rand : Nat → Nat)
    (num_colliding_agents : Nat) (has_collision : Bool) (st : EngineState) :
    Option (Nat × EngineState) :=
  if has_collision then
    let r := rand st.pos
    let st1 := { st with pos := st.pos + 1 }
    if with_probability st1.num_delayed num_colliding_agents r then
      sample_delayed_agent_rp rdelta rand st1
    else
      sample_updated_agent rand st1
  else sample_untouched_agent rand st

/-- One sampling-phase iteration for a randomised protocol; the final
`perform_interaction` consumes one oracle slot. -/
def sampling_iteration_rp (rdelta : Nat → Nat → Nat → Nat × Nat) (rand : Nat → Nat)
    (max_g num_agents : Nat) (fuel : Nat) (st : EngineState) : Option EngineState :=
  let g0 := st.num_delayed + st.updated.sum
  match set_red_stage max_g g0 with
  | none => none
  | some _ =>
    match roundDraw rand g0 fuel st.pos with
    | none => none
    | some (round_length, pos1) =>
        let st1 := { st with num_delayed := st.num_delayed + 2 * (round_length / 2),
                             pos := pos1 }
        let num_colliding_agents := st1.num_delayed + st1.updated.sum
        let first_collides := has_collision_on_first round_length
        let second_collides :=
          if first_collides then
            has_collision_on_second first_collides num_colliding_agents num_agents
              (rand st1.pos)
          else true
        let st2 := if first_collides then { st1 with pos := st1.pos + 1 } else st1
        match sample_agent_rp rdelta rand num_colliding_agents first_collides st2 with
        | none => none
        | some (first, st3) =>
          match sample_agent_rp rdelta rand num_colliding_agents second_collides st3 with
          | none => none
          | some (second, st4) =>
              let res := rdelta st4.pos first second
              some { st4 with
                       pos := st4.pos + 1,
                       num_interactions := st4.num_interactions + 1,
                       updated := addAt (addAt st4.updated res.1 1) res.2 1,
                       num_runs := st4.num_runs + 1 }

/-- The sampling-phase loop for a randomised protocol. -/
def sampling_loop_rp (rdelta : Nat → Nat → Nat → Nat × Nat) (rand : Nat → Nat)
    (max_g target num_agents : Nat) : Nat → EngineState → Option EngineState
  | 0, st =>
      if st.num_delayed + st.updated.sum < target then none else some st
  | fuel + 1, st =>
      if st.num_delayed + st.updated.sum < target then
        match sampling_iteration_rp rdelta rand max_g num_agents (fuel + 1) st with
        | none => none
        | some st1 => sampling_loop_rp rdelta rand max_g target num_agents fuel st1
      else some st

def sample_run_lengths_and_plant_collisions_rp (rdelta : Nat → Nat → Nat → Nat × Nat)
    (rand : Nat → Nat) (max_g target fuel : Nat) (st : EngineState) :
    Option EngineState :=
  sampling_loop_rp rdelta rand max_g target (st.agents.sum + st.updated.sum) fuel st

/-- The protocol's `assign_callback` deposits (lines 353-357): each
`(state, count)` pair goes through `add_balls`; an out-of-range state is
undefined behaviour. -/
def sink_fold : List (Nat × Nat) → List Nat → Option (List Nat)
  | [], upd => some upd
  | (s, c) :: ds, upd => if upd.length ≤ s then none else sink_fold ds (addAt upd s c)

/-- `perform_interactions` for a randomised protocol (lines 350-364): the
batch invocation's deposits, then `die_verbose_unless` checks the updated
urn grew by exactly `2 · num` balls — a violating protocol aborts the
program.  Called only when something was selected. -/
def bulk_deposit_rp (sink : Nat → Nat → Nat → Nat → List (Nat × Nat))
    (first_state col ns : Nat) (upd : List Nat) (ni pos : Nat) :
    Option (List Nat × Nat × Nat) :=
  if ns ≠ 0 then
    match sink_fold (sink pos first_state col ns) upd with
    | none => none
    | some upd1 =>
        if upd1.sum = upd.sum + 2 * ns then some (upd1, ni + ns, pos + 1) else none
  else some (upd, ni, pos)

/-- The inner color walk of the generic bulk path for a randomised
protocol: as the deterministic walk, but without the (disabled) skip branch
and with the protocol's sink deposits. -/
def bulk_walk_rp (sink : Nat → Nat → Nat → Nat → List (Nat × Nat)) (rand : Nat → Nat)
    (first_state : Nat) :
    List Nat → Nat → Nat → Nat → Nat → List Nat → Nat →
    Option (List Nat × List Nat × Nat × Nat)
  | suffix, _, _, 0, pos, upd, ni => some (suffix, upd, pos, ni)
  | [], _, _, _ + 1, _, _, _ => none
  | c :: rest, col, unc, left + 1, pos, upd, ni =>
      let ns := bulk_ns c unc (left + 1) (rand pos)
      if c < ns ∨ left + 1 < ns then none
      else
        match bulk_deposit_rp sink first_state col ns upd ni (bulk_pos c unc pos) with
        | none => none
        | some (upd1, ni1, pos1) =>
            match bulk_walk_rp sink rand first_state rest (col + 1) (unc - c)
                (left + 1 - ns) pos1 upd1 ni1 with
            | none => none
            | some (rest1, upd2, pos2, ni2) =>
                some ((c - ns) :: rest1, upd2, pos2, ni2)

/-- One bulk group for a randomised protocol: no skipable balls (the
constructor left the rows empty), so directly the color walk. -/
def bulk_group_rp (sink : Nat → Nat → Nat → Nat → List (Nat × Nat)) (rand : Nat → Nat)
    (first_state k : Nat) (st : EngineState) : Option EngineState :=
  match bulk_walk_rp sink rand first_state st.agents 0 st.agents.sum k st.pos
      st.updated st.num_interactions with
  | none => none
  | some (ag, upd, pos2, ni) =>
      some { st with agents := ag, updated := upd, pos := pos2,
                     num_interactions := ni }

def process_groups_rp (sink : Nat → Nat → Nat → Nat → List (Nat × Nat))
    (rand : Nat → Nat) : List (Nat × Nat) → EngineState → Option EngineState
  | [], st => some st
  | (s1, k) :: tasks, st =>
      match bulk_group_rp sink rand s1 k st with
      | none => none
      | some st1 => process_groups_rp sink rand tasks st1

/-- `process_delayed_agents` for a randomised protocol (the generic bulk
path with the sink branch of `perform_interactions`). -/
def process_delayed_agents_rp (sink : Nat → Nat → Nat → Nat → List (Nat × Nat))
    (rand : Nat → Nat) (st : EngineState) : Option EngineState :=
  match remove_random_balls rand st.agents (st.num_delayed / 2) st.pos with
  | none => none
  | some (first_agents, agents1, pos1) =>
      process_groups_rp sink rand first_agents
        { st with agents := agents1, pos := pos1 }

/-- One epoch of `run` for a randomised protocol. -/
def run_epoch_rp (rdelta : Nat → Nat → Nat → Nat × Nat)
    (sink : Nat → Nat → Nat → Nat → List (Nat × Nat)) (rand : Nat → Nat)
    (max_g target fuel : Nat) (st : EngineState) : Option EngineState :=
  match sample_run_lengths_and_plant_collisions_rp rdelta rand max_g target fuel st with
  | none => none
  | some st1 =>
    match process_delayed_agents_rp sink rand st1 with
    | none => none
    | some st2 =>
        some { st2 with
                 agents := List.zipWith (· + ·) st2.agents st2.updated,
                 updated := st2.updated.map (fun _ => 0),
                 num_delayed := 0,
                 num_epochs := st2.num_epochs + 1 }

/-- The `run` loop for a randomised protocol. -/
def engine_epochs_rp (rdelta : Nat → Nat → Nat → Nat × Nat)
    (sink : Nat → Nat → Nat → Nat → List (Nat × Nat)) (rand : Nat → Nat)
    (clock : Nat → Int) (bmax fuel : Nat) : Nat → FullState → Option FullState
  | 0, fs => some fs
  | n + 1, fs =>
      match run_epoch_rp rdelta sink rand (2 * bmax) fs.ctrl.current_measurement
          fuel fs.engine with
      | none => none
      | some e1 =>
          match ControllerState.update clock e1.num_interactions fs.ctrl with
          | none => none
          | some c1 =>
              engine_epochs_rp rdelta sink rand clock bmax fuel n ⟨e1, c1⟩

/-- `AsyncBatchSimulator::run` for a randomised protocol. -/
def engine_run_rp (rdelta : Nat → Nat → Nat → Nat × Nat)
    (sink : Nat → Nat → Nat → Nat → List (Nat × Nat)) (rand : Nat → Nat)
    (clock : Nat → Int) (agents0 : List Nat) (bmin bmax bbest fuel n : Nat) :
    Option FullState :=
  engine_epochs_rp rdelta sink rand clock bmax fuel n
    ⟨engine_init agents0,
     ControllerState.start clock (ControllerState.init bmin bmax bbest)⟩

/-! ### Conservation for randomised protocols -/

/-- Range of the randomised single-transition results on reachable
inputs. -/
def RDeltaInRangeOn (S : Nat) (rdelta : Nat → Nat → Nat → Nat × Nat) : Prop :=
  ∀ p a b, a < S → b < S → (rdelta p a b).1 < S ∧ (rdelta p a b).2 < S

theorem sample_delayed_rp_spec (rdelta : Nat → Nat → Nat → Nat × Nat)
    (rand : Nat → Nat) (S : Nat) (HR : RDeltaInRangeOn S rdelta) (st : EngineState)
    (ret : Nat) (st' : EngineState)
    (hal : st.agents.length = S) (hul : st.updated.length = S)
    (h : sample_delayed_agent_rp rdelta rand st = some (ret, st')) :
    ret < S ∧ st'.agents.length = st.agents.length ∧ st'.updated.length = S ∧
    st'.agents.sum + 2 = st.agents.sum ∧ st'.updated.sum = st.updated.sum + 1 := by
  unfold sample_delayed_agent_rp at h
  cases hu1 : sample_untouched_agent rand st with
  | none =>
    rw [hu1] at h
    exact absurd h (by simp)
  | some p1 =>
    obtain ⟨first, st1⟩ := p1
    rw [hu1] at h
    dsimp only at h
    cases hu2 : sample_untouched_agent rand st1 with
    | none =>
      rw [hu2] at h
      exact absurd h (by simp)
    | some p2 =>
      obtain ⟨second, st2⟩ := p2
      rw [hu2] at h
      dsimp only at h
      obtain ⟨hb1, ha1, hs1, hup1, _⟩ := sample_untouched_spec rand st first st1 hu1
      obtain ⟨hb2, ha2, hs2, hup2, _⟩ := sample_untouched_spec rand st1 second st2 hu2
      have hfS : first < S := by omega
      have hsS : second < S := by omega
      simp only [Option.some.injEq, Prod.mk.injEq] at h
      obtain ⟨hret, hst⟩ := h
      subst hret
      subst hst
      dsimp only
      have hupd2 : st2.updated = st.updated := by rw [hup2, hup1]
      have hRR := HR st2.pos first second hfS hsS
      refine ⟨?_, ?_, ?_, ?_, ?_⟩
      · by_cases hf : (FairCoin.step rand st2.coin (st2.pos + 1)).1
        · simpa [hf] using hRR.2
        · simpa [hf] using hRR.1
      · simpa [ha2] using ha1
      · simp only [addAt_length, hupd2, hul]
      · omega
      · have hrange : (if (FairCoin.step rand st2.coin (st2.pos + 1)).1
            then (rdelta st2.pos first second).1 else (rdelta st2.pos first second).2)
            < st2.updated.length := by
          rw [hupd2, hul]
          by_cases hf : (FairCoin.step rand st2.coin (st2.pos + 1)).1
          · simpa [hf] using hRR.1
          · simpa [hf] using hRR.2
        have := addAt_sum st2.updated
          (if (FairCoin.step rand st2.coin (st2.pos + 1)).1
            then (rdelta st2.pos first second).1 else (rdelta st2.pos first second).2)
          1 hrange
        rw [hupd2] at this ⊢
        exact this

theorem sample_agent_rp_spec (rdelta : Nat → Nat → Nat → Nat × Nat) (rand : Nat → Nat)
    (S : Nat) (HR : RDeltaInRangeOn S rdelta) (g1 : Nat) (hc : Bool) (st : EngineState)
    (ball : Nat) (st' : EngineState)
    (hal : st.agents.length = S) (hul : st.updated.length = S)
    (h : sample_agent_rp rdelta rand g1 hc st = some (ball, st')) :
    ball < S ∧ st'.agents.length = S ∧ st'.updated.length = S ∧
    st'.agents.sum + st'.updated.sum + 1 = st.agents.sum + st.updated.sum := by
  unfold sample_agent_rp at h
  cases hc with
  | false =>
    simp only [Bool.false_eq_true, if_neg, if_false] at h
    obtain ⟨h1, h2, h3, h4, _⟩ := sample_untouched_spec rand st ball st' h
    rw [h4]
    exact ⟨hal ▸ h1, h2.trans hal, h4 ▸ hul, by omega⟩
  | true =>
    simp only [if_true] at h
    by_cases hp : with_probability
        ({ st with pos := st.pos + 1 } : EngineState).num_delayed g1 (rand st.pos)
    · rw [if_pos hp] at h
      obtain ⟨h1, h2, h3, h4, h5⟩ := sample_delayed_rp_spec rdelta rand S HR
        { st with pos := st.pos + 1 } ball st' hal hul h
      refine ⟨h1, ?_, h3, ?_⟩
      · exact h2.trans hal
      · show st'.agents.sum + st'.updated.sum + 1 = st.agents.sum + st.updated.sum
        have h4' : st'.agents.sum + 2 = st.agents.sum := h4
        have h5' : st'.updated.sum = st.updated.sum + 1 := h5
        omega
    · rw [if_neg hp] at h
      obtain ⟨h1, h2, h3, h4, _⟩ := sample_updated_spec rand _ ball st' h
      refine ⟨hul ▸ h1, ?_, ?_, ?_⟩
      · rw [h4]
        exact hal
      · exact h2.trans hul
      · have h3' : st'.updated.sum + 1 = st.updated.sum := h3
        have h4' : st'.agents = st.agents := h4
        rw [h4']
        omega

theorem sampling_iteration_rp_spec (rdelta : Nat → Nat → Nat → Nat × Nat)
    (rand : Nat → Nat) (S : Nat) (HR : RDeltaInRangeOn S rdelta)
    (max_g num_agents fuel : Nat) (st st' : EngineState)
    (hal : st.agents.length = S) (hul : st.updated.length = S)
    (h : sampling_iteration_rp rdelta rand max_g num_agents fuel st = some st') :
    st'.agents.length = S ∧ st'.updated.length = S ∧
    st'.agents.sum + st'.updated.sum = st.agents.sum + st.updated.sum := by
  unfold sampling_iteration_rp at h
  dsimp only at h
  cases hsr : set_red_stage max_g (st.num_delayed + st.updated.sum) with
  | none =>
    rw [hsr] at h
    exact absurd h (by simp)
  | some stg =>
    rw [hsr] at h
    dsimp only at h
    cases hrd : roundDraw rand (st.num_delayed + st.updated.sum) fuel st.pos with
    | none =>
      rw [hrd] at h
      exact absurd h (by simp)
    | some Lp =>
      obtain ⟨L, pos1⟩ := Lp
      rw [hrd] at h
      dsimp only at h
      set st1 : EngineState :=
        { st with num_delayed := st.num_delayed + 2 * (L / 2), pos := pos1 } with hst1
      set st2 : EngineState :=
        if has_collision_on_first L then { st1 with pos := st1.pos + 1 } else st1 with hst2
      have hst2a : st2.agents = st.agents := by
        rw [hst2]
        by_cases hfc : has_collision_on_first L <;> simp [hfc, hst1]
      have hst2u : st2.updated = st.updated := by
        rw [hst2]
        by_cases hfc : has_collision_on_first L <;> simp [hfc, hst1]
      cases hs1 : sample_agent_rp rdelta rand (st1.num_delayed + st1.updated.sum)
          (has_collision_on_first L) st2 with
      | none =>
        rw [hs1] at h
        exact absurd h (by simp)
      | some p1 =>
        obtain ⟨first, st3⟩ := p1
        rw [hs1] at h
        dsimp only at h
        obtain ⟨hb1, ha3, hu3, hsum3⟩ := sample_agent_rp_spec rdelta rand S HR _ _ st2
          first st3 (hst2a ▸ hal) (hst2u ▸ hul) hs1
        cases hs2 : sample_agent_rp rdelta rand (st1.num_delayed + st1.updated.sum)
            (if has_collision_on_first L then
              has_collision_on_second (has_collision_on_first L)
                (st1.num_delayed + st1.updated.sum) num_agents (rand st1.pos)
             else true) st3 with
        | none =>
          rw [hs2] at h
          exact absurd h (by simp)
        | some p2 =>
          obtain ⟨second, st4⟩ := p2
          rw [hs2] at h
          dsimp only at h
          obtain ⟨hb2, ha4, hu4, hsum4⟩ := sample_agent_rp_spec rdelta rand S HR _ _ st3
            second st4 ha3 hu3 hs2
          simp only [Option.some.injEq] at h
          subst h
          dsimp only
          have hr1 : (rdelta st4.pos first second).1 < S := (HR st4.pos first second hb1 hb2).1
          have hr2 : (rdelta st4.pos first second).2 < S := (HR st4.pos first second hb1 hb2).2
          have hlen1 : (addAt st4.updated (rdelta st4.pos first second).1 1).length = S := by
            rw [addAt_length, hu4]
          have hsum_a : (addAt st4.updated (rdelta st4.pos first second).1 1).sum =
              st4.updated.sum + 1 := addAt_sum _ _ _ (by omega)
          have hsum_b : (addAt (addAt st4.updated (rdelta st4.pos first second).1 1)
              (rdelta st4.pos first second).2 1).sum = st4.updated.sum + 2 := by
            rw [addAt_sum _ _ _ (by omega), hsum_a]
          refine ⟨ha4, ?_, ?_⟩
          · rw [addAt_length, hlen1]
          · rw [hsum_b]
            have e2 : st2.agents.sum + st2.updated.sum = st.agents.sum + st.updated.sum := by
              rw [hst2a, hst2u]
            omega

theorem sampling_loop_rp_spec (rdelta : Nat → Nat → Nat → Nat × Nat) (rand : Nat → Nat)
    (S : Nat) (HR : RDeltaInRangeOn S rdelta) (max_g target num_agents : Nat) :
    ∀ (fuel : Nat) (st st' : EngineState),
      st.agents.length = S → st.updated.length = S →
      sampling_loop_rp rdelta rand max_g target num_agents fuel st = some st' →
      st'.agents.length = S ∧ st'.updated.length = S ∧
      st'.agents.sum + st'.updated.sum = st.agents.sum + st.updated.sum := by
  intro fuel
  induction fuel with
  | zero =>
    intro st st' hal hul h
    unfold sampling_loop_rp at h
    split at h
    · exact absurd h (by simp)
    · simp only [Option.some.injEq] at h
      subst h
      exact ⟨hal, hul, rfl⟩
  | succ fuel ih =>
    intro st st' hal hul h
    unfold sampling_loop_rp at h
    split at h
    · cases hit : sampling_iteration_rp rdelta rand max_g num_agents (fuel + 1) st with
      | none =>
        rw [hit] at h
        exact absurd h (by simp)
      | some st1 =>
        rw [hit] at h
        obtain ⟨h1, h2, h3⟩ :=
          sampling_iteration_rp_spec rdelta rand S HR max_g num_agents (fuel + 1)
            st st1 hal hul hit
        obtain ⟨h4, h5, h6⟩ := ih st1 st' h1 h2 h
        exact ⟨h4, h5, by omega⟩
    · simp only [Option.some.injEq] at h
      subst h
      exact ⟨hal, hul, rfl⟩

theorem sink_fold_spec : ∀ (ds : List (Nat × Nat)) (upd upd1 : List Nat),
    sink_fold ds upd = some upd1 → upd1.length = upd.length := by
  intro ds
  induction ds with
  | nil =>
    intro upd upd1 h
    simp only [sink_fold, Option.some.injEq] at h
    rw [h]
  | cons d ds ih =>
    obtain ⟨s, c⟩ := d
    intro upd upd1 h
    rw [sink_fold] at h
    by_cases hg : upd.length ≤ s
    · rw [if_pos hg] at h
      exact absurd h (by simp)
    · rw [if_neg hg] at h
      rw [ih _ _ h, addAt_length]

theorem bulk_deposit_rp_spec (sink : Nat → Nat → Nat → Nat → List (Nat × Nat))
    (fs col ns : Nat) (upd : List Nat) (ni pos : Nat) (upd1 : List Nat) (ni1 pos1 : Nat)
    (h : bulk_deposit_rp sink fs col ns upd ni pos = some (upd1, ni1, pos1)) :
    upd1.length = upd.length ∧ upd1.sum = upd.sum + 2 * ns := by
  unfold bulk_deposit_rp at h
  by_cases hz : ns ≠ 0
  · rw [if_pos hz] at h
    cases hsf : sink_fold (sink pos fs col ns) upd with
    | none =>
      rw [hsf] at h
      exact absurd h (by simp)
    | some u1 =>
      rw [hsf] at h
      dsimp only at h
      by_cases hchk : u1.sum = upd.sum + 2 * ns
      · rw [if_pos hchk] at h
        simp only [Option.some.injEq, Prod.mk.injEq] at h
        obtain ⟨h1, _, _⟩ := h
        subst h1
        exact ⟨sink_fold_spec _ _ _ hsf, hchk⟩
      · rw [if_neg hchk] at h
        exact absurd h (by simp)
  · rw [if_neg hz] at h
    simp only [Option.some.injEq, Prod.mk.injEq] at h
    obtain ⟨h1, _, _⟩ := h
    subst h1
    have : ns = 0 := by omega
    subst this
    exact ⟨rfl, by omega⟩

theorem bulk_walk_rp_spec (sink : Nat → Nat → Nat → Nat → List (Nat × Nat))
    (rand : Nat → Nat) (first_state : Nat) :
    ∀ (suffix : List Nat) (col unc left pos : Nat) (upd : List Nat) (ni : Nat)
      (suffix' upd' : List Nat) (pos' ni' : Nat),
      bulk_walk_rp sink rand first_state suffix col unc left pos upd ni =
        some (suffix', upd', pos', ni') →
      suffix'.length = suffix.length ∧ upd'.length = upd.length ∧
      suffix'.sum + left = suffix.sum ∧ upd'.sum = upd.sum + 2 * left := by
  intro suffix
  induction suffix with
  | nil =>
    intro col unc left pos upd ni suffix' upd' pos' ni' h
    cases left with
    | zero =>
      simp only [bulk_walk_rp, Option.some.injEq, Prod.mk.injEq] at h
      obtain ⟨h1, h2, _, _⟩ := h
      subst h1
      subst h2
      simp
    | succ l => simp [bulk_walk_rp] at h
  | cons c rest ih =>
    intro col unc left pos upd ni suffix' upd' pos' ni' h
    cases left with
    | zero =>
      simp only [bulk_walk_rp, Option.some.injEq, Prod.mk.injEq] at h
      obtain ⟨h1, h2, _, _⟩ := h
      subst h1
      subst h2
      simp
    | succ l =>
      rw [bulk_walk_rp] at h
      set ns : Nat := bulk_ns c unc (l + 1) (rand pos) with hns
      by_cases hguard : c < ns ∨ l + 1 < ns
      · rw [if_pos hguard] at h
        exact absurd h (by simp)
      · rw [if_neg hguard] at h
        push_neg at hguard
        obtain ⟨hc, hl⟩ := hguard
        cases hd : bulk_deposit_rp sink first_state col ns upd ni (bulk_pos c unc pos) with
        | none =>
          rw [hd] at h
          exact absurd h (by simp)
        | some d =>
          obtain ⟨upd1, ni1, pos1⟩ := d
          rw [hd] at h
          dsimp only at h
          obtain ⟨hd1, hd2⟩ := bulk_deposit_rp_spec sink first_state col ns upd ni
            (bulk_pos c unc pos) upd1 ni1 pos1 hd
          cases hrec : bulk_walk_rp sink rand first_state rest (col + 1) (unc - c)
              (l + 1 - ns) pos1 upd1 ni1 with
          | none =>
            rw [hrec] at h
            exact absurd h (by simp)
          | some r =>
            obtain ⟨rest1, upd2, pos2, ni2⟩ := r
            rw [hrec] at h
            simp only [Option.some.injEq, Prod.mk.injEq] at h
            obtain ⟨h1, h2, _, _⟩ := h
            subst h1
            subst h2
            obtain ⟨ih1, ih2, ih3, ih4⟩ := ih (col + 1) (unc - c) (l + 1 - ns)
              pos1 upd1 ni1 rest1 upd2 pos2 ni2 hrec
            refine ⟨by simpa using ih1, by rw [ih2, hd1], ?_, ?_⟩
            · simp only [List.sum_cons]
              omega
            · rw [ih4, hd2]
              omega

theorem bulk_group_rp_spec (sink : Nat → Nat → Nat → Nat → List (Nat × Nat))
    (rand : Nat → Nat) (S : Nat) (first_state k : Nat) (st st' : EngineState)
    (hal : st.agents.length = S) (hul : st.updated.length = S)
    (h : bulk_group_rp sink rand first_state k st = some st') :
    st'.agents.length = S ∧ st'.updated.length = S ∧
    st'.agents.sum + st'.updated.sum = st.agents.sum + st.updated.sum + k := by
  unfold bulk_group_rp at h
  cases hw : bulk_walk_rp sink rand first_state st.agents 0 st.agents.sum k st.pos
      st.updated st.num_interactions with
  | none =>
    rw [hw] at h
    exact absurd h (by simp)
  | some r =>
    obtain ⟨ag, upd, pos2, ni⟩ := r
    rw [hw] at h
    simp only [Option.some.injEq] at h
    subst h
    dsimp only
    obtain ⟨w1, w2, w3, w4⟩ := bulk_walk_rp_spec sink rand first_state st.agents 0
      st.agents.sum k st.pos st.updated st.num_interactions ag upd pos2 ni hw
    refine ⟨by rw [w1, hal], by rw [w2, hul], ?_⟩
    rw [w4]
    omega

theorem process_groups_rp_spec (sink : Nat → Nat → Nat → Nat → List (Nat × Nat))
    (rand : Nat → Nat) (S : Nat) :
    ∀ (tasks : List (Nat × Nat)) (st st' : EngineState),
      st.agents.length = S → st.updated.length = S →
      process_groups_rp sink rand tasks st = some st' →
      st'.agents.length = S ∧ st'.updated.length = S ∧
      st'.agents.sum + st'.updated.sum =
        st.agents.sum + st.updated.sum + (tasks.map Prod.snd).sum := by
  intro tasks
  induction tasks with
  | nil =>
    intro st st' hal hul h
    simp only [process_groups_rp, Option.some.injEq] at h
    subst h
    simp [hal, hul]
  | cons task tasks ih =>
    intro st st' hal hul h
    obtain ⟨s1, k⟩ := task
    rw [process_groups_rp] at h
    cases hg : bulk_group_rp sink rand s1 k st with
    | none =>
      rw [hg] at h
      exact absurd h (by simp)
    | some st1 =>
      rw [hg] at h
      obtain ⟨g1, g2, g3⟩ := bulk_group_rp_spec sink rand S s1 k st st1 hal hul hg
      obtain ⟨i1, i2, i3⟩ := ih st1 st' g1 g2 h
      refine ⟨i1, i2, ?_⟩
      rw [i3, g3]
      simp only [List.map_cons, List.sum_cons]
      omega

theorem process_delayed_agents_rp_spec (sink : Nat → Nat → Nat → Nat → List (Nat × Nat))
    (rand : Nat → Nat) (S : Nat) (st st' : EngineState)
    (hal : st.agents.length = S) (hul : st.updated.length = S)
    (h : process_delayed_agents_rp sink rand st = some st') :
    st'.agents.length = S ∧ st'.updated.length = S ∧
    st'.agents.sum + st'.updated.sum = st.agents.sum + st.updated.sum := by
  unfold process_delayed_agents_rp at h
  cases hrr : remove_random_balls rand st.agents (st.num_delayed / 2) st.pos with
  | none =>
    rw [hrr] at h
    exact absurd h (by simp)
  | some r =>
    obtain ⟨first_agents, agents1, pos1⟩ := r
    rw [hrr] at h
    dsimp only at h
    unfold remove_random_balls at hrr
    by_cases h0 : st.agents.sum = 0 ∨ st.num_delayed / 2 = 0
    · rw [if_pos h0] at hrr
      simp only [Option.some.injEq, Prod.mk.injEq] at hrr
      obtain ⟨he, ha, _⟩ := hrr
      subst he
      subst ha
      obtain ⟨p1, p2, p3⟩ := process_groups_rp_spec sink rand S []
        { st with pos := pos1 } st' hal hul h
      simpa using ⟨p1, p2, p3⟩
    · rw [if_neg h0] at hrr
      obtain ⟨w1, w2, w3, w4⟩ := wor_walk_conserves rand st.agents (st.num_delayed / 2)
        0 st.pos first_agents agents1 pos1 hrr
      obtain ⟨p1, p2, p3⟩ := process_groups_rp_spec sink rand S
        first_agents _ st' (by simpa [w2] using hal) (by simpa using hul) h
      refine ⟨p1, p2, ?_⟩
      rw [p3]
      dsimp only
      rw [w1]
      omega

theorem run_epoch_rp_spec (rdelta : Nat → Nat → Nat → Nat × Nat)
    (sink : Nat → Nat → Nat → Nat → List (Nat × Nat)) (rand : Nat → Nat) (S : Nat)
    (HR : RDeltaInRangeOn S rdelta) (max_g target fuel : Nat) (st st' : EngineState)
    (hal : st.agents.length = S) (hul : st.updated.length = S)
    (h : run_epoch_rp rdelta sink rand max_g target fuel st = some st') :
    st'.agents.length = S ∧ st'.updated.length = S ∧
    st'.agents.sum = st.agents.sum + st.updated.sum ∧
    st'.updated.sum = 0 ∧ st'.num_delayed = 0 := by
  unfold run_epoch_rp at h
  cases hs : sample_run_lengths_and_plant_collisions_rp rdelta rand max_g target fuel
      st with
  | none =>
    rw [hs] at h
    exact absurd h (by simp)
  | some st1 =>
    rw [hs] at h
    dsimp only at h
    obtain ⟨s1, s2, s3⟩ := sampling_loop_rp_spec rdelta rand S HR max_g target
      (st.agents.sum + st.updated.sum) fuel st st1 hal hul hs
    cases hp : process_delayed_agents_rp sink rand st1 with
    | none =>
      rw [hp] at h
      exact absurd h (by simp)
    | some st2 =>
      rw [hp] at h
      obtain ⟨p1, p2, p3⟩ := process_delayed_agents_rp_spec sink rand S st1 st2 s1 s2 hp
      simp only [Option.some.injEq] at h
      subst h
      dsimp only
      have hz : (List.zipWith (· + ·) st2.agents st2.updated).sum =
          st2.agents.sum + st2.updated.sum :=
        sum_zipWith_add _ _ (by rw [p1, p2])
      refine ⟨?_, ?_, ?_, ?_, rfl⟩
      · rw [List.length_zipWith, p1, p2]
        simp
      · rw [List.length_map, p2]
      · rw [hz]
        omega
      · simp

theorem engine_epochs_rp_conservation (rdelta : Nat → Nat → Nat → Nat × Nat)
    (sink : Nat → Nat → Nat → Nat → List (Nat × Nat)) (rand : Nat → Nat)
    (clock : Nat → Int) (S : Nat) (HR : RDeltaInRangeOn S rdelta) (bmax fuel N : Nat) :
    ∀ (n : Nat) (fs fs' : FullState),
      fs.engine.agents.length = S → fs.engine.updated.length = S →
      fs.engine.agents.sum = N → fs.engine.updated.sum = 0 →
      fs.engine.num_delayed = 0 →
      engine_epochs_rp rdelta sink rand clock bmax fuel n fs = some fs' →
      fs'.engine.agents.length = S ∧ fs'.engine.updated.length = S ∧
      fs'.engine.agents.sum = N ∧ fs'.engine.updated.sum = 0 ∧
      fs'.engine.num_delayed = 0 := by
  intro n
  induction n with
  | zero =>
    intro fs fs' h1 h2 h3 h4 h5 h
    simp only [engine_epochs_rp, Option.some.injEq] at h
    subst h
    exact ⟨h1, h2, h3, h4, h5⟩
  | succ n ih =>
    intro fs fs' h1 h2 h3 h4 h5 h
    rw [engine_epochs_rp] at h
    cases he : run_epoch_rp rdelta sink rand (2 * bmax)
        fs.ctrl.current_measurement fuel fs.engine with
    | none =>
      rw [he] at h
      exact absurd h (by simp)
    | some e1 =>
      rw [he] at h
      obtain ⟨q1, q2, q3, q4, q5⟩ := run_epoch_rp_spec rdelta sink rand S HR
        (2 * bmax) fs.ctrl.current_measurement fuel fs.engine e1 h1 h2 he
      dsimp only at h
      cases hc : ControllerState.update clock e1.num_interactions fs.ctrl with
      | none =>
        rw [hc] at h
        exact absurd h (by simp)
      | some c1 =>
        rw [hc] at h
        exact ih ⟨e1, c1⟩ fs' q1 q2 (show e1.agents.sum = N by omega) q4 q5 h

/-- C1-randomised helper: conservation for randomised protocols, over
`engine_run_rp`.  The sink needs no hypothesis: an out-of-range deposit is
undefined behaviour and a miscounting protocol trips `die_verbose_unless`,
so any completed run deposited exactly `2 · num` per batch. -/
theorem conservation_randomised (rdelta : Nat → Nat → Nat → Nat × Nat)
    (sink : Nat → Nat → Nat → Nat → List (Nat × Nat)) (S : Nat)
    (HR : RDeltaInRangeOn S rdelta) (rand : Nat → Nat) (clock : Nat → Int)
    (agents0 : List Nat) (bmin bmax bbest fuel : Nat)
    (hlen : agents0.length = S) (_hne : 0 < agents0.sum) :
    ∀ (n : Nat) (fs : FullState),
      engine_run_rp rdelta sink rand clock agents0 bmin bmax bbest fuel n = some fs →
      fs.engine.agents.sum = agents0.sum ∧ fs.engine.updated.sum = 0 ∧
      fs.engine.num_delayed = 0 := by
  intro n fs h
  obtain ⟨_, _, h3, h4, h5⟩ := engine_epochs_rp_conservation rdelta sink rand clock S HR
    bmax fuel agents0.sum n
    ⟨engine_init agents0,
     ControllerState.start clock (ControllerState.init bmin bmax bbest)⟩ fs
    hlen (by simp [engine_init, hlen]) rfl (by simp [engine_init]) rfl h
  exact ⟨h3, h4, h5⟩

/-- C1: Conservation, for every protocol — across all three bulk paths of
`process_delayed_agents`: (i) deterministic two-way protocols (the generic
path with the skip heuristic), (ii) deterministic one-way protocols
(dispatched at lines 182-183 to the partitioned path; stated under the
code's implicit contract that each epoch's delayed pool fits into the urn
when the bulk phase starts, without which the partition loops exhaust the
urn and silently drop the excess), and (iii) randomised protocols (the
generic path whose `perform_interactions` routes the protocol's sink
callback and checks the deposit count with `die_verbose_unless`): for
every PRNG stream, every clock, every controller sizing and every
non-empty initial urn, at every invocation of the monitor inside
`AsyncBatchSimulator::run` — i.e. after each completed epoch, once the
updated urn has been merged back — the total ball count of the `agents`
urn equals the ball count of the initial urn passed at construction (and
the updated urn and the delayed counter are empty). -/
theorem claim_C1 :
    (∀ (delta : Nat → Nat → Nat × Nat) (S : Nat), DeltaInRange S delta →
      ∀ (rand : Nat → Nat) (clock : Nat → Int) (skips : Nat → List Nat)
        (use_skip : Bool) (agents0 : List Nat) (bmin bmax bbest fuel : Nat),
        agents0.length = S → 0 < agents0.sum →
        ∀ (n : Nat) (fs : FullState),
          engine_run delta rand clock skips use_skip agents0 bmin bmax bbest fuel n =
            some fs →
          fs.engine.agents.sum = agents0.sum ∧ fs.engine.updated.sum = 0 ∧
          fs.engine.num_delayed = 0) ∧
    (∀ (f : Nat → Nat → Nat) (S : Nat), (∀ a b, a < S → b < S → f a b < S) →
      ∀ (rand : Nat → Nat) (clock : Nat → Int) (agents0 : List Nat)
        (bmin bmax bbest fuel : Nat),
        agents0.length = S → 0 < agents0.sum →
        ∀ (n : Nat) (fs : FullState),
          (∀ (k : Nat) (fsk : FullState) (st1 : EngineState), k < n →
            engine_epochs_oneway f rand clock (oneway_partitions f agents0.length) bmax
              fuel k ⟨engine_init agents0,
                ControllerState.start clock (ControllerState.init bmin bmax bbest)⟩ =
              some fsk →
            sample_run_lengths_and_plant_collisions (fun a b => (f a b, b)) rand
              (2 * bmax) fsk.ctrl.current_measurement fuel fsk.engine = some st1 →
            st1.num_delayed ≤ st1.agents.sum) →
          engine_run_oneway f rand clock agents0 bmin bmax bbest fuel n = some fs →
          fs.engine.agents.sum = agents0.sum ∧ fs.engine.updated.sum = 0 ∧
          fs.engine.num_delayed = 0) ∧
    (∀ (rdelta : Nat → Nat → Nat → Nat × Nat)
       (sink : Nat → Nat → Nat → Nat → List (Nat × Nat)) (S : Nat),
      RDeltaInRangeOn S rdelta →
      ∀ (rand : Nat → Nat) (clock : Nat → Int) (agents0 : List Nat)
        (bmin bmax bbest fuel : Nat),
        agents0.length = S → 0 < agents0.sum →
        ∀ (n : Nat) (fs : FullState),
          engine_run_rp rdelta sink rand clock agents0 bmin bmax bbest fuel n =
            some fs →
          fs.engine.agents.sum = agents0.sum ∧ fs.engine.updated.sum = 0 ∧
          fs.engine.num_delayed = 0) := by
  refine ⟨?_, ?_, ?_⟩
  · intro delta S Hdelta rand clock skips use_skip agents0 bmin bmax bbest fuel hlen hne
    exact conservation_two_way delta S Hdelta rand clock skips use_skip agents0
      bmin bmax bbest fuel hlen hne
  · intro f S hf rand clock agents0 bmin bmax bbest fuel hlen hne n fs hfit h
    exact conservation_one_way f S hf rand clock agents0 bmin bmax bbest fuel hlen hne
      n fs hfit h
  · intro rdelta sink S HR rand clock agents0 bmin bmax bbest fuel hlen hne
    exact conservation_randomised rdelta sink S HR rand clock agents0
      bmin bmax bbest fuel hlen hne

/-- Witness for C1, one concrete run per protocol class over the initial
urn `[50, 50]` with constant stream `2`, unit clock and controller sizes
`(7, 64, 16)`: (i) the two-way protocol `delta (a, b) = (a % 2, b % 2)`
with the full no-op table and the skip heuristic on; (ii) the one-way
protocol `f a b = (a + b) % 2` (the fit contract holds in both epochs:
the delayed pool is 2 against an urn of 87); (iii) the randomised protocol
whose transitions give `(0, 1)` and whose batch sink deposits `num` balls
each on colors 0 and 1.  Each run completes two epochs and conserves the
100 balls. -/
theorem claim_C1_witness :
    (∃ fs : FullState,
      engine_run (fun a b => (a % 2, b % 2)) (fun _ => 2) (fun i => (i : Int))
          (fun _ => [0, 1]) true [50, 50] 7 64 16 200 2 = some fs ∧
      fs.engine.agents.sum = ([50, 50] : List Nat).sum ∧
      fs.engine.updated.sum = 0 ∧ fs.engine.num_delayed = 0) ∧
    (∃ fs : FullState,
      engine_run_oneway (fun a b => (a + b) % 2) (fun _ => 2) (fun i => (i : Int))
          [50, 50] 7 64 16 200 2 = some fs ∧
      fs.engine.agents.sum = ([50, 50] : List Nat).sum ∧
      fs.engine.updated.sum = 0 ∧ fs.engine.num_delayed = 0) ∧
    (∃ fs : FullState,
      engine_run_rp (fun _ _ _ => (0, 1)) (fun _ _ _ num => [(0, num), (1, num)])
          (fun _ => 2) (fun i => (i : Int)) [50, 50] 7 64 16 200 2 = some fs ∧
      fs.engine.agents.sum = ([50, 50] : List Nat).sum ∧
      fs.engine.updated.sum = 0 ∧ fs.engine.num_delayed = 0) := by
  refine ⟨?_, ?_, ?_⟩
  · have hsome : (engine_run (fun a b => (a % 2, b % 2)) (fun _ => 2) (fun i => (i : Int))
        (fun _ => [0, 1]) true [50, 50] 7 64 16 200 2).isSome = true := by decide
    cases hrun : engine_run (fun a b => (a % 2, b % 2)) (fun _ => 2) (fun i => (i : Int))
        (fun _ => [0, 1]) true [50, 50] 7 64 16 200 2 with
    | none =>
      rw [hrun] at hsome
      simp at hsome
    | some fs =>
      obtain ⟨h1, h2, h3⟩ := claim_C1.1 (fun a b => (a % 2, b % 2)) 2
        (by
          intro a b
          exact ⟨Nat.mod_lt _ (by norm_num), Nat.mod_lt _ (by norm_num)⟩)
        (fun _ => 2) (fun i => (i : Int)) (fun _ => [0, 1]) true [50, 50] 7 64 16 200
        (by decide) (by decide) 2 fs hrun
      exact ⟨fs, rfl, h1, h2, h3⟩
  · have hsome : (engine_run_oneway (fun a b => (a + b) % 2) (fun _ => 2)
        (fun i => (i : Int)) [50, 50] 7 64 16 200 2).isSome = true := by decide
    cases hrun : engine_run_oneway (fun a b => (a + b) % 2) (fun _ => 2)
        (fun i => (i : Int)) [50, 50] 7 64 16 200 2 with
    | none =>
      rw [hrun] at hsome
      simp at hsome
    | some fs =>
      have hfit : ∀ (k : Nat) (fsk : FullState) (st1 : EngineState), k < 2 →
          engine_epochs_oneway (fun a b => (a + b) % 2) (fun _ => 2) (fun i => (i : Int))
            (oneway_partitions (fun a b => (a + b) % 2) ([50, 50] : List Nat).length) 64
            200 k ⟨engine_init [50, 50],
              ControllerState.start (fun i => (i : Int)) (ControllerState.init 7 64 16)⟩ =
            some fsk →
          sample_run_lengths_and_plant_collisions (fun a b => ((a + b) % 2, b))
            (fun _ => 2) (2 * 64) fsk.ctrl.current_measurement 200 fsk.engine =
            some st1 →
          st1.num_delayed ≤ st1.agents.sum := by
        intro k fsk st1 hk he hs
        have hkey : ((engine_epochs_oneway (fun a b => (a + b) % 2) (fun _ => 2)
            (fun i => (i : Int))
            (oneway_partitions (fun a b => (a + b) % 2) ([50, 50] : List Nat).length) 64
            200 k ⟨engine_init [50, 50],
              ControllerState.start (fun i => (i : Int)) (ControllerState.init 7 64 16)⟩).bind
            (fun w => sample_run_lengths_and_plant_collisions (fun a b => ((a + b) % 2, b))
              (fun _ => 2) (2 * 64) w.ctrl.current_measurement 200 w.engine)).map
            (fun v => decide (v.num_delayed ≤ v.agents.sum)) = some true ∨
            ((engine_epochs_oneway (fun a b => (a + b) % 2) (fun _ => 2)
            (fun i => (i : Int))
            (oneway_partitions (fun a b => (a + b) % 2) ([50, 50] : List Nat).length) 64
            200 k ⟨engine_init [50, 50],
              ControllerState.start (fun i => (i : Int)) (ControllerState.init 7 64 16)⟩).bind
            (fun w => sample_run_lengths_and_plant_collisions (fun a b => ((a + b) % 2, b))
              (fun _ => 2) (2 * 64) w.ctrl.current_measurement 200 w.engine)) = none := by
          interval_cases k
          · left
            decide
          · left
            decide
        rcases hkey with hkey | hkey
        · rw [he] at hkey
          simp only [Option.some_bind] at hkey
          rw [hs] at hkey
          exact of_decide_eq_true (Option.some.inj hkey)
        · rw [he] at hkey
          simp only [Option.some_bind] at hkey
          rw [hs] at hkey
          exact absurd hkey (by simp)
      obtain ⟨h1, h2, h3⟩ := claim_C1.2.1 (fun a b => (a + b) % 2) 2
        (by
          intro a b _ _
          exact Nat.mod_lt _ (by norm_num))
        (fun _ => 2) (fun i => (i : Int)) [50, 50] 7 64 16 200
        (by decide) (by decide) 2 fs hfit hrun
      exact ⟨fs, rfl, h1, h2, h3⟩
  · have hsome : (engine_run_rp (fun _ _ _ => (0, 1))
        (fun _ _ _ num => [(0, num), (1, num)]) (fun _ => 2) (fun i => (i : Int))
        [50, 50] 7 64 16 200 2).isSome = true := by decide
    cases hrun : engine_run_rp (fun _ _ _ => (0, 1))
        (fun _ _ _ num => [(0, num), (1, num)]) (fun _ => 2) (fun i => (i : Int))
        [50, 50] 7 64 16 200 2 with
    | none =>
      rw [hrun] at hsome
      simp at hsome
    | some fs =>
      obtain ⟨h1, h2, h3⟩ := claim_C1.2.2 (fun _ _ _ => (0, 1))
        (fun _ _ _ num => [(0, num), (1, num)]) 2
        (by
          intro p a b _ _
          exact ⟨by norm_num, by norm_num⟩)
        (fun _ => 2) (fun i => (i : Int)) [50, 50] 7 64 16 200
        (by decide) (by decide) 2 fs hrun
      exact ⟨fs, rfl, h1, h2, h3⟩

/-- Counterexample to the claim's unconditional conservation: a
deterministic one-way protocol (`f a b = (a + b) % 2`) over the urn
`[3, 3]`, with an oracle stream whose collision-distribution draw returns
run length 8 — planting more delayed agents (6 after one consumed pair)
than the urn still holds (4).  The bulk phase removes the 3 first partners,
`process_delayed_agents_partitioned` runs its partition loops out of balls
and silently drops the excess second partners: the epoch completes
normally and the monitor sees 4 balls instead of the initial 6. -/
theorem claim_C1_counterexample :
    ∃ fs : FullState,
      engine_run_oneway (fun a b => (a + b) % 2)
          (fun p => [8, 0, 0, 0, 0, 0, 6, 0].getD p 0) (fun i => (i : Int))
          [3, 3] 1 8 1 200 1 = some fs ∧
      fs.engine.agents.sum ≠ ([3, 3] : List Nat).sum := by
  cases hrun : engine_run_oneway (fun a b => (a + b) % 2)
      (fun p => [8, 0, 0, 0, 0, 0, 6, 0].getD p 0) (fun i => (i : Int))
      [3, 3] 1 8 1 200 1 with
  | none => exact absurd hrun (by decide)
  | some fs =>
    refine ⟨fs, rfl, ?_⟩
    have h : (engine_run_oneway (fun a b => (a + b) % 2)
        (fun p => [8, 0, 0, 0, 0, 0, 6, 0].getD p 0) (fun i => (i : Int))
        [3, 3] 1 8 1 200 1).map (fun w => w.engine.agents.sum) = some 4 := by decide
    rw [hrun] at h
    have h4 : fs.engine.agents.sum = 4 := Option.some.inj h
    have h6 : ([3, 3] : List Nat).sum = 6 := by decide
    omega

/-! ## C5: the structure of one planted collision -/

theorem roundDraw_reject (rand : Nat → Nat) (g : Nat) :
    ∀ (fuel pos L pos1 : Nat), roundDraw rand g fuel pos = some (L, pos1) →
      g = 0 → 2 ≤ L := by
  intro fuel
  induction fuel with
  | zero => intro pos L pos1 h _; simp [roundDraw] at h
  | succ fuel ih =>
    intro pos L pos1 h hg
    rw [roundDraw] at h
    by_cases hrej : g = 0 ∧ rand pos < 2
    · rw [if_pos hrej] at h
      exact ih (pos + 1) L pos1 h hg
    · rw [if_neg hrej] at h
      simp only [Option.some.injEq, Prod.mk.injEq] at h
      obtain ⟨hL, _⟩ := h
      subst hL
      rcases Nat.lt_or_ge (rand pos) 2 with h2 | h2
      · exact absurd ⟨hg, h2⟩ hrej
      · exact h2

/-- C5: in every iteration of the sampling phase, after drawing the run
length `L` (with rejection): the first endpoint is drawn from the colliding
pool iff `L` is even (`has_collision_on_first`, used by
`sampling_iteration` to select `sample_agent`'s pool); the second endpoint
is colliding iff the first was not or, if it was, with probability `g/N`
as a Bernoulli draw over integer counts (`with_probability`, with `N` the
phase-entry agent total `num_agents` and `g` recomputed after the delayed
increment, exactly as `sampling_iteration` passes them); and whenever the
colliding pool was empty (`g = 0`), any drawn `L < 2` is rejected and
resampled, so an accepted length satisfies `L ≥ 2`. -/
theorem claim_C5 :
    (∀ (rand : Nat → Nat) (g fuel pos L pos1 : Nat),
        roundDraw rand g fuel pos = some (L, pos1) → g = 0 → 2 ≤ L) ∧
    (∀ L, has_collision_on_first L = true ↔ L % 2 = 0) ∧
    (∀ g n r, has_collision_on_second true g n r = with_probability g n r) ∧
    (∀ g n r, has_collision_on_second false g n r = true) ∧
    (∀ good total r, with_probability good total r = true ↔ r % total < good) := by
  refine ⟨fun rand g => roundDraw_reject rand g, ?_, ?_, ?_, ?_⟩
  · intro L
    simp [has_collision_on_first]
  · intro g n r
    simp [has_collision_on_second]
  · intro g n r
    simp [has_collision_on_second]
  · intro good total r
    simp [with_probability]

/-- Witness for C5 at concrete draws. -/
theorem claim_C5_witness :
    (roundDraw (fun _ => 5) 0 3 0 = some (5, 1) ∧ 2 ≤ 5) ∧
    (has_collision_on_first 4 = true) ∧
    (has_collision_on_second true 3 10 7 = with_probability 3 10 7) ∧
    (has_collision_on_second false 3 10 7 = true) ∧
    (with_probability 3 10 7 = true ↔ 7 % 10 < 3) :=
  ⟨⟨by decide, claim_C5.1 (fun _ => 5) 0 3 0 5 1 (by decide) rfl⟩,
   (claim_C5.2.1 4).mpr (by decide), claim_C5.2.2.1 3 10 7,
   claim_C5.2.2.2.1 3 10 7, claim_C5.2.2.2.2 3 10 7⟩

/-! ## C10: the stage-table index of `set_red` -/

/-- C10 (amended): the epoch-length controller always reports a target
`current_measurement_ ≤ max_ = B_max` (`update_value` clamps, `start` and
every completing `update` go through it), and the sampling loop calls
`set_red(g)` only under its guard `g = d + u < target`; hence every call
satisfies `g < B_max < 2·B_max = max_g`.  The claim's conclusion — stage
index `g / stage_factor < 16` and in-range stage-table accesses — holds
whenever additionally `B_max ≥ 8` (so that `stage_factor = ⌊2·B_max/16⌋ ≥
1`); for `B_max ≤ 7` the stage factor is zero and `set_red` divides by
zero (see the counterexample). -/
theorem claim_C10 :
    (∀ (cs : ControllerState) (s : Nat), cs.min ≤ cs.max →
        cs.update_value s ≤ cs.max) ∧
    (∀ (clock : Nat → Int) (cs : ControllerState), cs.min ≤ cs.max →
        (ControllerState.start clock cs).current_measurement ≤ cs.max) ∧
    (∀ (clock : Nat → Int) (ni : Nat) (cs cs' : ControllerState), cs.min ≤ cs.max →
        cs.current_measurement ≤ cs.max →
        ControllerState.update clock ni cs = some cs' →
        cs'.current_measurement ≤ cs'.max ∧ cs'.max = cs.max ∧ cs'.min = cs.min) ∧
    (∀ g target bmax : Nat, g < target → target ≤ bmax → 8 ≤ bmax →
        ∃ s, set_red_stage (2 * bmax) g = some s ∧ s < 16) := by
  have hclamp : ∀ (cs : ControllerState) (s : Nat), cs.min ≤ cs.max →
      cs.update_value s ≤ cs.max := by
    intro cs s hmm
    unfold ControllerState.update_value
    dsimp only
    split
    · exact hmm
    · split
      · exact le_rfl
      · omega
  refine ⟨hclamp, ?_, ?_, ?_⟩
  · intro clock cs hmm
    exact hclamp _ 0 hmm
  · intro clock ni cs cs' hmm hcm h
    unfold ControllerState.update at h
    split at h
    · dsimp only at h
      split at h
      · exact absurd h (by simp)
      · split at h
        · split at h
          · exact absurd h (by simp)
          · simp only [Option.some.injEq] at h
            subst h
            exact ⟨hclamp _ _ hmm, rfl, rfl⟩
        · simp only [Option.some.injEq] at h
          subst h
          exact ⟨hclamp _ _ hmm, rfl, rfl⟩
    · simp only [Option.some.injEq] at h
      subst h
      exact ⟨hcm, rfl, rfl⟩
  · intro g target bmax h1 h2 h3
    unfold set_red_stage
    have hf : 2 * bmax / 16 = bmax / 8 := by omega
    have hfpos : 0 < 2 * bmax / 16 := by omega
    refine ⟨g / (2 * bmax / 16), ?_, ?_⟩
    · rw [if_neg (by omega)]
      dsimp only
      rw [if_pos]
      rw [hf]
      rw [Nat.div_lt_iff_lt_mul (by omega)]
      omega
    · rw [hf]
      rw [Nat.div_lt_iff_lt_mul (by omega)]
      omega

/-- Witness for C10 at a concrete controller state and sizing. -/
theorem claim_C10_witness :
    ((ControllerState.init 7 64 16).update_value 2 ≤ 64) ∧
    ((ControllerState.start (fun _ => 0) (ControllerState.init 7 64 16)).current_measurement
      ≤ 64) ∧
    (∃ s, set_red_stage (2 * 64) 13 = some s ∧ s < 16) :=
  ⟨claim_C10.1 (ControllerState.init 7 64 16) 2 (by decide),
   claim_C10.2.1 (fun _ => 0) (ControllerState.init 7 64 16) (by decide),
   claim_C10.2.2.2 13 14 64 (by decide) (by decide) (by decide)⟩

/-- Counterexample to C10 as stated: for `B_max = 4` (a legal sizing for a
small agent count), `g = 3` satisfies `g < max_g = 2·B_max = 8`, yet the
stage computation `g / stage_factor` divides by the zero
`stage_factor = ⌊8/16⌋ = 0`: `set_red` does not produce a stage below 16 —
it hits undefined behaviour, so "g < max_g implies the stage-table accesses
are in range" is false. -/
theorem claim_C10_counterexample :
    3 < 2 * 4 ∧ set_red_stage (2 * 4) 3 = none := ⟨by decide, by decide⟩

/-! ## C7: construction-time validation -/

/-- The complete set of construction-time fatal checks of
`AsyncBatchSimulator::AsyncBatchSimulator`: the single
`die_verbose_unless(urn.number_of_balls() > 0, ...)`.  The
`CollisionDisitribution` and `EpochLengthController` constructors contain no
fatal checks (only debug-build `assert`s), and no constructor inspects the
alphabet size. -/
def ctor_ok (agents0 : List Nat) : Bool := decide (0 < agents0.sum)

/-- C7 (amended): of the configuration errors listed, only the empty
initial urn is detected at engine construction and surfaced as a fatal
initialisation failure — construction succeeds for every non-empty urn,
regardless of the alphabet size `S` and of the collision-sampler stage
factor — and such an engine does run epochs: a 1-color (`S = 1 < 2`)
engine completes an epoch. -/
theorem claim_C7 :
    (∀ agents0 : List Nat, ctor_ok agents0 = true ↔ 0 < agents0.sum) ∧
    ((engine_run (fun a b => (a % 1, b % 1)) (fun _ => 2) (fun i => (i : Int))
        (fun _ => []) false [100] 7 64 16 200 1).map
      (fun fs => fs.engine.num_epochs) = some 1) := by
  constructor
  · intro agents0
    simp [ctor_ok]
  · decide

/-- Counterexample to C7 as stated: the 1-color urn `[100]` has alphabet
size `S = 1 < 2`, yet engine construction accepts it (no fatal
initialisation failure). -/
theorem claim_C7_counterexample :
    ([100] : List Nat).length = 1 ∧ ctor_ok [100] = true := ⟨by decide, by decide⟩

/-! ## C3: determinism under seed -/

/-- Clock stream of the first execution for the C3 counterexample:
measurement windows of 1, 29 and 30 ms (phase total 60 ms). -/
def clockFastFirst : Nat → Int := fun i =>
  if i = 0 then 0 else if i = 1 then 1 else if i = 2 then 30 else 60

/-- Clock stream of the second execution: windows of 30, 29 and 1 ms (same
phase total, so the epochs-per-phase recalibration agrees), making the
third measurement the throughput argmax instead of the first. -/
def clockFastLast : Nat → Int := fun i =>
  if i = 0 then 0 else if i = 1 then 30 else if i = 2 then 59 else 60

/-- C3 (amended): the per-epoch counters are a function of the PRNG stream
*and* of the wall-clock readings the epoch-length controller makes: two
executions with identical protocol, initial urn, seed and clock observations
produce bit-identical counters at every monitor invocation. -/
theorem claim_C3 (delta : Nat → Nat → Nat × Nat) (rand : Nat → Nat)
    (clock1 clock2 : Nat → Int) (skips : Nat → List Nat) (use_skip : Bool)
    (agents0 : List Nat) (bmin bmax bbest fuel : Nat)
    (hclock : ∀ i, clock1 i = clock2 i) :
    ∀ n : Nat,
      (engine_run delta rand clock1 skips use_skip agents0 bmin bmax bbest fuel n).map
        (fun fs => (fs.engine.num_interactions, fs.engine.num_runs, fs.engine.num_epochs)) =
      (engine_run delta rand clock2 skips use_skip agents0 bmin bmax bbest fuel n).map
        (fun fs => (fs.engine.num_interactions, fs.engine.num_runs, fs.engine.num_epochs)) := by
  intro n
  have : clock1 = clock2 := funext hclock
  rw [this]

/-- Witness for the amended C3. -/
theorem claim_C3_witness :
    (engine_run (fun a b => (a % 2, b % 2)) (fun _ => 2) clockFastFirst
        (fun _ => [0, 1]) true [50, 50] 7 64 16 200 3).map
      (fun fs => (fs.engine.num_interactions, fs.engine.num_runs, fs.engine.num_epochs)) =
    (engine_run (fun a b => (a % 2, b % 2)) (fun _ => 2) clockFastFirst
        (fun _ => [0, 1]) true [50, 50] 7 64 16 200 3).map
      (fun fs => (fs.engine.num_interactions, fs.engine.num_runs, fs.engine.num_epochs)) :=
  claim_C3 (fun a b => (a % 2, b % 2)) (fun _ => 2) clockFastFirst clockFastFirst
    (fun _ => [0, 1]) true [50, 50] 7 64 16 200 (fun _ => rfl) 3

/-- Splitting a run of `m + n` epochs: the first `m` epochs, then the
remaining `n` from the reached state. -/
theorem engine_epochs_add (delta : Nat → Nat → Nat × Nat) (rand : Nat → Nat)
    (clock : Nat → Int) (skips : Nat → List Nat) (use_skip : Bool) (bmax fuel : Nat) :
    ∀ (m n : Nat) (fs : FullState),
      engine_epochs delta rand clock skips use_skip bmax fuel (m + n) fs =
        (engine_epochs delta rand clock skips use_skip bmax fuel m fs).bind
          (engine_epochs delta rand clock skips use_skip bmax fuel n) := by
  intro m
  induction m with
  | zero =>
    intro n fs
    simp [engine_epochs]
  | succ m ih =>
    intro n fs
    have hmn : m + 1 + n = (m + n) + 1 := by omega
    rw [hmn, engine_epochs, engine_epochs]
    cases run_epoch delta rand skips use_skip (2 * bmax) fs.ctrl.current_measurement
        fuel fs.engine with
    | none => simp
    | some e1 =>
      dsimp only
      cases ControllerState.update clock e1.num_interactions fs.ctrl with
      | none => simp
      | some c1 =>
        dsimp only
        exact ih n ⟨e1, c1⟩

/-! The two diverging 34-epoch executions for the C3 counterexample, split
into 6-epoch chunks so each chunk is a small closed computation.  Both use
the protocol `delta (a,b) = (a % 2, b % 2)`, the constant stream `2`, the
full no-op table with the skip heuristic, the initial urn `[50, 50]` and
controller sizes `(7, 64, 16)`; they differ only in the clock. -/

/-- Start state of both executions. -/
def c3_fs0 (clock : Nat → Int) : FullState :=
  ⟨engine_init [50, 50], ControllerState.start clock (ControllerState.init 7 64 16)⟩

def c3_fsA6 : FullState :=
  ⟨⟨[50, 50], [0, 0], 0, 78, 42, 6, ⟨0, 29⟩, 295⟩,
   ⟨10, 7, 64, 16, 14, 0, (⟨0, 1⟩, ⟨0, 1⟩, ⟨0, 1⟩), 6, 0, 0, 0, 1⟩⟩

def c3_fsA12 : FullState :=
  ⟨⟨[50, 50], [0, 0], 0, 158, 85, 12, ⟨0, 57⟩, 597⟩,
   ⟨10, 7, 64, 16, 16, 1, (⟨143000, 1⟩, ⟨0, 1⟩, ⟨0, 1⟩), 1, 1, 0, 143, 2⟩⟩

def c3_fsA18 : FullState :=
  ⟨⟨[50, 50], [0, 0], 0, 248, 133, 18, ⟨0, 15⟩, 933⟩,
   ⟨10, 7, 64, 16, 16, 1, (⟨143000, 1⟩, ⟨0, 1⟩, ⟨0, 1⟩), 7, 1, 0, 143, 2⟩⟩

def c3_fsA24 : FullState :=
  ⟨⟨[50, 50], [0, 0], 0, 338, 181, 24, ⟨0, 38⟩, 1270⟩,
   ⟨10, 7, 64, 16, 17, 2, (⟨143000, 1⟩, ⟨165000, 29⟩, ⟨0, 1⟩), 2, 30, 0, 308, 3⟩⟩

def c3_fsA30 : FullState :=
  ⟨⟨[50, 50], [0, 0], 0, 428, 229, 30, ⟨0, 61⟩, 1607⟩,
   ⟨10, 7, 64, 16, 17, 2, (⟨143000, 1⟩, ⟨165000, 29⟩, ⟨0, 1⟩), 8, 30, 0, 308, 3⟩⟩

def c3_fsB6 : FullState :=
  ⟨⟨[50, 50], [0, 0], 0, 78, 42, 6, ⟨0, 29⟩, 295⟩,
   ⟨10, 7, 64, 16, 14, 0, (⟨0, 1⟩, ⟨0, 1⟩, ⟨0, 1⟩), 6, 0, 0, 0, 1⟩⟩

def c3_fsB12 : FullState :=
  ⟨⟨[50, 50], [0, 0], 0, 158, 85, 12, ⟨0, 57⟩, 597⟩,
   ⟨10, 7, 64, 16, 16, 1, (⟨143000, 30⟩, ⟨0, 1⟩, ⟨0, 1⟩), 1, 30, 0, 143, 2⟩⟩

def c3_fsB18 : FullState :=
  ⟨⟨[50, 50], [0, 0], 0, 248, 133, 18, ⟨0, 15⟩, 933⟩,
   ⟨10, 7, 64, 16, 16, 1, (⟨143000, 30⟩, ⟨0, 1⟩, ⟨0, 1⟩), 7, 30, 0, 143, 2⟩⟩

def c3_fsB24 : FullState :=
  ⟨⟨[50, 50], [0, 0], 0, 338, 181, 24, ⟨0, 38⟩, 1270⟩,
   ⟨10, 7, 64, 16, 17, 2, (⟨143000, 30⟩, ⟨165000, 29⟩, ⟨0, 1⟩), 2, 59, 0, 308, 3⟩⟩

def c3_fsB30 : FullState :=
  ⟨⟨[50, 50], [0, 0], 0, 428, 229, 30, ⟨0, 61⟩, 1607⟩,
   ⟨10, 7, 64, 16, 17, 2, (⟨143000, 30⟩, ⟨165000, 29⟩, ⟨0, 1⟩), 8, 59, 0, 308, 3⟩⟩

set_option maxRecDepth 4000 in
theorem c3_chunkA1 :
    engine_epochs (fun a b => (a % 2, b % 2)) (fun _ => 2) clockFastFirst
      (fun _ => [0, 1]) true 64 200 6 (c3_fs0 clockFastFirst) = some c3_fsA6 := by decide

set_option maxRecDepth 4000 in
theorem c3_chunkA2 :
    engine_epochs (fun a b => (a % 2, b % 2)) (fun _ => 2) clockFastFirst
      (fun _ => [0, 1]) true 64 200 6 c3_fsA6 = some c3_fsA12 := by decide

set_option maxRecDepth 4000 in
theorem c3_chunkA3 :
    engine_epochs (fun a b => (a % 2, b % 2)) (fun _ => 2) clockFastFirst
      (fun _ => [0, 1]) true 64 200 6 c3_fsA12 = some c3_fsA18 := by decide

set_option maxRecDepth 4000 in
theorem c3_chunkA4 :
    engine_epochs (fun a b => (a % 2, b % 2)) (fun _ => 2) clockFastFirst
      (fun _ => [0, 1]) true 64 200 6 c3_fsA18 = some c3_fsA24 := by decide

set_option maxRecDepth 4000 in
theorem c3_chunkA5 :
    engine_epochs (fun a b => (a % 2, b % 2)) (fun _ => 2) clockFastFirst
      (fun _ => [0, 1]) true 64 200 6 c3_fsA24 = some c3_fsA30 := by decide

set_option maxRecDepth 4000 in
theorem c3_chunkA6 :
    (engine_epochs (fun a b => (a % 2, b % 2)) (fun _ => 2) clockFastFirst
      (fun _ => [0, 1]) true 64 200 4 c3_fsA30).map
      (fun fs => (fs.engine.num_interactions, fs.engine.num_runs, fs.engine.num_epochs)) =
      some (484, 259, 34) := by decide

set_option maxRecDepth 4000 in
theorem c3_chunkB1 :
    engine_epochs (fun a b => (a % 2, b % 2)) (fun _ => 2) clockFastLast
      (fun _ => [0, 1]) true 64 200 6 (c3_fs0 clockFastLast) = some c3_fsB6 := by decide

set_option maxRecDepth 4000 in
theorem c3_chunkB2 :
    engine_epochs (fun a b => (a % 2, b % 2)) (fun _ => 2) clockFastLast
      (fun _ => [0, 1]) true 64 200 6 c3_fsB6 = some c3_fsB12 := by decide

set_option maxRecDepth 4000 in
theorem c3_chunkB3 :
    engine_epochs (fun a b => (a % 2, b % 2)) (fun _ => 2) clockFastLast
      (fun _ => [0, 1]) true 64 200 6 c3_fsB12 = some c3_fsB18 := by decide

set_option maxRecDepth 4000 in
theorem c3_chunkB4 :
    engine_epochs (fun a b => (a % 2, b % 2)) (fun _ => 2) clockFastLast
      (fun _ => [0, 1]) true 64 200 6 c3_fsB18 = some c3_fsB24 := by decide

set_option maxRecDepth 4000 in
theorem c3_chunkB5 :
    engine_epochs (fun a b => (a % 2, b % 2)) (fun _ => 2) clockFastLast
      (fun _ => [0, 1]) true 64 200 6 c3_fsB24 = some c3_fsB30 := by decide

set_option maxRecDepth 4000 in
theorem c3_chunkB6 :
    (engine_epochs (fun a b => (a % 2, b % 2)) (fun _ => 2) clockFastLast
      (fun _ => [0, 1]) true 64 200 4 c3_fsB30).map
      (fun fs => (fs.engine.num_interactions, fs.engine.num_runs, fs.engine.num_epochs)) =
      some (486, 260, 34) := by decide

/-- Counterexample to C3 as stated: two executions of the engine with
identical PRNG stream, identical protocol and identical initial urn — but
different wall-clock behaviour — complete 34 epochs each, yet report
different per-epoch counters at the 34th monitor invocation: the
controller's wall-clock-driven throughput argmax picks a different
`current_best_` (`14` vs `17`) at the end of the first measurement cycle,
changing the epoch target and hence `num_interactions` and `num_runs`
(`(484, 259)` vs `(486, 260)`). -/
theorem claim_C3_counterexample :
    (engine_run (fun a b => (a % 2, b % 2)) (fun _ => 2) clockFastFirst
        (fun _ => [0, 1]) true [50, 50] 7 64 16 200 34).map
      (fun fs => (fs.engine.num_interactions, fs.engine.num_runs, fs.engine.num_epochs)) =
      some (484, 259, 34) ∧
    (engine_run (fun a b => (a % 2, b % 2)) (fun _ => 2) clockFastLast
        (fun _ => [0, 1]) true [50, 50] 7 64 16 200 34).map
      (fun fs => (fs.engine.num_interactions, fs.engine.num_runs, fs.engine.num_epochs)) =
      some (486, 260, 34) := by
  constructor
  · show (engine_epochs (fun a b => (a % 2, b % 2)) (fun _ => 2) clockFastFirst
        (fun _ => [0, 1]) true 64 200 34 (c3_fs0 clockFastFirst)).map
        (fun fs => (fs.engine.num_interactions, fs.engine.num_runs, fs.engine.num_epochs)) = _
    rw [show (34 : Nat) = 6 + (6 + (6 + (6 + (6 + 4)))) from rfl]
    rw [engine_epochs_add, c3_chunkA1, Option.some_bind]
    rw [engine_epochs_add, c3_chunkA2, Option.some_bind]
    rw [engine_epochs_add, c3_chunkA3, Option.some_bind]
    rw [engine_epochs_add, c3_chunkA4, Option.some_bind]
    rw [engine_epochs_add, c3_chunkA5, Option.some_bind]
    exact c3_chunkA6
  · show (engine_epochs (fun a b => (a % 2, b % 2)) (fun _ => 2) clockFastLast
        (fun _ => [0, 1]) true 64 200 34 (c3_fs0 clockFastLast)).map
        (fun fs => (fs.engine.num_interactions, fs.engine.num_runs, fs.engine.num_epochs)) = _
    rw [show (34 : Nat) = 6 + (6 + (6 + (6 + (6 + 4)))) from rfl]
    rw [engine_epochs_add, c3_chunkB1, Option.some_bind]
    rw [engine_epochs_add, c3_chunkB2, Option.some_bind]
    rw [engine_epochs_add, c3_chunkB3, Option.some_bind]
    rw [engine_epochs_add, c3_chunkB4, Option.some_bind]
    rw [engine_epochs_add, c3_chunkB5, Option.some_bind]
    exact c3_chunkB6

/-! ### AliasUrnSimple (src/include/urns/AliasUrnSimple.hpp)

The alias urn keeps one table row per color, with two weight slots and an
alias color (`weights[0]`, `weights[1]`, `color2`).  `build_alias_table`
categorises the colors into "small" and "large" relative to
`avg = N / S` (truncated C++ division) and `split_large_elements` then
distributes the weight of the large colors over the second slots of the
small rows.  `std::vector::back`/`pop_back` order is modeled by lists whose
head is the vector's back, i.e. the reversed filter over ascending color
indices.  The `std::minstd_rand` / `std::uniform_int_distribution` partner
draws of `try_fix_row` are implementation-defined, so they are modeled by
an oracle stream mapped into range by `% S`; likewise the caller-supplied
generator of `remove_random_ball` is an oracle stream with explicit
position threading.  Out-of-range `std::vector` accesses (undefined
behaviour; `assert`s are compiled out in release builds) and exhaustion of
the `get_random_ball_` rejection loop's fuel yield `none`.  The `double`
threshold expressions `average * 0.8` (truncated) and
`std::ceil(row_max * 1.5)` are rendered in exact integer arithmetic, which
agrees with their IEEE-754 evaluation for all magnitudes below `2^52`. -/

structure AliasRow where
  w0 : Int
  w1 : Int
  color2 : Nat
deriving DecidableEq

def AliasRow.total (r : AliasRow) : Int := r.w0 + r.w1

structure AliasUrn where
  number_of_balls : Int
  alias_table : List AliasRow
  balls_with_color : List Int
  row_weight_lower : Int
  row_weight_upper : Int
  row_current_max : Int
deriving DecidableEq

def tableGet (t : List AliasRow) (i : Nat) : AliasRow := t.getD i ⟨0, 0, 0⟩

def ballsGet (l : List Int) (i : Nat) : Int := l.getD i 0

def sumTotals (t : List AliasRow) : Int := (t.map AliasRow.total).sum

def AliasUrn.init (S : Nat) : AliasUrn :=
  ⟨0, List.replicate S ⟨0, 0, 0⟩, List.replicate S 0, 0, 0, 0⟩

/-- The `while (!large_elements_.empty())` loop of `split_large_elements`.
`smalls`/`larges` list the pending color ids with the vector's BACK at the
list's head.  The fuel equals the combined length at entry (each iteration
settles exactly one element).  Popping from an empty `small_elements_`
vector is undefined behaviour, hence `none`. -/
def split_large_elements (avg : Int) :
    Nat → Int → List AliasRow → List Nat → List Nat → Option (List AliasRow)
  | _, _, table, _, [] => some table
  | 0, _, _, _, _ :: _ => none
  | fuel + 1, numAbove, table, smalls, l :: ls =>
    match smalls with
    | [] => none
    | s :: ss =>
      if table.length ≤ s then none
      else
        let row := tableGet table s
        let remaining := avg + (if 0 < numAbove then 1 else 0) - row.w0
        if remaining = 0 then
          split_large_elements avg fuel (numAbove - 1) table ss (l :: ls)
        else
          if table.length ≤ l then none
          else
            let lrow := tableGet table l
            let lw := lrow.w0 - remaining
            let table1 := table.set l { lrow with w0 := lw }
            let row1 := tableGet table1 s
            let table2 := table1.set s { row1 with w1 := remaining, color2 := l }
            if lw ≤ avg then
              split_large_elements avg fuel (numAbove - 1) table2 (l :: ss) ls
            else
              split_large_elements avg fuel (numAbove - 1) table2 ss (l :: ls)

/-- `categorize_into_small_and_large`: the small-element vector (colors with
at most average weight), reversed so the head is the vector's back. -/
def categorize_small (balls : List Int) (avg : Int) (S : Nat) : List Nat :=
  ((List.range S).filter (fun i => decide (ballsGet balls i ≤ avg))).reverse

/-- `categorize_into_small_and_large`: the large-element vector (colors with
weight strictly above average), reversed so the head is the vector's back. -/
def categorize_large (balls : List Int) (avg : Int) (S : Nat) : List Nat :=
  ((List.range S).filter (fun i => decide (avg < ballsGet balls i))).reverse

/-- `categorize_into_small_and_large`: resets `weights[0]` to the color's
ball count and `weights[1]` to zero; `color2` keeps its stale value. -/
def categorize_table (balls : List Int) (table : List AliasRow) (S : Nat) : List AliasRow :=
  (List.range S).map (fun i => ⟨ballsGet balls i, 0, (tableGet table i).color2⟩)

def build_alias_table (u : AliasUrn) : Option AliasUrn :=
  if u.alias_table.length = 0 then some u
  else
    let S := u.alias_table.length
    let avg := u.number_of_balls.tdiv (S : Int)
    let numAbove := u.number_of_balls - avg * (S : Int)
    let smalls := categorize_small u.balls_with_color avg S
    let larges := categorize_large u.balls_with_color avg S
    let rowMax := avg + (if 0 < numAbove then 1 else 0)
    (split_large_elements avg (smalls.length + larges.length) numAbove
        (categorize_table u.balls_with_color u.alias_table S) smalls larges).map fun t =>
      { u with alias_table := t,
               row_weight_lower := (4 * avg).tdiv 5,
               row_current_max := rowMax,
               row_weight_upper := if 0 ≤ rowMax then (3 * rowMax + 1).tdiv 2
                                   else (3 * rowMax).tdiv 2 }

/-- The five-attempt partner search of `try_fix_row`.  Returns the success
flag, the (possibly swapped) table and the next oracle position. -/
def tryFixLoop (oracle : Nat → Nat) (lower upper : Int) (row_id : Nat) :
    Nat → Nat → List AliasRow → Bool × List AliasRow × Nat
  | 0, pos, table => (false, table, pos)
  | k + 1, pos, table =>
    let partner := oracle pos % table.length
    if partner = row_id then tryFixLoop oracle lower upper row_id k (pos + 1) table
    else
      let row := tableGet table row_id
      let prow := tableGet table partner
      let v1 := row.w0 + prow.w1
      let v2 := row.w1 + prow.w0
      if lower < v1 ∧ lower < v2 ∧ v1 < upper ∧ v2 < upper then
        (true,
         (table.set row_id { row with w1 := prow.w1, color2 := prow.color2 }).set partner
           { prow with w1 := row.w1, color2 := row.color2 },
         pos + 1)
      else tryFixLoop oracle lower upper row_id k (pos + 1) table

def AliasUrn.add_balls (oracle : Nat → Nat) (u : AliasUrn) (col : Nat) (n : Int) :
    Option AliasUrn :=
  if u.alias_table.length ≤ col then none
  else
    let row := tableGet u.alias_table col
    let row' := { row with w0 := row.w0 + n }
    let table' := u.alias_table.set col row'
    let new_weight := row'.total
    let u' := { u with alias_table := table',
                       balls_with_color :=
                         u.balls_with_color.set col (ballsGet u.balls_with_color col + n),
                       number_of_balls := u.number_of_balls + n,
                       row_current_max := max u.row_current_max new_weight }
    if new_weight < u.row_weight_lower ∨ u.row_weight_upper < new_weight then
      match tryFixLoop oracle u.row_weight_lower u.row_weight_upper col 5 0 table' with
      | (true, table2, _) => some { u' with alias_table := table2 }
      | (false, _, _) => build_alias_table u'
    else some u'

/-- The rejection loop of `get_random_ball_`: draws a uniform value below
`S * row_current_max_`, splits it into a row index and a column offset and
retries until the offset hits an occupied slot.  Returns
`(row_id, color, hit-second-column, next position)`. -/
def get_random_ball_ (rand : Nat → Nat) (table : List AliasRow) (rowMax : Int) :
    Nat → Nat → Option (Nat × Nat × Bool × Nat)
  | 0, _ => none
  | fuel + 1, pos =>
    if table.length = 0 ∨ rowMax ≤ 0 then none
    else
      let M := rowMax.toNat
      let random := rand pos % (table.length * M)
      let row_id := random / M
      let rw : Int := (random % M : Nat)
      let row := tableGet table row_id
      if rw < row.w0 then some (row_id, row_id, false, pos + 1)
      else if rw - row.w0 < row.w1 then some (row_id, row.color2, true, pos + 1)
      else get_random_ball_ rand table rowMax fuel (pos + 1)

def AliasUrn.remove_random_ball (rand : Nat → Nat) (pos : Nat) (u : AliasUrn) (fuel : Nat) :
    Option (Nat × AliasUrn × Nat) :=
  match get_random_ball_ rand u.alias_table u.row_current_max fuel pos with
  | none => none
  | some (row_id, color, column, pos1) =>
    if u.balls_with_color.length ≤ color then none
    else
      let row := tableGet u.alias_table row_id
      let row' := if column then { row with w1 := row.w1 - 1 } else { row with w0 := row.w0 - 1 }
      let table' := u.alias_table.set row_id row'
      let u1 := { u with alias_table := table',
                         balls_with_color :=
                           u.balls_with_color.set color (ballsGet u.balls_with_color color - 1),
                         number_of_balls := u.number_of_balls - 1 }
      if row'.total < u.row_weight_lower then
        match tryFixLoop rand u.row_weight_lower u.row_weight_upper row_id 5 pos1 table' with
        | (true, table2, pos2) => some (color, { u1 with alias_table := table2 }, pos2)
        | (false, _, pos2) =>
          match build_alias_table u1 with
          | none => none
          | some u2 => some (color, u2, pos2)
      else some (color, u1, pos1)

def AliasUrn.add_urn (u : AliasUrn) (other : List Int) : Option AliasUrn :=
  build_alias_table
    { u with balls_with_color := List.zipWith (· + ·) u.balls_with_color other,
             number_of_balls := u.number_of_balls + other.sum }

/-- Consistency as checked by `assert_consistency`: the per-color counts and
the alias-table row totals both sum to `number_of_balls_`. -/
def AliasConsistent (u : AliasUrn) : Prop :=
  u.balls_with_color.length = u.alias_table.length ∧
  u.balls_with_color.sum = u.number_of_balls ∧
  sumTotals u.alias_table = u.number_of_balls

/-- The per-row bracket claimed by C6: every row total is `⌊N/S⌋` or
`⌊N/S⌋ + 1`. -/
def RowBracket (u : AliasUrn) : Prop :=
  ∀ i < u.alias_table.length,
    u.number_of_balls.tdiv (u.alias_table.length : Int) ≤ (tableGet u.alias_table i).total ∧
    (tableGet u.alias_table i).total ≤ u.number_of_balls.tdiv (u.alias_table.length : Int) + 1

instance (u : AliasUrn) : Decidable (AliasConsistent u) := by
  unfold AliasConsistent
  infer_instance

instance (u : AliasUrn) : Decidable (RowBracket u) := by
  unfold RowBracket
  infer_instance

theorem getD_set_self {α : Type} :
    ∀ (l : List α) (i : Nat) (a d : α), i < l.length → (l.set i a).getD i d = a := by
  intro l
  induction l with
  | nil => intro i a d h; simp at h
  | cons x xs ih =>
    intro i a d h
    cases i with
    | zero => rfl
    | succ j =>
      show (xs.set j a).getD j d = a
      exact ih j a d (by simpa using h)

theorem getD_set_ne {α : Type} :
    ∀ (l : List α) (i j : Nat) (a d : α), i ≠ j → (l.set i a).getD j d = l.getD j d := by
  intro l
  induction l with
  | nil => intro i j a d _; simp [List.set]
  | cons x xs ih =>
    intro i j a d h
    cases i with
    | zero =>
      cases j with
      | zero => exact absurd rfl h
      | succ j' => rfl
    | succ i' =>
      cases j with
      | zero => rfl
      | succ j' =>
        show (xs.set i' a).getD j' d = xs.getD j' d
        exact ih i' j' a d (by omega)

theorem sum_map_set {α : Type} (f : α → Int) :
    ∀ (l : List α) (i : Nat) (a d : α), i < l.length →
      ((l.set i a).map f).sum = (l.map f).sum + f a - f (l.getD i d) := by
  intro l
  induction l with
  | nil => intro i a d h; simp at h
  | cons x xs ih =>
    intro i a d h
    cases i with
    | zero =>
      simp only [List.set, List.map_cons, List.sum_cons, List.getD_cons_zero]
      ring
    | succ j =>
      have hj := ih j a d (by simpa using h)
      simp only [List.set, List.map_cons, List.sum_cons, List.getD_cons_succ, hj]
      ring

theorem getD_map_range {α : Type} (d : α) :
    ∀ (S : Nat) (f : Nat → α) (i : Nat), i < S → ((List.range S).map f).getD i d = f i := by
  intro S
  induction S with
  | zero => intro f i h; omega
  | succ n ih =>
    intro f i h
    rw [List.range_succ_eq_map]
    cases i with
    | zero => rfl
    | succ j =>
      simp only [List.map_cons, List.map_map, List.getD_cons_succ]
      exact ih (f ∘ Nat.succ) j (by omega)

theorem sum_map_range_getD :
    ∀ (l : List Int), ((List.range l.length).map (fun i => l.getD i 0)).sum = l.sum := by
  intro l
  induction l with
  | nil => rfl
  | cons x xs ih =>
    show ((List.range (xs.length + 1)).map (fun i => (x :: xs).getD i 0)).sum = x + xs.sum
    rw [List.range_succ_eq_map]
    simp only [List.map_cons, List.map_map, List.sum_cons, List.getD_cons_zero]
    have h2 : ((fun i => (x :: xs).getD i 0) ∘ Nat.succ) = fun i => xs.getD i 0 := by
      funext i
      simp [Function.comp, List.getD_cons_succ]
    rw [h2, ih]

theorem sum_zipWith_add_int :
    ∀ (xs ys : List Int), xs.length = ys.length →
      (List.zipWith (· + ·) xs ys).sum = xs.sum + ys.sum := by
  intro xs
  induction xs with
  | nil => intro ys h; cases ys with | nil => rfl | cons y ys => simp at h
  | cons x xs ih =>
    intro ys h
    cases ys with
    | nil => simp at h
    | cons y ys =>
      simp only [List.zipWith, List.sum_cons, ih ys (by simpa using h)]
      ring

/-- Sum of the first weight slots of the rows indexed by `idxs`. -/
def wsum (t : List AliasRow) (idxs : List Nat) : Int :=
  (idxs.map (fun i => (tableGet t i).w0)).sum

theorem wsum_cons (t : List AliasRow) (a : Nat) (l : List Nat) :
    wsum t (a :: l) = (tableGet t a).w0 + wsum t l := by
  simp [wsum]

theorem wsum_append (t : List AliasRow) (l1 l2 : List Nat) :
    wsum t (l1 ++ l2) = wsum t l1 + wsum t l2 := by
  simp [wsum]

theorem wsum_congr (t t' : List AliasRow) (idxs : List Nat)
    (h : ∀ i ∈ idxs, (tableGet t i).w0 = (tableGet t' i).w0) :
    wsum t idxs = wsum t' idxs := by
  unfold wsum
  exact congrArg List.sum (List.map_congr_left h)

theorem wsum_le (t : List AliasRow) (c : Int) :
    ∀ (l : List Nat), (∀ i ∈ l, (tableGet t i).w0 ≤ c) → wsum t l ≤ c * l.length := by
  intro l
  induction l with
  | nil => intro _; simp [wsum]
  | cons a l ih =>
    intro h
    rw [wsum_cons]
    have h1 := h a (by simp)
    have h2 := ih (fun i hi => h i (by simp [hi]))
    have h3 : c * ((a :: l).length : Int) = c * l.length + c := by
      simp [List.length_cons]
      ring
    rw [h3]
    linarith

theorem wsum_ge (t : List AliasRow) (c : Int) :
    ∀ (l : List Nat), (∀ i ∈ l, c ≤ (tableGet t i).w0) → c * l.length ≤ wsum t l := by
  intro l
  induction l with
  | nil => intro _; simp [wsum]
  | cons a l ih =>
    intro h
    rw [wsum_cons]
    have h1 := h a (by simp)
    have h2 := ih (fun i hi => h i (by simp [hi]))
    have h3 : c * ((a :: l).length : Int) = c * l.length + c := by
      simp [List.length_cons]
      ring
    rw [h3]
    linarith

theorem wsum_all_eq (t : List AliasRow) (c : Int) :
    ∀ (l : List Nat), (∀ i ∈ l, (tableGet t i).w0 ≤ c) → c * l.length ≤ wsum t l →
      ∀ i ∈ l, (tableGet t i).w0 = c := by
  intro l
  induction l with
  | nil => intro _ _ i hi; simp at hi
  | cons a l ih =>
    intro hle hsum i hi
    have h1 := hle a (by simp)
    have h2 := wsum_le t c l (fun j hj => hle j (by simp [hj]))
    have h3 : c * ((a :: l).length : Int) = c * l.length + c := by
      simp [List.length_cons]
      ring
    rw [h3, wsum_cons] at hsum
    have ha : (tableGet t a).w0 = c := by linarith
    rcases List.mem_cons.mp hi with rfl | hi'
    · exact ha
    · exact ih (fun j hj => hle j (by simp [hj])) (by rw [ha] at hsum; linarith) i hi'

/-- `try_fix_row` only ever swaps second slots between two distinct rows, so
it preserves the table's length and total weight. -/
theorem tryFixLoop_spec (oracle : Nat → Nat) (lower upper : Int) (row_id : Nat) :
    ∀ (k pos : Nat) (table : List AliasRow), row_id < table.length →
      (tryFixLoop oracle lower upper row_id k pos table).2.1.length = table.length ∧
      sumTotals (tryFixLoop oracle lower upper row_id k pos table).2.1 = sumTotals table := by
  intro k
  induction k with
  | zero => intro pos table _; exact ⟨rfl, rfl⟩
  | succ m ih =>
    intro pos table h
    unfold tryFixLoop
    dsimp only
    set partner := oracle pos % table.length with hpdef
    by_cases hpr : partner = row_id
    · rw [if_pos hpr]
      exact ih (pos + 1) table h
    · rw [if_neg hpr]
      set row := tableGet table row_id with hrow
      set prow := tableGet table partner with hprow
      by_cases hcond : lower < row.w0 + prow.w1 ∧ lower < row.w1 + prow.w0 ∧
          row.w0 + prow.w1 < upper ∧ row.w1 + prow.w0 < upper
      · rw [if_pos hcond]
        have hplt : partner < table.length := Nat.mod_lt _ (by omega)
        refine ⟨by simp [List.length_set], ?_⟩
        show sumTotals ((table.set row_id
            { row with w1 := prow.w1, color2 := prow.color2 }).set partner
            { prow with w1 := row.w1, color2 := row.color2 }) = sumTotals table
        unfold sumTotals
        rw [sum_map_set AliasRow.total _ partner _ ⟨0, 0, 0⟩ (by simpa using hplt),
            sum_map_set AliasRow.total table row_id _ ⟨0, 0, 0⟩ h]
        have hne : row_id ≠ partner := fun hh => hpr hh.symm
        rw [getD_set_ne table row_id partner _ ⟨0, 0, 0⟩ hne]
        show _ + AliasRow.total { row with w1 := prow.w1, color2 := prow.color2 } -
            AliasRow.total row + AliasRow.total { prow with w1 := row.w1, color2 := row.color2 } -
            AliasRow.total prow = _
        unfold AliasRow.total
        dsimp only
        ring
      · rw [if_neg hcond]
        exact ih (pos + 1) table h

/-- Each iteration of `split_large_elements` moves `remaining` balls from a
large row's first slot into the settled small row's second slot, so whenever
the loop completes it preserves the table's length and total weight.  The
pending small rows must have empty second slots (as `categorize` produces
them) and the pending ids must be distinct. -/
theorem split_large_elements_sum (avg : Int) :
    ∀ (fuel : Nat) (numAbove : Int) (table : List AliasRow) (smalls larges : List Nat)
      (t' : List AliasRow),
      (smalls ++ larges).Nodup →
      (∀ i ∈ smalls, (tableGet table i).w1 = 0) →
      (∀ i ∈ larges, (tableGet table i).w1 = 0) →
      split_large_elements avg fuel numAbove table smalls larges = some t' →
      t'.length = table.length ∧ sumTotals t' = sumTotals table := by
  intro fuel
  induction fuel with
  | zero =>
    intro numAbove table smalls larges t' _ _ _ h
    cases larges with
    | nil =>
      unfold split_large_elements at h
      obtain rfl := Option.some.inj h
      exact ⟨rfl, rfl⟩
    | cons l ls =>
      unfold split_large_elements at h
      exact Option.noConfusion h
  | succ m ih =>
    intro numAbove table smalls larges t' hnd hsm hlg h
    cases larges with
    | nil =>
      unfold split_large_elements at h
      obtain rfl := Option.some.inj h
      exact ⟨rfl, rfl⟩
    | cons l ls =>
      cases smalls with
      | nil =>
        unfold split_large_elements at h
        exact Option.noConfusion h
      | cons s ss =>
        unfold split_large_elements at h
        dsimp only at h
        rw [List.cons_append] at hnd
        have hnd1 := List.nodup_cons.mp hnd
        have hsns : s ∉ ss := fun hh => hnd1.1 (List.mem_append.mpr (Or.inl hh))
        have hsnl : s ≠ l := fun hh =>
          hnd1.1 (List.mem_append.mpr (Or.inr (hh ▸ List.mem_cons_self l ls)))
        have hsnls : s ∉ ls := fun hh => hnd1.1 (List.mem_append.mpr (Or.inr (List.mem_cons_of_mem l hh)))
        have hlnss : l ∉ ss := fun hh =>
          (List.disjoint_of_nodup_append hnd1.2) hh (List.mem_cons_self l ls)
        have hlnls : l ∉ ls := (List.nodup_cons.mp (hnd1.2.of_append_right)).1
        by_cases hs : table.length ≤ s
        · rw [if_pos hs] at h
          exact Option.noConfusion h
        rw [if_neg hs] at h
        by_cases hr : avg + (if 0 < numAbove then 1 else 0) - (tableGet table s).w0 = 0
        · rw [if_pos hr] at h
          exact ih (numAbove - 1) table ss (l :: ls) t' hnd1.2
            (fun i hi => hsm i (List.mem_cons_of_mem s hi)) hlg h
        rw [if_neg hr] at h
        by_cases hl : table.length ≤ l
        · rw [if_pos hl] at h
          exact Option.noConfusion h
        rw [if_neg hl] at h
        set b : Int := (if 0 < numAbove then 1 else 0) with hb
        set row := tableGet table s with hrowdef
        set remaining := avg + b - row.w0 with hremdef
        set lrow := tableGet table l with hlrowdef
        set lw := lrow.w0 - remaining with hlwdef
        set table1 := table.set l { lrow with w0 := lw } with htable1def
        set row1 := tableGet table1 s with hrow1def
        set table2 := table1.set s { row1 with w1 := remaining, color2 := l } with htable2def
        have hrow1 : row1 = row := by
          rw [hrow1def, htable1def]
          exact getD_set_ne table l s _ ⟨0, 0, 0⟩ (fun hh => hsnl hh.symm)
        have hlen2 : table2.length = table.length := by
          rw [htable2def, htable1def]
          simp [List.length_set]
        have hsum2 : sumTotals table2 = sumTotals table := by
          rw [htable2def]
          unfold sumTotals
          rw [sum_map_set AliasRow.total table1 s _ ⟨0, 0, 0⟩
            (by rw [htable1def]; simpa [List.length_set] using Nat.lt_of_not_le hs)]
          rw [htable1def]
          rw [sum_map_set AliasRow.total table l _ ⟨0, 0, 0⟩ (Nat.lt_of_not_le hl)]
          have hg1 : (table.set l { lrow with w0 := lw }).getD s ⟨0, 0, 0⟩ = row :=
            getD_set_ne table l s _ ⟨0, 0, 0⟩ (fun hh => hsnl hh.symm)
          rw [hg1]
          have hw1 : row.w1 = 0 := hsm s (List.mem_cons_self s ss)
          rw [hrow1]
          unfold AliasRow.total
          dsimp only
          rw [hw1]
          rw [show table.getD l ⟨0, 0, 0⟩ = lrow from rfl, hlwdef]
          ring
        have hget2 : ∀ i, i ≠ s → i ≠ l → tableGet table2 i = tableGet table i := by
          intro i his hil
          show table2.getD i ⟨0, 0, 0⟩ = table.getD i ⟨0, 0, 0⟩
          rw [htable2def, htable1def,
              getD_set_ne _ s i _ (⟨0, 0, 0⟩ : AliasRow) (fun hh => his hh.symm),
              getD_set_ne _ l i _ (⟨0, 0, 0⟩ : AliasRow) (fun hh => hil hh.symm)]
        have hget2l : tableGet table2 l = { lrow with w0 := lw } := by
          show table2.getD l ⟨0, 0, 0⟩ = _
          rw [htable2def, htable1def, getD_set_ne _ s l _ (⟨0, 0, 0⟩ : AliasRow) hsnl]
          exact getD_set_self table l _ ⟨0, 0, 0⟩ (Nat.lt_of_not_le hl)
        by_cases hlw : lw ≤ avg
        · rw [if_pos hlw] at h
          have := ih (numAbove - 1) table2 (l :: ss) ls t'
            (by rw [List.cons_append]
                exact List.perm_middle.nodup hnd1.2)
            (by intro i hi
                rcases List.mem_cons.mp hi with rfl | hi'
                · rw [hget2l]
                  exact hlg i (List.mem_cons_self i ls)
                · rw [hget2 i (fun hh => hsns (hh ▸ hi')) (fun hh => hlnss (hh ▸ hi'))]
                  exact hsm i (List.mem_cons_of_mem s hi'))
            (by intro i hi
                rw [hget2 i (fun hh => hsnls (hh ▸ hi)) (fun hh => hlnls (hh ▸ hi))]
                exact hlg i (List.mem_cons_of_mem l hi))
            h
          exact ⟨this.1.trans hlen2, this.2.trans hsum2⟩
        · rw [if_neg hlw] at h
          have := ih (numAbove - 1) table2 ss (l :: ls) t'
            (by exact hnd1.2)
            (by intro i hi
                rw [hget2 i (fun hh => hsns (hh ▸ hi)) (fun hh => hlnss (hh ▸ hi))]
                exact hsm i (List.mem_cons_of_mem s hi))
            (by intro i hi
                rcases List.mem_cons.mp hi with rfl | hi'
                · rw [hget2l]
                  exact hlg i (List.mem_cons_self i ls)
                · rw [hget2 i (fun hh => hsnls (hh ▸ hi')) (fun hh => hlnls (hh ▸ hi'))]
                  exact hlg i (List.mem_cons_of_mem l hi'))
            h
          exact ⟨this.1.trans hlen2, this.2.trans hsum2⟩

theorem split_sum_step (avg na W cnt : Int) (hW : W = avg * cnt + max na 0) :
    W - (avg + (if 0 < na then 1 else 0)) = avg * (cnt - 1) + max (na - 1) 0 := by
  by_cases hna : 0 < na
  · rw [if_pos hna]
    rw [max_eq_left (by omega : (0 : Int) ≤ na)] at hW
    rw [max_eq_left (by omega : (0 : Int) ≤ na - 1)]
    linear_combination hW
  · rw [if_neg hna]
    rw [max_eq_right (by omega : na ≤ (0 : Int))] at hW
    rw [max_eq_right (by omega : na - 1 ≤ (0 : Int))]
    linear_combination hW

theorem avg_b_bracket (avg na : Int) :
    avg ≤ avg + (if 0 < na then 1 else 0) ∧ avg + (if 0 < na then 1 else 0) ≤ avg + 1 := by
  by_cases hna : 0 < na
  · rw [if_pos hna]; omega
  · rw [if_neg hna]; omega

/-- Correctness of the `split_large_elements` loop: starting from a
categorized table (small rows hold at most the average in their first slot,
large rows strictly more, all second slots empty, ids distinct, and the
pending first-slot weights sum to `avg * pending + numAbove⁺` with
`numAbove < pending`), the loop completes and every row of the resulting
table totals `avg` or `avg + 1`. -/
theorem split_large_elements_spec (avg : Int) :
    ∀ (fuel : Nat) (numAbove : Int) (table : List AliasRow) (smalls larges : List Nat),
      smalls.length + larges.length ≤ fuel →
      (smalls ++ larges).Nodup →
      (∀ i ∈ smalls ++ larges, i < table.length) →
      (∀ i ∈ smalls, (tableGet table i).w1 = 0 ∧ (tableGet table i).w0 ≤ avg) →
      (∀ i ∈ larges, (tableGet table i).w1 = 0 ∧ avg < (tableGet table i).w0) →
      (∀ i, i < table.length → i ∉ smalls → i ∉ larges →
        avg ≤ (tableGet table i).total ∧ (tableGet table i).total ≤ avg + 1) →
      wsum table (smalls ++ larges)
        = avg * ((smalls.length : Int) + (larges.length : Int)) + max numAbove 0 →
      numAbove < (smalls.length : Int) + (larges.length : Int) →
      ∃ t', split_large_elements avg fuel numAbove table smalls larges = some t' ∧
        t'.length = table.length ∧
        ∀ i, i < t'.length →
          avg ≤ (tableGet t' i).total ∧ (tableGet t' i).total ≤ avg + 1 := by
  intro fuel
  induction fuel with
  | zero =>
    intro numAbove table smalls larges hfuel _ _ _ _ hset _ _
    cases larges with
    | nil =>
      refine ⟨table, by unfold split_large_elements; rfl, rfl, ?_⟩
      intro i hi
      have hsm0 : smalls.length = 0 := by omega
      have : smalls = [] := List.length_eq_zero.mp hsm0
      subst this
      exact hset i hi (by simp) (by simp)
    | cons l ls =>
      exfalso
      simp only [List.length_cons] at hfuel
      omega
  | succ m ih =>
    intro numAbove table smalls larges hfuel hnd hlt hsm hlg hset hsum hcount
    cases larges with
    | nil =>
      refine ⟨table, by unfold split_large_elements; rfl, rfl, ?_⟩
      -- every pending small row must hold exactly `avg`
      simp only [List.append_nil] at hnd hlt
      simp only [List.append_nil, List.length_nil, Nat.cast_zero, add_zero] at hsum
      have hle : ∀ i ∈ smalls, (tableGet table i).w0 ≤ avg := fun i hi => (hsm i hi).2
      have hub := wsum_le table avg smalls hle
      have hmax0 : max numAbove 0 = 0 := by
        have h0 : 0 ≤ max numAbove 0 := le_max_right numAbove 0
        nlinarith [hsum, hub]
      rw [hmax0, add_zero] at hsum
      have hall := wsum_all_eq table avg smalls hle (le_of_eq hsum.symm)
      intro i hi
      by_cases hmem : i ∈ smalls
      · have hw0 := hall i hmem
        have hw1 := (hsm i hmem).1
        unfold AliasRow.total
        rw [hw0, hw1]
        omega
      · exact hset i hi hmem (by simp)
    | cons l ls =>
      cases smalls with
      | nil =>
        exfalso
        simp only [List.nil_append, List.length_nil, Nat.cast_zero, zero_add] at hsum hcount
        have hge : ∀ i ∈ l :: ls, avg + 1 ≤ (tableGet table i).w0 := by
          intro i hi
          have := (hlg i hi).2
          omega
        have hub := wsum_ge table (avg + 1) (l :: ls) hge
        have hlen1 : (1 : Int) ≤ ((l :: ls).length : Int) := by
          simp only [List.length_cons]
          push_cast
          omega
        have hmaxlt : max numAbove 0 < ((l :: ls).length : Int) := by
          rcases le_total numAbove 0 with hna | hna
          · rw [max_eq_right hna]; omega
          · rw [max_eq_left hna]; omega
        nlinarith [hsum, hub, hmaxlt]
      | cons s ss =>
        unfold split_large_elements
        dsimp only
        rw [List.cons_append] at hnd
        have hnd1 := List.nodup_cons.mp hnd
        have hsns : s ∉ ss := fun hh => hnd1.1 (List.mem_append.mpr (Or.inl hh))
        have hsnl : s ≠ l := fun hh =>
          hnd1.1 (List.mem_append.mpr (Or.inr (hh ▸ List.mem_cons_self l ls)))
        have hsnls : s ∉ ls := fun hh =>
          hnd1.1 (List.mem_append.mpr (Or.inr (List.mem_cons_of_mem l hh)))
        have hlnss : l ∉ ss := fun hh =>
          (List.disjoint_of_nodup_append hnd1.2) hh (List.mem_cons_self l ls)
        have hlnls : l ∉ ls := (List.nodup_cons.mp (hnd1.2.of_append_right)).1
        have hslt : s < table.length :=
          hlt s (List.mem_append.mpr (Or.inl (List.mem_cons_self s ss)))
        have hllt : l < table.length :=
          hlt l (List.mem_append.mpr (Or.inr (List.mem_cons_self l ls)))
        rw [if_neg (Nat.not_le.mpr hslt)]
        set b : Int := (if 0 < numAbove then 1 else 0) with hb
        set row := tableGet table s with hrowdef
        set remaining := avg + b - row.w0 with hremdef
        have hrow_w1 : row.w1 = 0 := (hsm s (List.mem_cons_self s ss)).1
        have hrow_le : row.w0 ≤ avg := (hsm s (List.mem_cons_self s ss)).2
        -- the old pending weight sum, decomposed
        have hsum_expand : row.w0 + wsum table (ss ++ l :: ls)
            = avg * (((s :: ss).length : Int) + ((l :: ls).length : Int)) + max numAbove 0 := by
          rw [← wsum_cons, ← List.cons_append]
          exact hsum
        by_cases hr : remaining = 0
        · rw [if_pos hr]
          have hstep := split_sum_step avg numAbove
            (avg * (((s :: ss).length : Int) + ((l :: ls).length : Int)) + max numAbove 0)
            (((s :: ss).length : Int) + ((l :: ls).length : Int)) rfl
          have hw0eq : row.w0 = avg + b := by omega
          obtain ⟨t', heq, hlen, hbr⟩ := ih (numAbove - 1) table ss (l :: ls)
            (by simp only [List.length_cons] at hfuel ⊢; omega)
            hnd1.2
            (fun i hi => hlt i (by
              rcases List.mem_append.mp hi with h1 | h2
              · exact List.mem_append.mpr (Or.inl (List.mem_cons_of_mem s h1))
              · exact List.mem_append.mpr (Or.inr h2)))
            (fun i hi => hsm i (List.mem_cons_of_mem s hi))
            hlg
            (by intro i hi hi1 hi2
                by_cases his : i = s
                · subst his
                  have := avg_b_bracket avg numAbove
                  unfold AliasRow.total
                  rw [← hrowdef, hrow_w1, hw0eq]
                  omega
                · exact hset i hi (fun hh => (List.mem_cons.mp hh).elim his hi1) hi2)
            (by
              have : wsum table (ss ++ l :: ls)
                  = avg * (((s :: ss).length : Int) + ((l :: ls).length : Int)) + max numAbove 0
                    - (avg + b) := by omega
              rw [this, hstep]
              congr 1
              simp only [List.length_cons]
              push_cast
              ring)
            (by simp only [List.length_cons] at hcount ⊢; push_cast at hcount ⊢; omega)
          exact ⟨t', heq, hlen, hbr⟩
        · rw [if_neg hr]
          rw [if_neg (Nat.not_le.mpr hllt)]
          set lrow := tableGet table l with hlrowdef
          set lw := lrow.w0 - remaining with hlwdef
          set table1 := table.set l { lrow with w0 := lw } with htable1def
          set row1 := tableGet table1 s with hrow1def
          set table2 := table1.set s { row1 with w1 := remaining, color2 := l } with htable2def
          have hrow1 : row1 = row := by
            rw [hrow1def, htable1def]
            exact getD_set_ne table l s _ (⟨0, 0, 0⟩ : AliasRow) (fun hh => hsnl hh.symm)
          have hlen2 : table2.length = table.length := by
            rw [htable2def, htable1def]
            simp [List.length_set]
          have hget2 : ∀ i, i ≠ s → i ≠ l → tableGet table2 i = tableGet table i := by
            intro i his hil
            show table2.getD i ⟨0, 0, 0⟩ = table.getD i ⟨0, 0, 0⟩
            rw [htable2def, htable1def,
                getD_set_ne _ s i _ (⟨0, 0, 0⟩ : AliasRow) (fun hh => his hh.symm),
                getD_set_ne _ l i _ (⟨0, 0, 0⟩ : AliasRow) (fun hh => hil hh.symm)]
          have hget2l : tableGet table2 l = { lrow with w0 := lw } := by
            show table2.getD l ⟨0, 0, 0⟩ = _
            rw [htable2def, htable1def, getD_set_ne _ s l _ (⟨0, 0, 0⟩ : AliasRow) hsnl]
            exact getD_set_self table l _ ⟨0, 0, 0⟩ hllt
          have hget2s : tableGet table2 s = { row with w1 := remaining, color2 := l } := by
            show table2.getD s ⟨0, 0, 0⟩ = _
            rw [htable2def, hrow1]
            exact getD_set_self table1 s _ ⟨0, 0, 0⟩
              (by rw [htable1def]; simpa [List.length_set] using hslt)
          have hlrow_w1 : lrow.w1 = 0 := (hlg l (List.mem_cons_self l ls)).1
          have hsettled : avg ≤ (tableGet table2 s).total ∧ (tableGet table2 s).total ≤ avg + 1 := by
            rw [hget2s]
            have := avg_b_bracket avg numAbove
            unfold AliasRow.total
            dsimp only
            omega
          have hstep := split_sum_step avg numAbove
            (avg * (((s :: ss).length : Int) + ((l :: ls).length : Int)) + max numAbove 0)
            (((s :: ss).length : Int) + ((l :: ls).length : Int)) rfl
          by_cases hlw : lw ≤ avg
          · rw [if_pos hlw]
            obtain ⟨t', heq, hlen, hbr⟩ := ih (numAbove - 1) table2 (l :: ss) ls
              (by simp only [List.length_cons] at hfuel ⊢; omega)
              (by rw [List.cons_append]
                  exact List.perm_middle.nodup hnd1.2)
              (by intro i hi
                  rw [hlen2]
                  rcases List.mem_append.mp hi with h1 | h2
                  · rcases List.mem_cons.mp h1 with rfl | h1'
                    · exact hllt
                    · exact hlt i (List.mem_append.mpr (Or.inl (List.mem_cons_of_mem s h1')))
                  · exact hlt i (List.mem_append.mpr (Or.inr (List.mem_cons_of_mem l h2))))
              (by intro i hi
                  rcases List.mem_cons.mp hi with rfl | hi'
                  · rw [hget2l]
                    exact ⟨hlrow_w1, hlw⟩
                  · rw [hget2 i (fun hh => hsns (hh ▸ hi')) (fun hh => hlnss (hh ▸ hi'))]
                    exact hsm i (List.mem_cons_of_mem s hi'))
              (by intro i hi
                  rw [hget2 i (fun hh => hsnls (hh ▸ hi)) (fun hh => hlnls (hh ▸ hi))]
                  exact hlg i (List.mem_cons_of_mem l hi))
              (by intro i hi hi1 hi2
                  by_cases his : i = s
                  · subst his
                    exact hsettled
                  · have hil : i ≠ l := fun hh => hi1 (hh ▸ List.mem_cons_self l ss)
                    rw [hget2 i his hil]
                    exact hset i (by rw [← hlen2]; exact hi)
                      (fun hh => (List.mem_cons.mp hh).elim his
                        (fun h2 => hi1 (List.mem_cons_of_mem l h2)))
                      (fun hh => (List.mem_cons.mp hh).elim hil hi2))
              (by
                have hws : wsum table2 ((l :: ss) ++ ls)
                    = lw + wsum table (ss ++ ls) := by
                  rw [List.cons_append, wsum_cons, hget2l]
                  have : wsum table2 (ss ++ ls) = wsum table (ss ++ ls) := by
                    apply wsum_congr
                    intro i hi
                    rcases List.mem_append.mp hi with h1 | h2
                    · rw [hget2 i (fun hh => hsns (hh ▸ h1)) (fun hh => hlnss (hh ▸ h1))]
                    · rw [hget2 i (fun hh => hsnls (hh ▸ h2)) (fun hh => hlnls (hh ▸ h2))]
                  rw [this]
                have hold : wsum table ((s :: ss) ++ l :: ls)
                    = row.w0 + lrow.w0 + wsum table (ss ++ ls) := by
                  rw [List.cons_append, wsum_cons]
                  have : wsum table (ss ++ l :: ls)
                      = lrow.w0 + wsum table (ss ++ ls) := by
                    have hperm : List.Perm (ss ++ l :: ls) (l :: (ss ++ ls)) :=
                      List.perm_middle
                    unfold wsum
                    rw [(hperm.map (fun i => (tableGet table i).w0)).sum_eq]
                    simp [wsum]
                  rw [this]
                  ring
                rw [hws]
                rw [hold] at hsum
                have hgoal : lw + wsum table (ss ++ ls)
                    = (avg * (((s :: ss).length : Int) + ((l :: ls).length : Int))
                        + max numAbove 0) - (avg + b) := by omega
                rw [hgoal, hstep]
                congr 1
                simp only [List.length_cons]
                push_cast
                ring)
              (by simp only [List.length_cons] at hcount ⊢; push_cast at hcount ⊢; omega)
            exact ⟨t', heq, hlen.trans hlen2, hbr⟩
          · rw [if_neg hlw]
            obtain ⟨t', heq, hlen, hbr⟩ := ih (numAbove - 1) table2 ss (l :: ls)
              (by simp only [List.length_cons] at hfuel ⊢; omega)
              hnd1.2
              (by intro i hi
                  rw [hlen2]
                  rcases List.mem_append.mp hi with h1 | h2
                  · exact hlt i (List.mem_append.mpr (Or.inl (List.mem_cons_of_mem s h1)))
                  · exact hlt i (List.mem_append.mpr (Or.inr h2)))
              (by intro i hi
                  rw [hget2 i (fun hh => hsns (hh ▸ hi)) (fun hh => hlnss (hh ▸ hi))]
                  exact hsm i (List.mem_cons_of_mem s hi))
              (by intro i hi
                  rcases List.mem_cons.mp hi with rfl | hi'
                  · rw [hget2l]
                    exact ⟨hlrow_w1, by show avg < lw; omega⟩
                  · rw [hget2 i (fun hh => hsnls (hh ▸ hi')) (fun hh => hlnls (hh ▸ hi'))]
                    exact hlg i (List.mem_cons_of_mem l hi'))
              (by intro i hi hi1 hi2
                  by_cases his : i = s
                  · subst his
                    exact hsettled
                  · have hil : i ≠ l := fun hh => hi2 (hh ▸ List.mem_cons_self l ls)
                    rw [hget2 i his hil]
                    exact hset i (by rw [← hlen2]; exact hi)
                      (fun hh => (List.mem_cons.mp hh).elim his hi1)
                      (fun hh => (List.mem_cons.mp hh).elim hil
                        (fun h2 => hi2 (List.mem_cons_of_mem l h2))))
              (by
                have hws : wsum table2 (ss ++ l :: ls)
                    = lw + wsum table (ss ++ ls) := by
                  have hperm : List.Perm (ss ++ l :: ls) (l :: (ss ++ ls)) :=
                    List.perm_middle
                  unfold wsum
                  rw [(hperm.map (fun i => (tableGet table2 i).w0)).sum_eq]
                  rw [List.map_cons, List.sum_cons, hget2l]
                  have : ((ss ++ ls).map (fun i => (tableGet table2 i).w0)).sum
                      = ((ss ++ ls).map (fun i => (tableGet table i).w0)).sum := by
                    apply congrArg List.sum
                    apply List.map_congr_left
                    intro i hi
                    rcases List.mem_append.mp hi with h1 | h2
                    · rw [hget2 i (fun hh => hsns (hh ▸ h1)) (fun hh => hlnss (hh ▸ h1))]
                    · rw [hget2 i (fun hh => hsnls (hh ▸ h2)) (fun hh => hlnls (hh ▸ h2))]
                  rw [this]
                have hold : wsum table ((s :: ss) ++ l :: ls)
                    = row.w0 + lrow.w0 + wsum table (ss ++ ls) := by
                  rw [List.cons_append, wsum_cons]
                  have : wsum table (ss ++ l :: ls)
                      = lrow.w0 + wsum table (ss ++ ls) := by
                    have hperm : List.Perm (ss ++ l :: ls) (l :: (ss ++ ls)) :=
                      List.perm_middle
                    unfold wsum
                    rw [(hperm.map (fun i => (tableGet table i).w0)).sum_eq]
                    simp [wsum]
                  rw [this]
                  ring
                rw [hws]
                rw [hold] at hsum
                have hgoal : lw + wsum table (ss ++ ls)
                    = (avg * (((s :: ss).length : Int) + ((l :: ls).length : Int))
                        + max numAbove 0) - (avg + b) := by omega
                rw [hgoal, hstep]
                congr 1
                simp only [List.length_cons]
                push_cast
                ring)
              (by simp only [List.length_cons] at hcount ⊢; push_cast at hcount ⊢; omega)
            exact ⟨t', heq, hlen.trans hlen2, hbr⟩

theorem categorize_table_length (balls : List Int) (table : List AliasRow) (S : Nat) :
    (categorize_table balls table S).length = S := by
  simp [categorize_table]

theorem categorize_table_get (balls : List Int) (table : List AliasRow) (S i : Nat)
    (h : i < S) :
    tableGet (categorize_table balls table S) i
      = ⟨ballsGet balls i, 0, (tableGet table i).color2⟩ := by
  show ((List.range S).map
    (fun i => (⟨ballsGet balls i, 0, (tableGet table i).color2⟩ : AliasRow))).getD i
      ⟨0, 0, 0⟩ = _
  exact getD_map_range (⟨0, 0, 0⟩ : AliasRow) S _ i h

theorem categorize_perm (balls : List Int) (avg : Int) (S : Nat) :
    List.Perm (categorize_small balls avg S ++ categorize_large balls avg S)
      (List.range S) := by
  unfold categorize_small categorize_large
  have h1 : (List.range S).filter (fun i => decide (avg < ballsGet balls i))
      = (List.range S).filter (fun i => !decide (ballsGet balls i ≤ avg)) := by
    apply List.filter_congr
    intro i _
    by_cases hc : ballsGet balls i ≤ avg
    · simp [hc, not_lt_of_le hc]
    · simp [hc, lt_of_not_le hc]
  rw [h1]
  exact ((List.reverse_perm _).append (List.reverse_perm _)).trans
    (List.filter_append_perm _ (List.range S))

theorem categorize_small_mem (balls : List Int) (table : List AliasRow) (avg : Int)
    (S i : Nat) (h : i ∈ categorize_small balls avg S) :
    i < S ∧ (tableGet (categorize_table balls table S) i).w1 = 0 ∧
      (tableGet (categorize_table balls table S) i).w0 ≤ avg := by
  unfold categorize_small at h
  have h2 := List.mem_filter.mp (List.mem_reverse.mp h)
  have hiS : i < S := List.mem_range.mp h2.1
  have hle : ballsGet balls i ≤ avg := of_decide_eq_true h2.2
  rw [categorize_table_get balls table S i hiS]
  exact ⟨hiS, rfl, hle⟩

theorem categorize_large_mem (balls : List Int) (table : List AliasRow) (avg : Int)
    (S i : Nat) (h : i ∈ categorize_large balls avg S) :
    i < S ∧ (tableGet (categorize_table balls table S) i).w1 = 0 ∧
      avg < (tableGet (categorize_table balls table S) i).w0 := by
  unfold categorize_large at h
  have h2 := List.mem_filter.mp (List.mem_reverse.mp h)
  have hiS : i < S := List.mem_range.mp h2.1
  have hlt : avg < ballsGet balls i := of_decide_eq_true h2.2
  rw [categorize_table_get balls table S i hiS]
  exact ⟨hiS, rfl, hlt⟩

theorem categorize_cover (balls : List Int) (avg : Int) (S i : Nat) (h : i < S)
    (h1 : i ∉ categorize_small balls avg S) (h2 : i ∉ categorize_large balls avg S) :
    False := by
  by_cases hc : ballsGet balls i ≤ avg
  · exact h1 (List.mem_reverse.mpr
      (List.mem_filter.mpr ⟨List.mem_range.mpr h, decide_eq_true hc⟩))
  · exact h2 (List.mem_reverse.mpr
      (List.mem_filter.mpr ⟨List.mem_range.mpr h, decide_eq_true (lt_of_not_le hc)⟩))

theorem categorize_wsum (balls : List Int) (table : List AliasRow) (avg : Int) (S : Nat)
    (hS : S = balls.length) :
    wsum (categorize_table balls table S)
      (categorize_small balls avg S ++ categorize_large balls avg S) = balls.sum := by
  unfold wsum
  rw [((categorize_perm balls avg S).map
    (fun i => (tableGet (categorize_table balls table S) i).w0)).sum_eq]
  have hcongr : (List.range S).map
      (fun i => (tableGet (categorize_table balls table S) i).w0)
      = (List.range S).map (fun i => balls.getD i 0) := by
    apply List.map_congr_left
    intro i hi
    rw [categorize_table_get balls table S i (List.mem_range.mp hi)]
    rfl
  rw [hcongr, hS, sum_map_range_getD]

theorem categorize_sum (balls : List Int) (table : List AliasRow) (S : Nat)
    (hS : S = balls.length) :
    sumTotals (categorize_table balls table S) = balls.sum := by
  unfold sumTotals categorize_table
  rw [List.map_map]
  have hcongr : (AliasRow.total ∘
      fun i => (⟨ballsGet balls i, 0, (tableGet table i).color2⟩ : AliasRow))
      = fun i => balls.getD i 0 := by
    funext i
    show ballsGet balls i + 0 = balls.getD i 0
    rw [add_zero]
    rfl
  rw [hcongr, hS, sum_map_range_getD]

/-- Whenever `build_alias_table` completes, it leaves the counters and ball
counts untouched, preserves the table's size and re-establishes
`assert_consistency`'s sum invariants. -/
theorem build_alias_table_sum (u u' : AliasUrn)
    (hlen : u.balls_with_color.length = u.alias_table.length)
    (hb : u.balls_with_color.sum = u.number_of_balls)
    (heq : build_alias_table u = some u') :
    u'.number_of_balls = u.number_of_balls ∧
    u'.balls_with_color = u.balls_with_color ∧
    u'.alias_table.length = u.alias_table.length ∧
    AliasConsistent u' := by
  unfold build_alias_table at heq
  by_cases hS0 : u.alias_table.length = 0
  · rw [if_pos hS0] at heq
    obtain rfl := Option.some.inj heq
    have hbnil : u.balls_with_color = [] :=
      List.length_eq_zero.mp (by omega)
    have htnil : u.alias_table = [] := List.length_eq_zero.mp hS0
    refine ⟨rfl, rfl, rfl, hlen, hb, ?_⟩
    rw [htnil]
    rw [hbnil] at hb
    simp only [List.sum_nil] at hb
    show (0 : Int) = u.number_of_balls
    omega
  · rw [if_neg hS0] at heq
    dsimp only at heq
    set S := u.alias_table.length with hSdef
    set avg := u.number_of_balls.tdiv (S : Int) with havg
    set smalls := categorize_small u.balls_with_color avg S with hsmalls
    set larges := categorize_large u.balls_with_color avg S with hlarges
    set table1 := categorize_table u.balls_with_color u.alias_table S with htable1
    cases hsplit : split_large_elements avg (smalls.length + larges.length)
        (u.number_of_balls - avg * (S : Int)) table1 smalls larges with
    | none => rw [hsplit] at heq; exact Option.noConfusion heq
    | some t' =>
      rw [hsplit] at heq
      simp only [Option.map_some'] at heq
      obtain rfl := Option.some.inj heq
      have hnd : (smalls ++ larges).Nodup :=
        ((categorize_perm u.balls_with_color avg S).symm).nodup (List.nodup_range S)
      have hpres := split_large_elements_sum avg (smalls.length + larges.length)
        (u.number_of_balls - avg * (S : Int)) table1 smalls larges t' hnd
        (fun i hi => (categorize_small_mem u.balls_with_color u.alias_table avg S i hi).2.1)
        (fun i hi => (categorize_large_mem u.balls_with_color u.alias_table avg S i hi).2.1)
        hsplit
      refine ⟨rfl, rfl, ?_, ?_, ?_, ?_⟩
      · show t'.length = S
        rw [hpres.1, htable1]
        exact categorize_table_length _ _ _
      · show u.balls_with_color.length = t'.length
        rw [hpres.1, htable1, categorize_table_length]
        exact hlen
      · exact hb
      · show sumTotals t' = u.number_of_balls
        rw [hpres.2, htable1, categorize_sum u.balls_with_color u.alias_table S hlen.symm]
        exact hb

/-- `build_alias_table` on a nonnegative total: it completes, preserves the
sum invariants and (the interesting part) afterwards EVERY row totals
`⌊N/S⌋` or `⌊N/S⌋ + 1`. -/
theorem build_alias_table_spec (u : AliasUrn)
    (hlen : u.balls_with_color.length = u.alias_table.length)
    (hb : u.balls_with_color.sum = u.number_of_balls)
    (hN : 0 ≤ u.number_of_balls) :
    ∃ u', build_alias_table u = some u' ∧
      u'.number_of_balls = u.number_of_balls ∧
      u'.balls_with_color = u.balls_with_color ∧
      AliasConsistent u' ∧ RowBracket u' := by
  by_cases hS0 : u.alias_table.length = 0
  · refine ⟨u, by unfold build_alias_table; rw [if_pos hS0], rfl, rfl, ?_, ?_⟩
    · have hbnil : u.balls_with_color = [] := List.length_eq_zero.mp (by omega)
      have htnil : u.alias_table = [] := List.length_eq_zero.mp hS0
      refine ⟨hlen, hb, ?_⟩
      rw [htnil]
      rw [hbnil] at hb
      simp only [List.sum_nil] at hb
      show (0 : Int) = u.number_of_balls
      omega
    · intro i hi
      omega
  · have hSpos : 0 < u.alias_table.length := Nat.pos_of_ne_zero hS0
    set S := u.alias_table.length with hSdef
    set avg := u.number_of_balls.tdiv (S : Int) with havg
    set na := u.number_of_balls - avg * (S : Int) with hna
    set smalls := categorize_small u.balls_with_color avg S with hsmalls
    set larges := categorize_large u.balls_with_color avg S with hlarges
    set table1 := categorize_table u.balls_with_color u.alias_table S with htable1
    have hperm := categorize_perm u.balls_with_color avg S
    have hnd : (smalls ++ larges).Nodup := (hperm.symm).nodup (List.nodup_range S)
    have hcntS : smalls.length + larges.length = S := by
      have := hperm.length_eq
      simpa [List.length_append, List.length_range] using this
    -- `numAbove` is the truncated remainder of `N / S`, hence in `[0, S)`
    have htm : na = u.number_of_balls.tmod (S : Int) := by
      have h1 := Int.tdiv_add_tmod u.number_of_balls (S : Int)
      rw [← havg] at h1
      rw [hna]
      linarith [h1]
    have hna0 : 0 ≤ na := by
      rw [htm]
      exact Int.tmod_nonneg _ hN
    have hnaS : na < (S : Int) := by
      rw [htm]
      exact Int.tmod_lt_of_pos _ (by exact_mod_cast hSpos)
    have hsum : wsum table1 (smalls ++ larges)
        = avg * ((smalls.length : Int) + (larges.length : Int)) + max na 0 := by
      rw [htable1, categorize_wsum u.balls_with_color u.alias_table avg S hlen.symm, hb]
      rw [max_eq_left hna0]
      have hcast : (smalls.length : Int) + (larges.length : Int) = (S : Int) := by
        exact_mod_cast congrArg (Nat.cast : Nat → Int) hcntS
      rw [hcast]
      omega
    have hcount : na < (smalls.length : Int) + (larges.length : Int) := by
      have hcast : (smalls.length : Int) + (larges.length : Int) = (S : Int) := by
        exact_mod_cast congrArg (Nat.cast : Nat → Int) hcntS
      omega
    obtain ⟨t', hsplit, hlen', hbr⟩ := split_large_elements_spec avg
      (smalls.length + larges.length) na table1 smalls larges (le_refl _) hnd
      (by intro i hi
          rw [htable1, categorize_table_length]
          rcases List.mem_append.mp hi with h1 | h2
          · exact (categorize_small_mem u.balls_with_color u.alias_table avg S i h1).1
          · exact (categorize_large_mem u.balls_with_color u.alias_table avg S i h2).1)
      (fun i hi => (categorize_small_mem u.balls_with_color u.alias_table avg S i hi).2)
      (fun i hi => (categorize_large_mem u.balls_with_color u.alias_table avg S i hi).2)
      (by intro i hi h1 h2
          exfalso
          exact categorize_cover u.balls_with_color avg S i
            (by rwa [htable1, categorize_table_length] at hi) h1 h2)
      hsum hcount
    have hpres := split_large_elements_sum avg (smalls.length + larges.length) na table1
      smalls larges t' hnd
      (fun i hi => (categorize_small_mem u.balls_with_color u.alias_table avg S i hi).2.1)
      (fun i hi => (categorize_large_mem u.balls_with_color u.alias_table avg S i hi).2.1)
      hsplit
    have ht'len : t'.length = S := by
      rw [hlen', htable1]
      exact categorize_table_length _ _ _
    refine ⟨{ u with alias_table := t',
                     row_weight_lower := (4 * avg).tdiv 5,
                     row_current_max := avg + (if 0 < na then 1 else 0),
                     row_weight_upper := if 0 ≤ avg + (if 0 < na then 1 else 0)
                         then (3 * (avg + (if 0 < na then 1 else 0)) + 1).tdiv 2
                         else (3 * (avg + (if 0 < na then 1 else 0))).tdiv 2 },
      ?_, rfl, rfl, ?_, ?_⟩
    · show build_alias_table u = _
      unfold build_alias_table
      rw [if_neg hS0]
      dsimp only
      rw [← hSdef, ← havg, ← hsmalls, ← hlarges, ← htable1, ← hna, hsplit]
      rfl
    · refine ⟨?_, hb, ?_⟩
      · show u.balls_with_color.length = t'.length
        rw [ht'len]
        exact hlen
      · show sumTotals t' = u.number_of_balls
        rw [hpres.2, htable1, categorize_sum u.balls_with_color u.alias_table S hlen.symm]
        exact hb
    · unfold RowBracket
      dsimp only
      intro i hi
      have hbi := hbr i hi
      have hcastS : ((t'.length : Nat) : Int) = ((S : Nat) : Int) := by
        exact_mod_cast congrArg (Nat.cast : Nat → Int) ht'len
      rw [hcastS]
      exact hbi

theorem sum_set_int :
    ∀ (l : List Int) (i : Nat) (a : Int), i < l.length →
      (l.set i a).sum = l.sum + a - l.getD i 0 := by
  intro l
  induction l with
  | nil => intro i a h; simp at h
  | cons x xs ih =>
    intro i a h
    cases i with
    | zero =>
      simp only [List.set, List.sum_cons, List.getD_cons_zero]
      ring
    | succ j =>
      have hj := ih j a (by simpa using h)
      simp only [List.set, List.sum_cons, List.getD_cons_succ, hj]
      ring

theorem get_random_ball_lt (rand : Nat → Nat) (table : List AliasRow) (rowMax : Int) :
    ∀ (fuel pos rid col : Nat) (column : Bool) (pos1 : Nat),
      get_random_ball_ rand table rowMax fuel pos = some (rid, col, column, pos1) →
      rid < table.length := by
  intro fuel
  induction fuel with
  | zero => intro pos rid col column pos1 h; exact Option.noConfusion h
  | succ m ih =>
    intro pos rid col column pos1 h
    unfold get_random_ball_ at h
    by_cases hg : table.length = 0 ∨ rowMax ≤ 0
    · rw [if_pos hg] at h; exact Option.noConfusion h
    rw [if_neg hg] at h
    dsimp only at h
    push_neg at hg
    have hM : 0 < rowMax.toNat := by omega
    have hlen0 : 0 < table.length := Nat.pos_of_ne_zero hg.1
    have hrand : rand pos % (table.length * rowMax.toNat) < table.length * rowMax.toNat :=
      Nat.mod_lt _ (Nat.mul_pos hlen0 hM)
    have hdiv : rand pos % (table.length * rowMax.toNat) / rowMax.toNat < table.length :=
      Nat.div_lt_of_lt_mul (Nat.lt_of_lt_of_eq hrand (Nat.mul_comm _ _))
    by_cases h1 : ((rand pos % (table.length * rowMax.toNat) % rowMax.toNat : Nat) : Int)
        < (tableGet table (rand pos % (table.length * rowMax.toNat) / rowMax.toNat)).w0
    · rw [if_pos h1] at h
      obtain h2 := Option.some.inj h
      rw [Prod.mk.injEq, Prod.mk.injEq, Prod.mk.injEq] at h2
      obtain ⟨rfl, -, -, -⟩ := h2
      exact hdiv
    · rw [if_neg h1] at h
      by_cases h2 : ((rand pos % (table.length * rowMax.toNat) % rowMax.toNat : Nat) : Int)
            - (tableGet table (rand pos % (table.length * rowMax.toNat) / rowMax.toNat)).w0
          < (tableGet table (rand pos % (table.length * rowMax.toNat) / rowMax.toNat)).w1
      · rw [if_pos h2] at h
        obtain h3 := Option.some.inj h
        rw [Prod.mk.injEq, Prod.mk.injEq, Prod.mk.injEq] at h3
        obtain ⟨rfl, -, -, -⟩ := h3
        exact hdiv
      · rw [if_neg h2] at h
        exact ih (pos + 1) rid col column pos1 h

/-- `add_balls` preserves the sum invariants whenever it completes, on every
oracle for the implementation-defined partner draws. -/
theorem add_balls_consistent (oracle : Nat → Nat) (u : AliasUrn) (col : Nat) (n : Int)
    (u' : AliasUrn) (hc : AliasConsistent u)
    (heq : AliasUrn.add_balls oracle u col n = some u') : AliasConsistent u' := by
  obtain ⟨hlen, hbsum, htsum⟩ := hc
  unfold AliasUrn.add_balls at heq
  by_cases hcol : u.alias_table.length ≤ col
  · rw [if_pos hcol] at heq; exact Option.noConfusion heq
  rw [if_neg hcol] at heq
  dsimp only at heq
  have hcollt : col < u.alias_table.length := Nat.lt_of_not_le hcol
  have hcolb : col < u.balls_with_color.length := by omega
  set row := tableGet u.alias_table col with hrowdef
  set table' := u.alias_table.set col { row with w0 := row.w0 + n } with htbl
  set balls' := u.balls_with_color.set col (ballsGet u.balls_with_color col + n) with hballs
  have hlen'1 : balls'.length = u.balls_with_color.length := by
    rw [hballs]; exact List.length_set _ _ _
  have hlen'2 : table'.length = u.alias_table.length := by
    rw [htbl]; exact List.length_set _ _ _
  have hlen' : balls'.length = table'.length := by omega
  have hbsum' : balls'.sum = u.number_of_balls + n := by
    rw [hballs, sum_set_int u.balls_with_color col _ hcolb]
    have : u.balls_with_color.getD col 0 = ballsGet u.balls_with_color col := rfl
    rw [this]
    rw [hbsum]
    ring
  have htsum' : sumTotals table' = u.number_of_balls + n := by
    rw [htbl]
    unfold sumTotals
    rw [sum_map_set AliasRow.total u.alias_table col _ ⟨0, 0, 0⟩ hcollt]
    have hg : u.alias_table.getD col ⟨0, 0, 0⟩ = row := rfl
    rw [hg]
    show (u.alias_table.map AliasRow.total).sum + (row.w0 + n + row.w1)
        - (row.w0 + row.w1) = u.number_of_balls + n
    have hts : (u.alias_table.map AliasRow.total).sum = u.number_of_balls := htsum
    rw [hts]
    ring
  by_cases hthr : AliasRow.total { row with w0 := row.w0 + n } < u.row_weight_lower ∨
      u.row_weight_upper < AliasRow.total { row with w0 := row.w0 + n }
  · rw [if_pos hthr] at heq
    rcases htf : tryFixLoop oracle u.row_weight_lower u.row_weight_upper col 5 0 table'
      with ⟨flag, table2, pos2⟩
    rw [htf] at heq
    have hfix := tryFixLoop_spec oracle u.row_weight_lower u.row_weight_upper col 5 0 table'
      (by omega)
    rw [htf] at hfix
    cases flag with
    | true =>
      dsimp only at heq hfix
      obtain rfl := Option.some.inj heq
      refine ⟨?_, ?_, ?_⟩
      · show balls'.length = table2.length
        rw [hfix.1]
        exact hlen'
      · exact hbsum'
      · show sumTotals table2 = u.number_of_balls + n
        rw [hfix.2]
        exact htsum'
    | false =>
      dsimp only at heq
      have := build_alias_table_sum _ u' hlen' hbsum' heq
      exact this.2.2.2
  · rw [if_neg hthr] at heq
    obtain rfl := Option.some.inj heq
    exact ⟨hlen', hbsum', htsum'⟩

/-- `remove_random_ball` preserves the sum invariants whenever it completes,
on every oracle stream for the caller-supplied generator. -/
theorem remove_random_ball_consistent (rand : Nat → Nat) (pos fuel : Nat) (u : AliasUrn)
    (c : Nat) (u' : AliasUrn) (pos' : Nat) (hc : AliasConsistent u)
    (heq : AliasUrn.remove_random_ball rand pos u fuel = some (c, u', pos')) :
    AliasConsistent u' := by
  obtain ⟨hlen, hbsum, htsum⟩ := hc
  unfold AliasUrn.remove_random_ball at heq
  cases hget : get_random_ball_ rand u.alias_table u.row_current_max fuel pos with
  | none => rw [hget] at heq; exact Option.noConfusion heq
  | some r =>
    obtain ⟨rid, color, column, pos1⟩ := r
    rw [hget] at heq
    dsimp only at heq
    have hrid : rid < u.alias_table.length :=
      get_random_ball_lt rand u.alias_table u.row_current_max fuel pos rid color column pos1 hget
    by_cases hcb : u.balls_with_color.length ≤ color
    · rw [if_pos hcb] at heq; exact Option.noConfusion heq
    rw [if_neg hcb] at heq
    have hcolb : color < u.balls_with_color.length := Nat.lt_of_not_le hcb
    set row := tableGet u.alias_table rid with hrowdef
    set row' := (if column then { row with w1 := row.w1 - 1 }
                 else { row with w0 := row.w0 - 1 }) with hrowpdef
    set table' := u.alias_table.set rid row' with htbl
    set balls' := u.balls_with_color.set color (ballsGet u.balls_with_color color - 1) with hballs
    have hlen'1 : balls'.length = u.balls_with_color.length := by
      rw [hballs]; exact List.length_set _ _ _
    have hlen'2 : table'.length = u.alias_table.length := by
      rw [htbl]; exact List.length_set _ _ _
    have hlen' : balls'.length = table'.length := by omega
    have hbsum' : balls'.sum = u.number_of_balls - 1 := by
      rw [hballs, sum_set_int u.balls_with_color color _ hcolb]
      have : u.balls_with_color.getD color 0 = ballsGet u.balls_with_color color := rfl
      rw [this, hbsum]
      ring
    have hrowtot : AliasRow.total row' = row.w0 + row.w1 - 1 := by
      rw [hrowpdef]
      cases column with
      | true => show row.w0 + (row.w1 - 1) = row.w0 + row.w1 - 1; ring
      | false => show row.w0 - 1 + row.w1 = row.w0 + row.w1 - 1; ring
    have htsum' : sumTotals table' = u.number_of_balls - 1 := by
      rw [htbl]
      unfold sumTotals
      rw [sum_map_set AliasRow.total u.alias_table rid _ ⟨0, 0, 0⟩ hrid]
      have hg : u.alias_table.getD rid ⟨0, 0, 0⟩ = row := rfl
      rw [hg, hrowtot]
      have hts : (u.alias_table.map AliasRow.total).sum = u.number_of_balls := htsum
      show (u.alias_table.map AliasRow.total).sum + (row.w0 + row.w1 - 1)
          - (row.w0 + row.w1) = u.number_of_balls - 1
      rw [hts]
      ring
    by_cases hthr : AliasRow.total row' < u.row_weight_lower
    · rw [if_pos hthr] at heq
      rcases htf : tryFixLoop rand u.row_weight_lower u.row_weight_upper rid 5 pos1 table'
        with ⟨flag, table2, pos2⟩
      rw [htf] at heq
      have hfix := tryFixLoop_spec rand u.row_weight_lower u.row_weight_upper rid 5 pos1 table'
        (by omega)
      rw [htf] at hfix
      cases flag with
      | true =>
        dsimp only at heq hfix
        obtain h2 := Option.some.inj heq
        rw [Prod.mk.injEq, Prod.mk.injEq] at h2
        obtain ⟨-, h2b, -⟩ := h2
        subst h2b
        refine ⟨?_, ?_, ?_⟩
        · show balls'.length = table2.length
          rw [hfix.1]
          exact hlen'
        · exact hbsum'
        · show sumTotals table2 = u.number_of_balls - 1
          rw [hfix.2]
          exact htsum'
      | false =>
        dsimp only at heq
        cases hbuild : build_alias_table
            { u with alias_table := table', balls_with_color := balls',
                     number_of_balls := u.number_of_balls - 1 } with
        | none => rw [hbuild] at heq; exact Option.noConfusion heq
        | some u2 =>
          rw [hbuild] at heq
          obtain h2 := Option.some.inj heq
          rw [Prod.mk.injEq, Prod.mk.injEq] at h2
          obtain ⟨-, h2b, -⟩ := h2
          subst h2b
          have := build_alias_table_sum _ u2 hlen' hbsum' hbuild
          exact this.2.2.2
    · rw [if_neg hthr] at heq
      obtain h2 := Option.some.inj heq
      rw [Prod.mk.injEq, Prod.mk.injEq] at h2
      obtain ⟨-, h2b, -⟩ := h2
      subst h2b
      exact ⟨hlen', hbsum', htsum'⟩

/-- `add_urn` rebuilds the alias table, so afterwards the sum invariants and
the per-row bracket both hold. -/
theorem add_urn_spec (u : AliasUrn) (other : List Int)
    (hc : AliasConsistent u) (hol : other.length = u.balls_with_color.length)
    (hN : 0 ≤ u.number_of_balls + other.sum) :
    ∃ u', AliasUrn.add_urn u other = some u' ∧ AliasConsistent u' ∧ RowBracket u' := by
  obtain ⟨hlen, hbsum, -⟩ := hc
  have hlen1 : (List.zipWith (· + ·) u.balls_with_color other).length
      = u.alias_table.length := by
    rw [List.length_zipWith]
    omega
  obtain ⟨u', hbuild, -, -, hcons, hbr⟩ := build_alias_table_spec
    { u with balls_with_color := List.zipWith (· + ·) u.balls_with_color other,
             number_of_balls := u.number_of_balls + other.sum }
    (by show (List.zipWith (· + ·) u.balls_with_color other).length = u.alias_table.length
        exact hlen1)
    (by show (List.zipWith (· + ·) u.balls_with_color other).sum
          = u.number_of_balls + other.sum
        rw [sum_zipWith_add_int u.balls_with_color other hol.symm, hbsum])
    (by show 0 ≤ u.number_of_balls + other.sum
        exact hN)
  exact ⟨u', hbuild, hcons, hbr⟩

/-- **C6** (corrected).  The claimed invariant does NOT hold after every
public mutating operation: `add_balls` and `remove_random_ball` adjust a
single row and rebuild or fix the table only when the row leaves the
`[row_weight_lower_, row_weight_upper_]` window, so a row's total can sit
outside `{⌊N/S⌋, ⌊N/S⌋+1}` while `N` (and with it `⌊N/S⌋`) has moved (see
the counterexample).  What does hold, and is proved here: (1) `add_balls`
and (2) `remove_random_ball` preserve the total-weight invariant — the
alias-table row totals and the per-color counts each sum to
`number_of_balls_` — for every oracle realisation of the
implementation-defined generator draws; and (3) `add_urn`, which always
rebuilds the table, additionally re-establishes the per-row bracket: after
it, every row's two weights sum to `⌊N/S⌋` or `⌊N/S⌋ + 1`. -/
theorem claim_C6 :
    (∀ oracle (u : AliasUrn) col n u', AliasConsistent u →
      AliasUrn.add_balls oracle u col n = some u' → AliasConsistent u') ∧
    (∀ rand pos fuel (u : AliasUrn) c u' pos', AliasConsistent u →
      AliasUrn.remove_random_ball rand pos u fuel = some (c, u', pos') →
      AliasConsistent u') ∧
    (∀ (u : AliasUrn) other, AliasConsistent u →
      other.length = u.balls_with_color.length →
      0 ≤ u.number_of_balls + other.sum →
      ∃ u', AliasUrn.add_urn u other = some u' ∧ AliasConsistent u' ∧ RowBracket u') :=
  ⟨fun oracle u col n u' hc heq => add_balls_consistent oracle u col n u' hc heq,
   fun rand pos fuel u c u' pos' hc heq =>
     remove_random_ball_consistent rand pos fuel u c u' pos' hc heq,
   fun u other hc hol hN => add_urn_spec u other hc hol hN⟩

/-- Witness for C6: the three parts of the theorem applied to the concrete
two-color urn built by `add_urn [3, 2]` from a fresh urn (then `add_balls`
on color 1, a `remove_random_ball` draw, and the `add_urn` itself). -/
theorem claim_C6_witness :
    AliasConsistent ⟨6, [⟨2, 0, 0⟩, ⟨3, 1, 0⟩], [3, 3], 1, 5, 4⟩ ∧
    AliasConsistent ⟨4, [⟨1, 0, 0⟩, ⟨2, 1, 0⟩], [2, 2], 1, 5, 3⟩ ∧
    ∃ u', AliasUrn.add_urn (AliasUrn.init 2) [3, 2] = some u' ∧
      AliasConsistent u' ∧ RowBracket u' := by
  refine ⟨?_, ?_, ?_⟩
  · exact claim_C6.1 (fun _ => 0) ⟨5, [⟨2, 0, 0⟩, ⟨2, 1, 0⟩], [3, 2], 1, 5, 3⟩ 1 1
      ⟨6, [⟨2, 0, 0⟩, ⟨3, 1, 0⟩], [3, 3], 1, 5, 4⟩ (by decide) (by decide)
  · exact claim_C6.2.1 (fun _ => 0) 0 1 ⟨5, [⟨2, 0, 0⟩, ⟨2, 1, 0⟩], [3, 2], 1, 5, 3⟩ 0
      ⟨4, [⟨1, 0, 0⟩, ⟨2, 1, 0⟩], [2, 2], 1, 5, 3⟩ 1 (by decide) (by decide)
  · exact claim_C6.2.2 (AliasUrn.init 2) [3, 2] (by decide) (by decide) (by decide)

/-- Counterexample to C6 as stated: build a two-color urn with counts
`[3, 2]` (rows total `2` and `3`, `N = 5`, thresholds `lower = 1`,
`upper = 5`), then `add_balls(col 1, n 1)`.  The touched row moves to total
`4`, which stays inside the threshold window, so no rebuild happens — but
now `N = 6`, `S = 2`, `⌊N/S⌋ = 3`, and row 0 still totals `2 ∉ {3, 4}`.
The sums still match (`AliasConsistent` holds) while the per-row bracket of
the claim fails. -/
theorem claim_C6_counterexample :
    ∃ u1 u2 : AliasUrn,
      AliasUrn.add_urn (AliasUrn.init 2) [3, 2] = some u1 ∧
      AliasUrn.add_balls (fun _ => 0) u1 1 1 = some u2 ∧
      AliasConsistent u2 ∧ ¬ RowBracket u2 := by
  refine ⟨⟨5, [⟨2, 0, 0⟩, ⟨2, 1, 0⟩], [3, 2], 1, 5, 3⟩,
          ⟨6, [⟨2, 0, 0⟩, ⟨3, 1, 0⟩], [3, 3], 1, 5, 4⟩,
          by decide, by decide, by decide, by decide⟩

end PPS
